import Mathlib

/-!
Verification development for the A-mazing maze generator.

The definitions below are a shallow embedding of the Python sources:
`mazegen/maze.py` (grid model), `mazegen/maze_42.py` (pattern),
`mazegen/maze_generator.py` (carver, braider, solver) and
`render_maze.py` (render expander).  Python's mutable `Maze` object is
modelled by explicit state passing; the grid (a list of lists indexed
`grid[y][x]`) is modelled as a total function from integer coordinates to
cells, written only at the points the Python code writes; randomness
(`random.shuffle`, `random.random() < 0.1`) is modelled by an oracle
supplying the outcome of each call; the `assert False` branch of
`has_wall_between` is modelled by `Option`; `while` loops are modelled with
explicit fuel, with lemmas showing the fuel chosen suffices.
-/

namespace Mazegen

/-- Coordinates are integer pairs `(x, y)`, as in `maze.py`. -/
abbrev Coordinate := Int × Int

/-- Cell types from `maze.py` (`class CellType(Enum)`). -/
inductive CellType where
  | OPEN
  | BLOCKED
  | PATH
  | ENTRY
  | EXIT
deriving DecidableEq, Repr

/-- A maze cell from `maze.py` (`@dataclass class Cell`): four wall flags,
all present by default, and a cell type, `OPEN` by default. -/
structure Cell where
  west : Bool := true
  south : Bool := true
  east : Bool := true
  north : Bool := true
  type : CellType := CellType.OPEN
deriving DecidableEq, Repr

/-- The maze from `maze.py` (`class Maze`): dimensions, the cell grid
(`grid[y][x]`, modelled as a total function on coordinates), and the stored
solution path. -/
structure Maze where
  width : Nat
  height : Nat
  grid : Coordinate → Cell
  path : List Coordinate

/-- `Maze.__init__`: all cells open with all four walls present. -/
def Maze.init (width height : Nat) : Maze :=
  { width := width, height := height, grid := fun _ => {}, path := [] }

/-- `Maze.get_cell(x, y)` returns `grid[y][x]`. -/
def Maze.get_cell (m : Maze) (x y : Int) : Cell :=
  m.grid (x, y)

/-- Point update of the grid at `(x, y)` (a Python in-place `cell.set(...)`). -/
def Maze.modifyCell (m : Maze) (x y : Int) (f : Cell → Cell) : Maze :=
  { m with grid := fun q => if q = (x, y) then f (m.grid q) else m.grid q }

/-- Full overwrite of the cell at `(x, y)` (`cell.set(**source_cell.__dict__)`). -/
def Maze.setCell (m : Maze) (x y : Int) (c : Cell) : Maze :=
  m.modifyCell x y (fun _ => c)

/-- `Maze.get_all_coordinates`: `[(x, y) for y in range(height) for x in range(width)]`. -/
def Maze.get_all_coordinates (m : Maze) : List Coordinate :=
  (List.range m.height).flatMap (fun (y : Nat) =>
    (List.range m.width).map (fun (x : Nat) => ((x : Int), (y : Int))))

/-- `Cell.blocked` property. -/
def Cell.blocked (c : Cell) : Bool :=
  c.type = CellType.BLOCKED

/-- `Maze.get_blocked_cells`: coordinates whose cell type is `BLOCKED`,
in `y`-major order. -/
def Maze.get_blocked_cells (m : Maze) : List Coordinate :=
  ((List.range m.height).flatMap (fun (y : Nat) =>
    (List.range m.width).map (fun (x : Nat) => ((x : Int), (y : Int))))).filter
      (fun c => (m.get_cell c.1 c.2).blocked)

/-- `Maze.has_wall_between(previous, current)`: reads the flag of the
*previous* cell facing the current one, choosing the direction by comparing
x first, then y, exactly as the Python `if/elif` chain does; the final
`assert False` (identical coordinates) is modelled by `none`. -/
def Maze.has_wall_between (m : Maze) (p c : Coordinate) : Option Bool :=
  if p.1 < c.1 then some (m.get_cell p.1 p.2).east
  else if c.1 < p.1 then some (m.get_cell p.1 p.2).west
  else if p.2 < c.2 then some (m.get_cell p.1 p.2).south
  else if c.2 < p.2 then some (m.get_cell p.1 p.2).north
  else none

/-- Wall query as the call sites use it: every call site of
`has_wall_between` in the generator passes adjacent (hence distinct)
coordinates, for which the result is always `some`; the default is never
reached there. -/
def Maze.wallD (m : Maze) (p c : Coordinate) : Bool :=
  (m.has_wall_between p c).getD true

/-- `Maze.set_wall_at(previous, current, set_wall)`: adds or removes the
wall between two cells, updating both facing flags; identical coordinates
are a no-op (the Python method returns `False` there, a value its callers
ignore).  Branch order (y first, then x) follows the Python code. -/
def Maze.set_wall_at (m : Maze) (p c : Coordinate) (w : Bool) : Maze :=
  if p = c then m
  else if c.2 < p.2 then
    (m.modifyCell c.1 c.2 (fun cl => { cl with south := w })).modifyCell p.1 p.2
      (fun cl => { cl with north := w })
  else if p.2 < c.2 then
    (m.modifyCell c.1 c.2 (fun cl => { cl with north := w })).modifyCell p.1 p.2
      (fun cl => { cl with south := w })
  else if p.1 < c.1 then
    (m.modifyCell c.1 c.2 (fun cl => { cl with west := w })).modifyCell p.1 p.2
      (fun cl => { cl with east := w })
  else if c.1 < p.1 then
    (m.modifyCell c.1 c.2 (fun cl => { cl with east := w })).modifyCell p.1 p.2
      (fun cl => { cl with west := w })
  else m

/-- `Maze.copy_from(source, offset_x, offset_y)`: overwrites the destination
rectangle with the source cells, for the source's full extent. -/
def Maze.copy_from (m : Maze) (source : Maze) (ox oy : Int) : Maze :=
  (List.range source.width).foldl (fun acc (x : Nat) =>
    (List.range source.height).foldl (fun acc2 (y : Nat) =>
      acc2.setCell (ox + (x : Int)) (oy + (y : Int))
        (source.get_cell (x : Int) (y : Int))) acc) m

/-- `Maze.set_path`. -/
def Maze.set_path (m : Maze) (p : List Coordinate) : Maze :=
  { m with path := p }

/-- The blocked coordinates of the `42` template, in source order
(`maze_42.py`). -/
def maze42Blocked : List Coordinate :=
  [(0, 0), (0, 1), (0, 2), (1, 2), (2, 0), (2, 1), (2, 2), (2, 3), (2, 4),
   (4, 0), (5, 0), (6, 0), (6, 1), (6, 2), (5, 2), (4, 2), (4, 3), (4, 4),
   (5, 4), (6, 4)]

/-- The predefined 7x5 mini maze carrying the `42` pattern (`maze_42.py`):
a fresh `Maze(7, 5)` whose listed cells get type `BLOCKED`. -/
def maze_42 : Maze :=
  maze42Blocked.foldl
    (fun m c => m.modifyCell c.1 c.2 (fun cl => { cl with type := CellType.BLOCKED }))
    (Maze.init 7 5)

/-- Two coordinates are adjacent iff they differ by exactly 1 in exactly
one axis (spec section 3). -/
def Adjacent (a b : Coordinate) : Prop :=
  (a.1 = b.1 ∧ (a.2 = b.2 + 1 ∨ b.2 = a.2 + 1)) ∨
  (a.2 = b.2 ∧ (a.1 = b.1 + 1 ∨ b.1 = a.1 + 1))

instance (a b : Coordinate) : Decidable (Adjacent a b) := by
  unfold Adjacent; infer_instance

/-- The validated configuration consumed by the generator
(`config_parser.py`, `@dataclass class Config`); the output file name plays
no role in generation and is omitted. -/
structure Config where
  width : Nat
  height : Nat
  entry : Coordinate
  exit : Coordinate
  perfect : Bool
  seed : Option Int
deriving DecidableEq, Repr

/-- Randomness oracle: the `n`-th call of `random.shuffle` permutes its
input according to `shuffle n`, and the `n`-th draw of
`random.random() < 0.1` yields `coin n`.  Theorems quantify over all
oracles whose `shuffle` returns a permutation of its input. -/
structure Oracle where
  shuffle : Nat → List (Coordinate × Coordinate) → List (Coordinate × Coordinate)
  coin : Nat → Bool

/-- An oracle permutes: every shuffle returns a permutation of its input
(what `random.shuffle` guarantees). -/
def Oracle.Permutes (o : Oracle) : Prop :=
  ∀ n l, (o.shuffle n l).Perm l

/-- The trivial oracle: shuffles are identities, every coin is false. -/
def oTriv : Oracle :=
  { shuffle := fun _ l => l, coin := fun _ => false }

/-- The mutable state of `MazeGenerator`: the `visited` list, the maze under
construction, and how much randomness has been consumed so far. -/
structure GenState where
  visited : List Coordinate
  maze : Maze
  rng : Nat

/-- `MazeGenerator.get_unvisited_neighbors(coordinate, bottom_and_right_only)`:
collects the in-bounds neighbors not in `visited` in order north, west,
south, east (north and west only when `bottom_and_right_only` is false),
pairs each with the current coordinate, then shuffles the batch.  Returns
the shuffled list and the advanced oracle position. -/
def get_unvisited_neighbors (o : Oracle) (cfg : Config) (visited : List Coordinate)
    (rng : Nat) (c : Coordinate) (bro : Bool) :
    List (Coordinate × Coordinate) × Nat :=
  let x := c.1
  let y := c.2
  let northPart : List (Coordinate × Coordinate) :=
    if bro = false ∧ 0 < y ∧ (x, y - 1) ∉ visited then [((x, y), (x, y - 1))] else []
  let westPart : List (Coordinate × Coordinate) :=
    if bro = false ∧ 0 < x ∧ (x - 1, y) ∉ visited then [((x, y), (x - 1, y))] else []
  let southPart : List (Coordinate × Coordinate) :=
    if y < (cfg.height : Int) - 1 ∧ (x, y + 1) ∉ visited then [((x, y), (x, y + 1))] else []
  let eastPart : List (Coordinate × Coordinate) :=
    if x < (cfg.width : Int) - 1 ∧ (x + 1, y) ∉ visited then [((x, y), (x + 1, y))] else []
  (o.shuffle rng (northPart ++ westPart ++ southPart ++ eastPart), rng + 1)

/-- One run of the `while stack` loop of `MazeGenerator.carve_maze`, with
explicit fuel (the Python loop terminates because each iteration either
discards a stack entry or visits a new cell; `carve_fuel` below suffices,
as proved in `carve_loop_completes`).  Popping `(previous, current)`: skip
if `current` is visited, otherwise append it to `visited`, remove the wall
to `previous`, and prepend its shuffled unvisited neighbors. -/
def carve_loop (o : Oracle) (cfg : Config) :
    Nat → List (Coordinate × Coordinate) → GenState → GenState
  | 0, _, s => s
  | _ + 1, [], s => s
  | fuel + 1, (p, c) :: rest, s =>
      if c ∈ s.visited then carve_loop o cfg fuel rest s
      else
        let visited' := s.visited ++ [c]
        let maze' := s.maze.set_wall_at p c false
        let nr := get_unvisited_neighbors o cfg visited' s.rng c false
        carve_loop o cfg fuel (nr.1 ++ rest)
          { visited := visited', maze := maze', rng := nr.2 }

/-- Fuel that always outlasts the carve loop (see `carve_loop_completes`). -/
def carve_fuel (cfg : Config) : Nat :=
  4 * cfg.width * cfg.height + 4

/-- `MazeGenerator.carve_maze`: DFS wall carving seeded with the entry
paired with itself. -/
def carve_maze (o : Oracle) (cfg : Config) (s : GenState) : GenState :=
  carve_loop o cfg (carve_fuel cfg) [(cfg.entry, cfg.entry)] s

/-- Python `range(a, b + 1)` over integers: `[a, a+1, ..., b]`, empty when
`b < a`. -/
def intRange (a b : Int) : List Int :=
  (List.range (b + 1 - a).toNat).map (fun (i : Nat) => a + (i : Int))

/-- `MazeGenerator.get_invalid_size_squares(adj_cells)`: the candidate 3x3
squares checked after a tentative removal.  The bounds are exactly the
Python expressions (`max(max(0, coord - 3 - 1) ...)` and
`min(min(dim - 3, coord) ...)` per axis); each square is its nine
coordinates listed x-major. -/
def get_invalid_size_squares (cfg : Config) (adj : Coordinate × Coordinate) :
    List (List Coordinate) :=
  let minX := max (max 0 (adj.1.1 - 3 - 1)) (max 0 (adj.2.1 - 3 - 1))
  let maxX := min (min ((cfg.width : Int) - 3) adj.1.1) (min ((cfg.width : Int) - 3) adj.2.1)
  let minY := max (max 0 (adj.1.2 - 3 - 1)) (max 0 (adj.2.2 - 3 - 1))
  let maxY := min (min ((cfg.height : Int) - 3) adj.1.2) (min ((cfg.height : Int) - 3) adj.2.2)
  (intRange minX maxX).flatMap (fun row =>
    (intRange minY maxY).map (fun col =>
      (intRange row (row + 2)).flatMap (fun x =>
        (intRange col (col + 2)).map (fun y => ((x, y) : Coordinate)))))

/-- The inner-wall count of `MazeGenerator.remove_wall_if_valid`: for
`x in range(0, 7, 3)` count the walls between `square[x+y]` and
`square[x+y+1]` for `y in range(2)`, and, when `x < 6`, the walls between
`square[y]` and `square[y+3]` for `y in range(3)` (note the Python index
`square[y]`, not `square[x+y]`). -/
def inner_walls (m : Maze) (sq : List Coordinate) : Nat :=
  ([0, 3, 6] : List Nat).foldl (fun acc x =>
    let acc1 := ([0, 1] : List Nat).foldl (fun a y =>
      if m.wallD (sq.getD (x + y) (0, 0)) (sq.getD (x + y + 1) (0, 0)) then a + 1 else a) acc
    if x < 6 then
      ([0, 1, 2] : List Nat).foldl (fun a y =>
        if m.wallD (sq.getD y (0, 0)) (sq.getD (y + 3) (0, 0)) then a + 1 else a) acc1
    else acc1) 0

/-- `MazeGenerator.remove_wall_if_valid(prev, curr)`: tentatively remove the
wall; if some candidate square (taken in order, stopping at the first) has
an inner-wall count of zero, put the wall back. -/
def remove_wall_if_valid (cfg : Config) (m : Maze) (p c : Coordinate) : Maze :=
  let m1 := m.set_wall_at p c false
  if (get_invalid_size_squares cfg (p, c)).any (fun sq => inner_walls m1 sq = 0) then
    m1.set_wall_at p c true
  else m1

/-- `MazeGenerator.make_imperfect`: reset `visited` to the blocked cells,
then for every non-blocked cell take its shuffled south/east unvisited
neighbors and, for each that still has a wall, remove it with probability
10% (`coin`), subject to `remove_wall_if_valid`. -/
def make_imperfect (o : Oracle) (cfg : Config) (s : GenState) : GenState :=
  let visited := s.maze.get_blocked_cells
  (s.maze.get_all_coordinates).foldl (fun st xy =>
    if (st.maze.get_cell xy.1 xy.2).blocked then st
    else
      let nr := get_unvisited_neighbors o cfg visited st.rng xy true
      nr.1.foldl (fun st2 pc =>
        if st2.maze.wallD pc.1 pc.2 then
          if o.coin st2.rng then
            { st2 with maze := remove_wall_if_valid cfg st2.maze pc.1 pc.2,
                       rng := st2.rng + 1 }
          else { st2 with rng := st2.rng + 1 }
        else st2) { st with rng := nr.2 })
    { s with visited := visited }

/-- History lookup, `history.get(c)`: the stored predecessor option, or
`none` when the key is absent. -/
def historyGet (h : List (Coordinate × Option Coordinate)) (c : Coordinate) :
    Option Coordinate :=
  match h.find? (fun e => e.1 = c) with
  | some e => e.2
  | none => none

/-- `c in history`. -/
def historyHasKey (h : List (Coordinate × Option Coordinate)) (c : Coordinate) : Bool :=
  (h.find? (fun e => e.1 = c)).isSome

/-- The BFS loop of `MazeGenerator.solve_maze`, with explicit fuel
(`solve_fuel` suffices, see `solve_loop_completes`): pop the front
coordinate; stop on the exit; otherwise enqueue each unvisited neighbor
that is wall-free and not yet in the history, recording its predecessor. -/
def solve_loop (o : Oracle) (cfg : Config) (maze : Maze) (visited : List Coordinate) :
    Nat → List Coordinate → List (Coordinate × Option Coordinate) → Nat →
    List (Coordinate × Option Coordinate) × Nat
  | 0, _, history, rng => (history, rng)
  | _ + 1, [], history, rng => (history, rng)
  | fuel + 1, p :: rest, history, rng =>
      if p = cfg.exit then (history, rng)
      else
        let nr := get_unvisited_neighbors o cfg visited rng p false
        let hs := nr.1.foldl (fun (acc : List (Coordinate × Option Coordinate) × List Coordinate) pc =>
          if maze.wallD pc.1 pc.2 = false ∧ historyHasKey acc.1 pc.2 = false then
            (acc.1 ++ [(pc.2, some pc.1)], acc.2 ++ [pc.2])
          else acc) (history, rest)
        solve_loop o cfg maze visited fuel hs.2 hs.1 nr.2

/-- Fuel that always outlasts the BFS loop. -/
def solve_fuel (cfg : Config) : Nat :=
  cfg.width * cfg.height + 1

/-- The backward walk of `solve_maze`: starting from the exit, repeatedly
mark the current cell `PATH`, append it to the path, and move to its
predecessor, until `history.get` yields `None`.  Fuel `|history| + 1`
suffices because predecessors were inserted strictly earlier. -/
def back_walk (history : List (Coordinate × Option Coordinate)) :
    Nat → Maze → List Coordinate → Option Coordinate → Maze × List Coordinate
  | 0, m, path, _ => (m, path)
  | _ + 1, m, path, none => (m, path)
  | fuel + 1, m, path, some c =>
      back_walk history fuel
        (m.modifyCell c.1 c.2 (fun cl => { cl with type := CellType.PATH }))
        (path ++ [c]) (historyGet history c)

/-- `MazeGenerator.solve_maze`: BFS from the entry, backward path
reconstruction from the exit, reversal, storing the path, and marking the
entry and exit cells. -/
def solve_maze (o : Oracle) (cfg : Config) (s : GenState) : GenState :=
  let visited := s.maze.get_blocked_cells
  let hr := solve_loop o cfg s.maze visited (solve_fuel cfg)
    [cfg.entry] [(cfg.entry, none)] s.rng
  let mp := back_walk hr.1 (hr.1.length + 1) s.maze [] (some cfg.exit)
  let m1 := (mp.1.set_path mp.2.reverse).modifyCell cfg.entry.1 cfg.entry.2
    (fun cl => { cl with type := CellType.ENTRY })
  let m2 := m1.modifyCell cfg.exit.1 cfg.exit.2
    (fun cl => { cl with type := CellType.EXIT })
  { visited := visited, maze := m2, rng := hr.2 }

/-- `MazeGenerator.draw_42`: embed the template centered, or do nothing when
the maze is too small (`width < template_width + 2` or likewise for the
height). -/
def draw_42 (m : Maze) : Maze :=
  if m.width < maze_42.width + 2 ∨ m.height < maze_42.height + 2 then m
  else m.copy_from maze_42 (((m.width - maze_42.width) / 2 : Nat) : Int)
    (((m.height - maze_42.height) / 2 : Nat) : Int)

/-- `MazeGenerator.create_maze`: build the closed grid, embed the pattern,
fail with the blocked-coordinate list when the entry or exit lies in it,
otherwise carve, optionally braid, and solve.  The raised
`EntryExitInFTError` is modelled by the `Except.error` carrying the
blocked list it reports. -/
def create_maze (o : Oracle) (cfg : Config) : Except (List Coordinate) Maze :=
  let m1 := draw_42 (Maze.init cfg.width cfg.height)
  let visited := m1.get_blocked_cells
  if cfg.entry ∈ visited ∨ cfg.exit ∈ visited then
    Except.error visited
  else
    let s1 := carve_maze o cfg { visited := visited, maze := m1, rng := 0 }
    let s2 := if cfg.perfect = false then make_imperfect o cfg s1 else s1
    let s3 := solve_maze o cfg s2
    Except.ok s3.maze

/-- `Cell.path` property. -/
def Cell.path (c : Cell) : Bool :=
  c.type = CellType.PATH

/-- `Cell.entry` property. -/
def Cell.entry (c : Cell) : Bool :=
  c.type = CellType.ENTRY

/-- `Cell.exit` property. -/
def Cell.exit (c : Cell) : Bool :=
  c.type = CellType.EXIT

/-- Render cell types (`render_maze.py`, `class RCellType`). -/
inductive RCellType where
  | VERTICAL
  | HORIZONTAL
  | CENTER
  | CORNER
deriving DecidableEq, Repr

/-- Corner/junction shapes (`render_maze.py`, `class CornerType`). -/
inductive CornerType where
  | HOR
  | VER
  | TL
  | TR
  | BL
  | BR
  | T_UP
  | T_DOWN
  | T_LEFT
  | T_RIGHT
  | CROSS
  | NONE
deriving DecidableEq, Repr

/-- A render cell (`@dataclass class RCell`); the Python field `open` is a
reserved word in Lean and is called `open_` here. -/
structure RCell where
  blocked : Bool := false
  path : Bool := false
  entry : Bool := false
  exit : Bool := false
  open_ : Bool := false
  type : RCellType := RCellType.CENTER
  corner_type : CornerType := CornerType.NONE
deriving DecidableEq, Repr

/-- `class RenderMaze`: a `(2*height+1) x (2*width+1)` grid of render
cells, indexed `grid[row][col]` and modelled as a total function on
`(row, col)`. -/
structure RenderMaze where
  width : Nat
  height : Nat
  grid : Nat × Nat → RCell

/-- `RenderMaze.__init__`: all cells default. -/
def RenderMaze.ofMaze (m : Maze) : RenderMaze :=
  { width := m.width * 2 + 1, height := m.height * 2 + 1, grid := fun _ => {} }

/-- Assignment `r_grid[r][c] = cell`. -/
def RenderMaze.rset (g : RenderMaze) (r c : Nat) (cell : RCell) : RenderMaze :=
  { g with grid := fun q => if q = (r, c) then cell else g.grid q }

/-- In-place `r_grid[r][c].set(...)`. -/
def RenderMaze.rmodify (g : RenderMaze) (r c : Nat) (f : RCell → RCell) : RenderMaze :=
  { g with grid := fun q => if q = (r, c) then f (g.grid q) else g.grid q }

/-- `RenderMazeGenerator.set_corner(col, top, prev)`: a corner render cell
whose junction shape is decided by the Python decision table (note the
table leaves some flag combinations at `NONE`). -/
def set_corner (col : Cell) (top prev : Option Cell) : RCell :=
  match top, prev with
  | none, none => { type := RCellType.CORNER, corner_type := CornerType.TL }
  | none, some prev =>
      if prev.east then { type := RCellType.CORNER, corner_type := CornerType.T_DOWN }
      else { type := RCellType.CORNER, corner_type := CornerType.HOR }
  | some _, none =>
      if col.north then { type := RCellType.CORNER, corner_type := CornerType.T_RIGHT }
      else { type := RCellType.CORNER, corner_type := CornerType.VER }
  | some top, some prev =>
      if col.north then
        if prev.north = false then
          if col.west ∧ top.west then
            { type := RCellType.CORNER, corner_type := CornerType.T_RIGHT }
          else if col.west ∧ top.west = false then
            { type := RCellType.CORNER, corner_type := CornerType.TL }
          else if col.west = false ∧ top.west then
            { type := RCellType.CORNER, corner_type := CornerType.BL }
          else { type := RCellType.CORNER }
        else
          if col.west = false ∧ top.west = false then
            { type := RCellType.CORNER, corner_type := CornerType.HOR }
          else if col.west ∧ top.west then
            { type := RCellType.CORNER, corner_type := CornerType.CROSS }
          else if col.west ∧ top.west = false then
            { type := RCellType.CORNER, corner_type := CornerType.T_DOWN }
          else if col.west = false ∧ top.west then
            { type := RCellType.CORNER, corner_type := CornerType.T_UP }
          else { type := RCellType.CORNER }
      else
        if prev.north then
          if col.west ∧ top.west then
            { type := RCellType.CORNER, corner_type := CornerType.T_LEFT }
          else if col.west ∧ top.west = false then
            { type := RCellType.CORNER, corner_type := CornerType.TR }
          else if col.west = false ∧ top.west then
            { type := RCellType.CORNER, corner_type := CornerType.BR }
          else { type := RCellType.CORNER }
        else
          if col.west ∧ top.west then
            { type := RCellType.CORNER, corner_type := CornerType.VER }
          else { type := RCellType.CORNER }

/-- `RenderMazeGenerator.set_last_col_corner(col)`. -/
def set_last_col_corner (col : Cell) : RCell :=
  if col.north then { type := RCellType.CORNER, corner_type := CornerType.T_LEFT }
  else { type := RCellType.CORNER, corner_type := CornerType.VER }

/-- `RenderMazeGenerator.set_hor_wall(col, top)`; the `or`/`and` precedence
of the Python conditions (`top.entry or top.exit and col.path`) is kept. -/
def set_hor_wall (col : Cell) (top : Option Cell) : RCell :=
  match top with
  | none => { type := RCellType.HORIZONTAL }
  | some top =>
      if col.north = false then
        let base : RCell := { type := RCellType.HORIZONTAL, open_ := true }
        if col.blocked ∧ top.blocked then { base with blocked := true }
        else if col.path ∧ top.path then { base with path := true }
        else if top.entry ∨ (top.exit ∧ col.path) then { base with path := true }
        else if col.entry ∨ (col.exit ∧ top.path) then { base with path := true }
        else base
      else { type := RCellType.HORIZONTAL }

/-- `RenderMazeGenerator.set_ver_wall(col, prev)`; Python precedence kept
(`col.exit or col.entry and prev.path`, `col.path and prev.entry or
prev.exit`). -/
def set_ver_wall (col : Cell) (prev : Option Cell) : RCell :=
  match prev with
  | none => { type := RCellType.VERTICAL }
  | some prev =>
      if col.west = false then
        let base : RCell := { type := RCellType.VERTICAL, open_ := true }
        if col.blocked ∧ prev.blocked then { base with blocked := true }
        else if col.path ∧ prev.path then { base with path := true }
        else if col.exit ∨ (col.entry ∧ prev.path) then { base with path := true }
        else if (col.path ∧ prev.entry) ∨ prev.exit then { base with path := true }
        else base
      else { type := RCellType.VERTICAL }

/-- `RenderMazeGenerator.set_center(col)`. -/
def set_center (col : Cell) : RCell :=
  if col.blocked then { type := RCellType.CENTER, blocked := true }
  else if col.path then { type := RCellType.CENTER, path := true }
  else if col.entry then { type := RCellType.CENTER, entry := true }
  else if col.exit then { type := RCellType.CENTER, exit := true }
  else { type := RCellType.CENTER }

/-- `RenderMazeGenerator.set_last_row(c, maze)`: corner cells in even
columns and horizontal segments in odd ones, with the bottom-left and
bottom-right corners special-cased. -/
def set_last_row (maze : Maze) (c : Nat) : RCell :=
  let t := if c % 2 = 0 then RCellType.CORNER else RCellType.HORIZONTAL
  if c = 0 then { type := t, corner_type := CornerType.BL }
  else
    let rowM : Nat := maze.height - 1
    let colM : Nat := c / 2
    if colM = maze.width then { type := RCellType.CORNER, corner_type := CornerType.BR }
    else
      let mCell := maze.get_cell (colM : Int) (rowM : Int)
      if mCell.west then { type := t, corner_type := CornerType.T_UP }
      else { type := t, corner_type := CornerType.HOR }

/-- `RenderMazeGenerator.get_top_cell(row, col, maze)`. -/
def get_top_cell (r c : Nat) (maze : Maze) : Option Cell :=
  if 0 < r then some (maze.get_cell (c : Int) ((r - 1 : Nat) : Int)) else none

/-- `RenderMazeGenerator.get_prev_cell(row, col, maze)`. -/
def get_prev_cell (r c : Nat) (maze : Maze) : Option Cell :=
  if 0 < c then some (maze.get_cell ((c - 1 : Nat) : Int) (r : Int)) else none

/-- The body of the inner loop of `RenderMazeGenerator.create`: turn the
logical cell at column `c`, row `r` into its four render cells (top-left
corner, top-right horizontal segment, bottom-left vertical segment,
bottom-right center). -/
def rm_block (maze : Maze) (g : RenderMaze) (r c : Nat) : RenderMaze :=
  let col := maze.get_cell (c : Int) (r : Int)
  let top := get_top_cell r c maze
  let prev := get_prev_cell r c maze
  (((g.rset (r * 2) (c * 2) (set_corner col top prev)).rset (r * 2) (c * 2 + 1)
      (set_hor_wall col top)).rset (r * 2 + 1) (c * 2)
      (set_ver_wall col prev)).rset (r * 2 + 1) (c * 2 + 1) (set_center col)

/-- The body of the outer loop of `RenderMazeGenerator.create`: expand every
cell of row `r`, then set the row's trailing corner and trailing vertical
segment in the last render column. -/
def rm_row (maze : Maze) (lastCol : Nat) (g : RenderMaze) (r : Nat) : RenderMaze :=
  let g := (List.range maze.width).foldl (fun g (c : Nat) => rm_block maze g r c) g
  let g :=
    if r = 0 then
      g.rmodify (r * 2) lastCol
        (fun rc => { rc with type := RCellType.CORNER, corner_type := CornerType.TR })
    else
      g.rset (r * 2) lastCol
        (set_last_col_corner (maze.get_cell ((maze.width - 1 : Nat) : Int) (r : Int)))
  g.rmodify (r * 2 + 1) lastCol (fun rc => { rc with type := RCellType.VERTICAL })

/-- `RenderMazeGenerator.create(maze)`: expand every logical cell into its
2x2 block per row (with the row's trailing column cells), then fill the
trailing render row. -/
def rm_create (maze : Maze) : RenderMaze :=
  let g0 := RenderMaze.ofMaze maze
  let g1 := (List.range maze.height).foldl (rm_row maze (g0.width - 1)) g0
  (List.range g0.width).foldl
    (fun g (c : Nat) => g.rset (g0.height - 1) c (set_last_row maze c)) g1

/-! ## Specification-side definitions -/

/-- In-bounds for a `w x h` grid. -/
def inGrid (w h : Nat) (c : Coordinate) : Prop :=
  0 ≤ c.1 ∧ c.1 < (w : Int) ∧ 0 ≤ c.2 ∧ c.2 < (h : Int)

instance (w h : Nat) (c : Coordinate) : Decidable (inGrid w h c) := by
  unfold inGrid; infer_instance

/-- In-bounds for the configured grid. -/
def InB (cfg : Config) (c : Coordinate) : Prop :=
  inGrid cfg.width cfg.height c

instance (cfg : Config) (c : Coordinate) : Decidable (InB cfg c) := by
  unfold InB; infer_instance

/-- Every wall flag of every cell is present. -/
def AllWalls (m : Maze) : Prop :=
  ∀ x y : Int, (m.get_cell x y).west = true ∧ (m.get_cell x y).south = true ∧
    (m.get_cell x y).east = true ∧ (m.get_cell x y).north = true

/-- Symmetry of the wall state between adjacent cells. -/
def WallSym (m : Maze) : Prop :=
  ∀ a b : Coordinate, Adjacent a b → m.has_wall_between a b = m.has_wall_between b a

/-- A sequence of `set_wall_at` calls, applied in order. -/
def applyWallOps (m : Maze) (ops : List (Coordinate × Coordinate × Bool)) : Maze :=
  ops.foldl (fun acc op => acc.set_wall_at op.1 op.2.1 op.2.2) m

/-- Paths over an abstract step relation: a nonempty coordinate sequence
from `a` to `b` whose consecutive elements are related. -/
def EPath (E : Coordinate → Coordinate → Prop) (a b : Coordinate)
    (p : List Coordinate) : Prop :=
  p ≠ [] ∧ p.head? = some a ∧ p.getLast? = some b ∧ p.Chain' E

/-- A wall-free path: a nonempty coordinate sequence from `a` to `b` whose
consecutive elements are adjacent with no wall between them (in the
direction of travel, as the solver checks it). -/
def WallFreePath (m : Maze) (a b : Coordinate) (p : List Coordinate) : Prop :=
  EPath (fun u v => Adjacent u v ∧ m.wallD u v = false) a b p

/-- The y-major coordinate list of a `w x h` grid (the list
`get_all_coordinates` builds). -/
def coordList (w h : Nat) : List Coordinate :=
  (List.range h).flatMap (fun (y : Nat) =>
    (List.range w).map (fun (x : Nat) => ((x : Int), (y : Int))))

/-- How many in-grid coordinates are not yet visited (the carve loop's
termination measure). -/
def unvisitedCount (cfg : Config) (visited : List Coordinate) : Nat :=
  ((coordList cfg.width cfg.height).filter (fun c => decide (c ∉ visited))).length

/-- Incremental tree growth with root `e`: the vertex list and edge list
are built by repeatedly attaching a fresh vertex to an already-present one
by an adjacency edge — exactly the structure the carver produces. -/
inductive GrowthR (e : Coordinate) :
    List Coordinate → List (Coordinate × Coordinate) → Prop where
  | base : GrowthR e [e] []
  | grow {V : List Coordinate} {R : List (Coordinate × Coordinate)}
      (p c : Coordinate) (hp : p ∈ V) (hadj : Adjacent p c) :
      GrowthR e V R → GrowthR e (V ++ [c]) (R ++ [(p, c)])

/-- One carving step: from `u` one can move to an adjacent, in-bounds cell
that is not in the blocked list `B`. -/
def CarveStep (cfg : Config) (B : List Coordinate) (u v : Coordinate) : Prop :=
  Adjacent u v ∧ InB cfg v ∧ v ∉ B

/-- Reachability from the entry through in-bounds, non-blocked cells
(ignoring walls): the cells the carver can ever reach. -/
def Reach (cfg : Config) (B : List Coordinate) (e c : Coordinate) : Prop :=
  Relation.ReflTransGen (CarveStep cfg B) e c

/-- The canonical list of (east/south oriented) in-bounds candidate wall
positions of a maze. -/
def allEdges (m : Maze) : List (Coordinate × Coordinate) :=
  m.get_all_coordinates.flatMap (fun c =>
    (if c.1 + 1 < (m.width : Int) then [(c, ((c.1 + 1, c.2) : Coordinate))] else []) ++
    (if c.2 + 1 < (m.height : Int) then [(c, ((c.1, c.2 + 1) : Coordinate))] else []))

/-- How many walls are absent from a maze (each interior adjacent pair
counted once, in canonical orientation). -/
def removed_wall_count (m : Maze) : Nat :=
  (allEdges m).countP (fun e => !(m.wallD e.1 e.2))

/-- The unordered pair `{a, b}` occurs in the list of ordered pairs `R`. -/
def pairIn (R : List (Coordinate × Coordinate)) (a b : Coordinate) : Prop :=
  (a, b) ∈ R ∨ (b, a) ∈ R

instance (R : List (Coordinate × Coordinate)) (a b : Coordinate) :
    Decidable (pairIn R a b) := by
  unfold pairIn; infer_instance

/-- Apply the wall removals of `R`, in order. -/
def applyRemovals (m : Maze) (R : List (Coordinate × Coordinate)) : Maze :=
  R.foldl (fun acc e => acc.set_wall_at e.1 e.2 false) m

/-- The carve-loop invariant: `visited` is the blocked list plus the
growing visit list `V` (without duplicates); the visit/removal lists form
an incremental tree rooted at the entry (or nothing has been visited yet
and the stack still holds the initial self-pair); every visited cell is an
in-bounds, non-blocked cell reachable from the entry; the maze is the
initial one minus the recorded removals; stack entries pair a visited cell
with an in-bounds non-blocked neighbor; and every unvisited neighbor of a
visited cell has a pending stack entry. -/
def CarveInv (cfg : Config) (B : List Coordinate) (m1 : Maze)
    (stack : List (Coordinate × Coordinate)) (s : GenState)
    (V : List Coordinate) (R : List (Coordinate × Coordinate)) : Prop :=
  s.visited = B ++ V ∧
  (B ++ V).Nodup ∧
  ((V = [] ∧ R = [] ∧ stack = [(cfg.entry, cfg.entry)]) ∨ GrowthR cfg.entry V R) ∧
  (∀ v ∈ V, InB cfg v ∧ v ∉ B ∧ Reach cfg B cfg.entry v) ∧
  s.maze = applyRemovals m1 R ∧
  (∀ pr ∈ stack, pr = (cfg.entry, cfg.entry) ∨
    (pr.1 ∈ V ∧ Adjacent pr.1 pr.2 ∧ InB cfg pr.2 ∧ pr.2 ∉ B)) ∧
  (∀ v ∈ V, ∀ d : Coordinate, Adjacent v d → InB cfg d → d ∉ B →
    d ∈ V ∨ ∃ q : Coordinate, (q, d) ∈ stack)

/-- The nine coordinates of the 3x3 window whose top-left cell is `s`,
listed x-major (matching `get_invalid_size_squares`). -/
def windowCoords (s : Coordinate) : List Coordinate :=
  (intRange s.1 (s.1 + 2)).flatMap (fun x =>
    (intRange s.2 (s.2 + 2)).map (fun y => ((x, y) : Coordinate)))

/-- The 12 internal adjacency edges of the 3x3 window at `s`, in canonical
orientation: 6 horizontally-adjacent pairs and 6 vertically-adjacent
pairs. -/
def windowEdges (s : Coordinate) : List (Coordinate × Coordinate) :=
  ((intRange s.1 (s.1 + 1)).flatMap (fun x =>
    (intRange s.2 (s.2 + 2)).map (fun y => ((((x, y) : Coordinate), ((x + 1, y) : Coordinate)))))) ++
  ((intRange s.1 (s.1 + 2)).flatMap (fun x =>
    (intRange s.2 (s.2 + 1)).map (fun y => ((((x, y) : Coordinate), ((x, y + 1) : Coordinate))))))

/-- The window at `s` fits inside the `w x h` grid. -/
def windowInGrid (w h : Nat) (s : Coordinate) : Prop :=
  0 ≤ s.1 ∧ s.1 + 3 ≤ (w : Int) ∧ 0 ≤ s.2 ∧ s.2 + 3 ≤ (h : Int)

/-- No 3x3 window lying fully inside the grid is fully open: each carries a
wall on at least one of its internal adjacency edges. -/
def NoOpen3x3 (m : Maze) : Prop :=
  ∀ s : Coordinate, windowInGrid m.width m.height s →
    ∃ e ∈ windowEdges s, m.wallD e.1 e.2 = true

/-- Validity of a configuration for the generation claims: dimensions at
least 2, entry and exit in bounds and distinct (what `config_parser.py`
enforces). -/
def Config.Valid (cfg : Config) : Prop :=
  2 ≤ cfg.width ∧ 2 ≤ cfg.height ∧ InB cfg cfg.entry ∧ InB cfg cfg.exit ∧
    cfg.entry ≠ cfg.exit

instance (cfg : Config) : Decidable cfg.Valid := by
  unfold Config.Valid; infer_instance

/-- A 6x3 imperfect-maze configuration used as a concrete input for the
braider claims. -/
def cfgC5 : Config :=
  { width := 6, height := 3, entry := (0, 0), exit := (5, 2), perfect := false,
    seed := none }

/-- Wall removals producing a 3x3 maze whose only remaining internal walls
are the three between its middle and right cell columns. -/
def removalsC5 : List (Coordinate × Coordinate) :=
  [((0, 0), (0, 1)), ((0, 1), (0, 2)), ((1, 0), (1, 1)), ((1, 1), (1, 2)),
   ((2, 0), (2, 1)), ((2, 1), (2, 2)), ((0, 0), (1, 0)), ((0, 1), (1, 1)),
   ((0, 2), (1, 2))]

/-- The concrete 3x3 maze with walls only between its middle and right cell
columns. -/
def mC5 : Maze :=
  applyRemovals (Maze.init 3 3) removalsC5

/-- The 5x5 configuration of the concrete entry-in-pattern scenario. -/
def cfgC9 : Config :=
  { width := 5, height := 5, entry := (1, 2), exit := (4, 4), perfect := true,
    seed := none }

/-- The 9x7 variant of that scenario: the smallest dimensions at which the
`42` pattern is embedded. -/
def cfgC9b : Config :=
  { width := 9, height := 7, entry := (1, 2), exit := (4, 4), perfect := true,
    seed := none }

/-- A 2x2 perfect-maze configuration used as a concrete input for the
carver claim. -/
def cfgC1 : Config :=
  { width := 2, height := 2, entry := (0, 0), exit := (1, 1), perfect := true,
    seed := none }

/-- The embedded starting grid of that configuration (too small for the
pattern, so it stays fully walled and unblocked). -/
def mC1 : Maze :=
  draw_42 (Maze.init 2 2)

/-- Its blocked-cell list (empty). -/
def BC1 : List Coordinate :=
  mC1.get_blocked_cells

/-- One solver step: a wall-free move to an adjacent, in-bounds,
non-blocked cell, checking the wall in the direction of travel exactly as
`solve_maze` does. -/
def WStep (cfg : Config) (B : List Coordinate) (m : Maze) (u v : Coordinate) : Prop :=
  Adjacent u v ∧ InB cfg v ∧ v ∉ B ∧ m.wallD u v = false

instance (cfg : Config) (B : List Coordinate) (m : Maze) (u v : Coordinate) :
    Decidable (WStep cfg B m u v) := by
  unfold WStep; infer_instance

/-- Walks of a given edge count over an abstract step relation. -/
inductive WalkN (W : Coordinate → Coordinate → Prop) :
    Nat → Coordinate → Coordinate → Prop where
  | zero (a : Coordinate) : WalkN W 0 a a
  | succ {n : Nat} {a b c : Coordinate} :
      WalkN W n a b → W b c → WalkN W (n + 1) a c

/-- `d` is the exact BFS distance from `e` to `c`. -/
def IsDist (W : Coordinate → Coordinate → Prop) (e : Coordinate) (d : Nat)
    (c : Coordinate) : Prop :=
  WalkN W d e c ∧ ∀ k, WalkN W k e c → d ≤ k

/-- The keys of the BFS history. -/
def keysOf (h : List (Coordinate × Option Coordinate)) : List Coordinate :=
  h.map Prod.fst

/-- The BFS loop invariant of `solve_maze`: the queue splits into the tail
of the current distance layer `d` followed by the next layer; history keys
are unique, carry the solver-step predecessor chain with exact distances,
include everything at distance at most `d`, are all reachable, and are
closed under solver steps once dequeued. -/
def SolveInv (cfg : Config) (B : List Coordinate) (m : Maze)
    (q : List Coordinate) (h : List (Coordinate × Option Coordinate))
    (d : Nat) (q1 q2 : List Coordinate) : Prop :=
  q = q1 ++ q2 ∧
  (keysOf h).Nodup ∧
  q.Nodup ∧
  (∀ c ∈ q, c ∈ keysOf h) ∧
  (∀ c ∈ q1, IsDist (WStep cfg B m) cfg.entry d c) ∧
  (∀ c ∈ q2, IsDist (WStep cfg B m) cfg.entry (d + 1) c) ∧
  (∀ pr ∈ h, (pr.2 = none ∧ pr.1 = cfg.entry) ∨
    ∃ u k, pr.2 = some u ∧ WStep cfg B m u pr.1 ∧
      IsDist (WStep cfg B m) cfg.entry k u ∧
      IsDist (WStep cfg B m) cfg.entry (k + 1) pr.1 ∧ u ∈ keysOf h) ∧
  (∀ c ∈ keysOf h, ∃ k, k ≤ d + 1 ∧ IsDist (WStep cfg B m) cfg.entry k c) ∧
  (∀ c k, k ≤ d → IsDist (WStep cfg B m) cfg.entry k c → c ∈ keysOf h) ∧
  (∀ c ∈ keysOf h, Relation.ReflTransGen (WStep cfg B m) cfg.entry c) ∧
  (∀ c ∈ keysOf h, c ∉ q → ∀ v, WStep cfg B m c v → v ∈ keysOf h)

/-- A concrete 2x2 maze carved along (0,0)-(0,1)-(1,1)-(1,0), used as the
solver witness input. -/
def mC2 : Maze :=
  applyRemovals (Maze.init 2 2) [((0, 0), (0, 1)), ((0, 1), (1, 1)), ((1, 1), (1, 0))]

/-! ## Basic grid lemmas -/

lemma get_cell_modifyCell (m : Maze) (x y a b : Int) (f : Cell → Cell) :
    (m.modifyCell x y f).get_cell a b =
      if ((a, b) : Coordinate) = (x, y) then f (m.get_cell a b) else m.get_cell a b := by
  unfold Maze.modifyCell Maze.get_cell
  by_cases h : ((a, b) : Coordinate) = (x, y) <;> simp [h]

lemma adjacent_ne {a b : Coordinate} (h : Adjacent a b) : a ≠ b := by
  rcases h with ⟨h1, h2 | h2⟩ | ⟨h1, h2 | h2⟩ <;>
    (intro he; rw [he] at h2; omega)

lemma adjacent_symm {a b : Coordinate} (h : Adjacent a b) : Adjacent b a := by
  unfold Adjacent at *; tauto

lemma hwb_east (m : Maze) (x y : Int) :
    m.has_wall_between (x, y) (x + 1, y) = some (m.get_cell x y).east := by
  unfold Maze.has_wall_between
  rw [if_pos]; omega

lemma hwb_west (m : Maze) (x y : Int) :
    m.has_wall_between (x, y) (x - 1, y) = some (m.get_cell x y).west := by
  unfold Maze.has_wall_between
  rw [if_neg, if_pos] <;> omega

lemma hwb_south (m : Maze) (x y : Int) :
    m.has_wall_between (x, y) (x, y + 1) = some (m.get_cell x y).south := by
  unfold Maze.has_wall_between
  rw [if_neg, if_neg, if_pos] <;> omega

lemma hwb_north (m : Maze) (x y : Int) :
    m.has_wall_between (x, y) (x, y - 1) = some (m.get_cell x y).north := by
  unfold Maze.has_wall_between
  rw [if_neg, if_neg, if_neg, if_pos] <;> omega

lemma wallD_east (m : Maze) (x y : Int) :
    m.wallD (x, y) (x + 1, y) = (m.get_cell x y).east := by
  unfold Maze.wallD; rw [hwb_east]; rfl

lemma wallD_west (m : Maze) (x y : Int) :
    m.wallD (x, y) (x - 1, y) = (m.get_cell x y).west := by
  unfold Maze.wallD; rw [hwb_west]; rfl

lemma wallD_south (m : Maze) (x y : Int) :
    m.wallD (x, y) (x, y + 1) = (m.get_cell x y).south := by
  unfold Maze.wallD; rw [hwb_south]; rfl

lemma wallD_north (m : Maze) (x y : Int) :
    m.wallD (x, y) (x, y - 1) = (m.get_cell x y).north := by
  unfold Maze.wallD; rw [hwb_north]; rfl

lemma hwb_none_iff (m : Maze) (a b : Coordinate) :
    m.has_wall_between a b = none ↔ a = b := by
  obtain ⟨ax, ay⟩ := a
  obtain ⟨bx, by'⟩ := b
  unfold Maze.has_wall_between
  constructor
  · intro h
    split_ifs at h with h1 h2 h3 h4
    dsimp only at h1 h2 h3 h4
    simp only [Prod.mk.injEq]
    omega
  · intro h
    injection h with h1 h2
    subst h1; subst h2
    split_ifs <;> simp_all

lemma hwb_eq_some_wallD (m : Maze) {a b : Coordinate} (h : a ≠ b) :
    m.has_wall_between a b = some (m.wallD a b) := by
  cases hv : m.has_wall_between a b with
  | none => exact absurd ((hwb_none_iff m a b).mp hv) h
  | some v => unfold Maze.wallD; rw [hv]; rfl

lemma set_wall_at_self (m : Maze) (p : Coordinate) (w : Bool) :
    m.set_wall_at p p w = m := by
  unfold Maze.set_wall_at; simp

lemma set_wall_at_north (m : Maze) (x y : Int) (w : Bool) :
    m.set_wall_at (x, y) (x, y - 1) w =
      (m.modifyCell x (y - 1) (fun cl => { cl with south := w })).modifyCell x y
        (fun cl => { cl with north := w }) := by
  unfold Maze.set_wall_at
  rw [if_neg (by simp only [Prod.ext_iff, Prod.mk.injEq]; omega), if_pos (by dsimp only; omega)]

lemma set_wall_at_south (m : Maze) (x y : Int) (w : Bool) :
    m.set_wall_at (x, y) (x, y + 1) w =
      (m.modifyCell x (y + 1) (fun cl => { cl with north := w })).modifyCell x y
        (fun cl => { cl with south := w }) := by
  unfold Maze.set_wall_at
  rw [if_neg (by simp only [Prod.ext_iff, Prod.mk.injEq]; omega), if_neg (by dsimp only; omega),
    if_pos (by dsimp only; omega)]

lemma set_wall_at_east (m : Maze) (x y : Int) (w : Bool) :
    m.set_wall_at (x, y) (x + 1, y) w =
      (m.modifyCell (x + 1) y (fun cl => { cl with west := w })).modifyCell x y
        (fun cl => { cl with east := w }) := by
  unfold Maze.set_wall_at
  rw [if_neg (by simp only [Prod.ext_iff, Prod.mk.injEq]; omega), if_neg (by dsimp only; omega),
    if_neg (by dsimp only; omega), if_pos (by dsimp only; omega)]

lemma set_wall_at_west (m : Maze) (x y : Int) (w : Bool) :
    m.set_wall_at (x, y) (x - 1, y) w =
      (m.modifyCell (x - 1) y (fun cl => { cl with east := w })).modifyCell x y
        (fun cl => { cl with west := w }) := by
  unfold Maze.set_wall_at
  rw [if_neg (by simp only [Prod.ext_iff, Prod.mk.injEq]; omega), if_neg (by dsimp only; omega),
    if_neg (by dsimp only; omega), if_neg (by dsimp only; omega),
    if_pos (by dsimp only; omega)]

/-- Reading a wall after a symmetric wall mutation on an adjacent pair: the
mutated pair reads the new value (in either direction), all other adjacent
reads are unchanged. -/
lemma wallD_set_wall_at (m : Maze) {p c a b : Coordinate} (hpc : Adjacent p c)
    (hab : Adjacent a b) (w : Bool) :
    (m.set_wall_at p c w).wallD a b =
      if (a = p ∧ b = c) ∨ (a = c ∧ b = p) then w else m.wallD a b := by
  obtain ⟨px, py⟩ := p
  obtain ⟨cx, cy⟩ := c
  obtain ⟨ax, ay⟩ := a
  obtain ⟨bx, by'⟩ := b
  have hset : ∀ u v : Int × Int, (u = v) ↔ (u.1 = v.1 ∧ u.2 = v.2) := fun u v => Prod.ext_iff
  rcases hpc with ⟨h1, h2 | h2⟩ | ⟨h1, h2 | h2⟩ <;> dsimp only at h1 h2
  · -- c is north of p
    obtain rfl : cx = px := h1.symm
    obtain rfl : cy = py - 1 := by omega
    rw [set_wall_at_north]
    rcases hab with ⟨g1, g2 | g2⟩ | ⟨g1, g2 | g2⟩ <;> dsimp only at g1 g2
    · obtain rfl : bx = ax := g1.symm
      obtain rfl : by' = ay - 1 := by omega
      rw [wallD_north, wallD_north, get_cell_modifyCell, get_cell_modifyCell]
      split_ifs <;> simp_all [Prod.ext_iff] <;> omega
    · obtain rfl : bx = ax := g1.symm
      obtain rfl : by' = ay + 1 := by omega
      rw [wallD_south, wallD_south, get_cell_modifyCell, get_cell_modifyCell]
      split_ifs <;> simp_all [Prod.ext_iff] <;> omega
    · obtain rfl : by' = ay := g1.symm
      obtain rfl : bx = ax - 1 := by omega
      rw [wallD_west, wallD_west, get_cell_modifyCell, get_cell_modifyCell]
      split_ifs <;> simp_all [Prod.ext_iff] <;> omega
    · obtain rfl : by' = ay := g1.symm
      obtain rfl : bx = ax + 1 := by omega
      rw [wallD_east, wallD_east, get_cell_modifyCell, get_cell_modifyCell]
      split_ifs <;> simp_all [Prod.ext_iff] <;> omega
  · -- c is south of p
    obtain rfl : cx = px := h1.symm
    obtain rfl : cy = py + 1 := by omega
    rw [set_wall_at_south]
    rcases hab with ⟨g1, g2 | g2⟩ | ⟨g1, g2 | g2⟩ <;> dsimp only at g1 g2
    · obtain rfl : bx = ax := g1.symm
      obtain rfl : by' = ay - 1 := by omega
      rw [wallD_north, wallD_north, get_cell_modifyCell, get_cell_modifyCell]
      split_ifs <;> simp_all [Prod.ext_iff] <;> omega
    · obtain rfl : bx = ax := g1.symm
      obtain rfl : by' = ay + 1 := by omega
      rw [wallD_south, wallD_south, get_cell_modifyCell, get_cell_modifyCell]
      split_ifs <;> simp_all [Prod.ext_iff] <;> omega
    · obtain rfl : by' = ay := g1.symm
      obtain rfl : bx = ax - 1 := by omega
      rw [wallD_west, wallD_west, get_cell_modifyCell, get_cell_modifyCell]
      split_ifs <;> simp_all [Prod.ext_iff] <;> omega
    · obtain rfl : by' = ay := g1.symm
      obtain rfl : bx = ax + 1 := by omega
      rw [wallD_east, wallD_east, get_cell_modifyCell, get_cell_modifyCell]
      split_ifs <;> simp_all [Prod.ext_iff] <;> omega
  · -- c is west of p
    obtain rfl : cy = py := h1.symm
    obtain rfl : cx = px - 1 := by omega
    rw [set_wall_at_west]
    rcases hab with ⟨g1, g2 | g2⟩ | ⟨g1, g2 | g2⟩ <;> dsimp only at g1 g2
    · obtain rfl : bx = ax := g1.symm
      obtain rfl : by' = ay - 1 := by omega
      rw [wallD_north, wallD_north, get_cell_modifyCell, get_cell_modifyCell]
      split_ifs <;> simp_all [Prod.ext_iff] <;> omega
    · obtain rfl : bx = ax := g1.symm
      obtain rfl : by' = ay + 1 := by omega
      rw [wallD_south, wallD_south, get_cell_modifyCell, get_cell_modifyCell]
      split_ifs <;> simp_all [Prod.ext_iff] <;> omega
    · obtain rfl : by' = ay := g1.symm
      obtain rfl : bx = ax - 1 := by omega
      rw [wallD_west, wallD_west, get_cell_modifyCell, get_cell_modifyCell]
      split_ifs <;> simp_all [Prod.ext_iff] <;> omega
    · obtain rfl : by' = ay := g1.symm
      obtain rfl : bx = ax + 1 := by omega
      rw [wallD_east, wallD_east, get_cell_modifyCell, get_cell_modifyCell]
      split_ifs <;> simp_all [Prod.ext_iff] <;> omega
  · -- c is east of p
    obtain rfl : cy = py := h1.symm
    obtain rfl : cx = px + 1 := by omega
    rw [set_wall_at_east]
    rcases hab with ⟨g1, g2 | g2⟩ | ⟨g1, g2 | g2⟩ <;> dsimp only at g1 g2
    · obtain rfl : bx = ax := g1.symm
      obtain rfl : by' = ay - 1 := by omega
      rw [wallD_north, wallD_north, get_cell_modifyCell, get_cell_modifyCell]
      split_ifs <;> simp_all [Prod.ext_iff] <;> omega
    · obtain rfl : bx = ax := g1.symm
      obtain rfl : by' = ay + 1 := by omega
      rw [wallD_south, wallD_south, get_cell_modifyCell, get_cell_modifyCell]
      split_ifs <;> simp_all [Prod.ext_iff] <;> omega
    · obtain rfl : by' = ay := g1.symm
      obtain rfl : bx = ax - 1 := by omega
      rw [wallD_west, wallD_west, get_cell_modifyCell, get_cell_modifyCell]
      split_ifs <;> simp_all [Prod.ext_iff] <;> omega
    · obtain rfl : by' = ay := g1.symm
      obtain rfl : bx = ax + 1 := by omega
      rw [wallD_east, wallD_east, get_cell_modifyCell, get_cell_modifyCell]
      split_ifs <;> simp_all [Prod.ext_iff] <;> omega

/-- `set_wall_at` never changes a cell's type. -/
lemma type_set_wall_at (m : Maze) (p c : Coordinate) (w : Bool) (x y : Int) :
    ((m.set_wall_at p c w).get_cell x y).type = (m.get_cell x y).type := by
  unfold Maze.set_wall_at
  split_ifs <;> simp only [get_cell_modifyCell] <;> split_ifs <;> rfl

lemma set_wall_at_dims (m : Maze) (p c : Coordinate) (w : Bool) :
    (m.set_wall_at p c w).width = m.width ∧ (m.set_wall_at p c w).height = m.height := by
  unfold Maze.set_wall_at Maze.modifyCell
  split_ifs <;> exact ⟨rfl, rfl⟩

lemma wallD_init (w h : Nat) (a b : Coordinate) : (Maze.init w h).wallD a b = true := by
  unfold Maze.wallD Maze.has_wall_between Maze.init Maze.get_cell
  split_ifs <;> rfl

lemma wallSym_init (w h : Nat) : WallSym (Maze.init w h) := by
  intro a b hab
  rw [hwb_eq_some_wallD _ (adjacent_ne hab),
    hwb_eq_some_wallD _ (adjacent_ne (adjacent_symm hab)), wallD_init, wallD_init]

lemma wallSym_set_wall_at {m : Maze} (hm : WallSym m) {p c : Coordinate}
    (hpc : Adjacent p c) (w : Bool) : WallSym (m.set_wall_at p c w) := by
  intro a b hab
  have hba := adjacent_symm hab
  have hsym := hm a b hab
  rw [hwb_eq_some_wallD _ (adjacent_ne hab), hwb_eq_some_wallD _ (adjacent_ne hba)] at hsym ⊢
  have hsym' : m.wallD a b = m.wallD b a := by injection hsym
  rw [wallD_set_wall_at m hpc hab w, wallD_set_wall_at m hpc hba w]
  by_cases hcase : (a = p ∧ b = c) ∨ (a = c ∧ b = p)
  · rw [if_pos hcase, if_pos (by tauto)]
  · rw [if_neg hcase, if_neg (by tauto), hsym']

lemma wallSym_applyWallOps {m : Maze} (hm : WallSym m)
    (ops : List (Coordinate × Coordinate × Bool))
    (hops : ∀ op ∈ ops, Adjacent op.1 op.2.1) : WallSym (applyWallOps m ops) := by
  induction ops generalizing m with
  | nil => exact hm
  | cons op rest ih =>
      exact ih (wallSym_set_wall_at hm (hops op (by simp)) op.2.2)
        (fun op' h' => hops op' (by simp [h']))

/-! ## All-walls preservation -/

lemma allWalls_init (w h : Nat) : AllWalls (Maze.init w h) := by
  intro x y; exact ⟨rfl, rfl, rfl, rfl⟩

lemma allWalls_setCell {m : Maze} (hm : AllWalls m) {c : Cell}
    (hc : c.west = true ∧ c.south = true ∧ c.east = true ∧ c.north = true)
    (x y : Int) : AllWalls (m.setCell x y c) := by
  intro a b
  unfold Maze.setCell
  rw [get_cell_modifyCell]
  split_ifs
  · exact hc
  · exact hm a b

lemma allWalls_foldl {β : Type} (f : Maze → β → Maze)
    (hf : ∀ m b, AllWalls m → AllWalls (f m b)) (l : List β) :
    ∀ m : Maze, AllWalls m → AllWalls (l.foldl f m) := by
  induction l with
  | nil => exact fun m hm => hm
  | cons b rest ih => exact fun m hm => ih (f m b) (hf m b hm)

lemma allWalls_maze_42 : AllWalls maze_42 := by
  unfold maze_42
  refine allWalls_foldl _ ?_ maze42Blocked (Maze.init 7 5) (allWalls_init 7 5)
  intro m c hm a b
  rw [get_cell_modifyCell]
  split_ifs
  · exact hm a b
  · exact hm a b

lemma allWalls_copy_from {m source : Maze} (hm : AllWalls m)
    (hs : AllWalls source) (ox oy : Int) : AllWalls (m.copy_from source ox oy) := by
  unfold Maze.copy_from
  refine allWalls_foldl _ ?_ _ m hm
  intro acc x hacc
  refine allWalls_foldl _ ?_ _ acc hacc
  intro acc2 y hacc2
  exact allWalls_setCell hacc2 (hs x y) _ _

lemma allWalls_draw_42 (w h : Nat) : AllWalls (draw_42 (Maze.init w h)) := by
  unfold draw_42
  split_ifs
  · exact allWalls_init w h
  · exact allWalls_copy_from (allWalls_init w h) allWalls_maze_42 _ _

/-! ## Coordinate-list membership -/

lemma mem_coordList {w h : Nat} {c : Coordinate} :
    c ∈ (List.range h).flatMap (fun (y : Nat) =>
      (List.range w).map (fun (x : Nat) => (((x : Int), (y : Int)) : Coordinate))) ↔
    inGrid w h c := by
  rw [List.mem_flatMap]
  constructor
  · rintro ⟨y, hy, hc⟩
    rw [List.mem_map] at hc
    obtain ⟨x, hx, rfl⟩ := hc
    rw [List.mem_range] at hy hx
    refine ⟨?_, ?_, ?_, ?_⟩ <;> dsimp only <;> omega
  · rintro ⟨h1, h2, h3, h4⟩
    refine ⟨c.2.toNat, by rw [List.mem_range]; omega, ?_⟩
    rw [List.mem_map]
    refine ⟨c.1.toNat, by rw [List.mem_range]; omega, ?_⟩
    rw [show ((c.1.toNat : Int), (c.2.toNat : Int)) = c from by
      rw [Int.toNat_of_nonneg h1, Int.toNat_of_nonneg h3]]

lemma mem_get_all_coordinates {m : Maze} {c : Coordinate} :
    c ∈ m.get_all_coordinates ↔ inGrid m.width m.height c := by
  unfold Maze.get_all_coordinates
  exact mem_coordList

lemma mem_get_blocked_cells {m : Maze} {c : Coordinate} :
    c ∈ m.get_blocked_cells ↔
      inGrid m.width m.height c ∧ (m.get_cell c.1 c.2).type = CellType.BLOCKED := by
  unfold Maze.get_blocked_cells
  rw [List.mem_filter, mem_coordList]
  unfold Cell.blocked
  simp

/-! ## Claims C7 and C4 -/

/-- C7 counterexample: `(0,0)` and `(2,0)` are distinct and not adjacent,
yet `has_wall_between` does not abort on them: it returns the east flag of
the first cell (`some true` in the fresh grid). -/
theorem hwb_nonadjacent_returns_value :
    ¬Adjacent ((0 : Int), (0 : Int)) ((2 : Int), (0 : Int)) ∧
    (((0 : Int), (0 : Int)) : Coordinate) ≠ ((2 : Int), (0 : Int)) ∧
    (Maze.init 3 3).has_wall_between ((0 : Int), (0 : Int)) ((2 : Int), (0 : Int)) =
      some true := by
  refine ⟨by decide, by decide, rfl⟩

/-- C7 (amended): `has_wall_between` hits its `assert False` exactly when
the two coordinates are identical; every distinct pair, adjacent or not,
returns a wall flag of the first cell. -/
theorem hwb_abort_iff_identical (m : Maze) (a b : Coordinate) :
    m.has_wall_between a b = none ↔ a = b :=
  hwb_none_iff m a b

/-- C4: starting from the fully-walled grid, after any sequence of
`set_wall_at` calls on adjacent coordinate pairs, `has_wall_between (a, b)`
and `has_wall_between (b, a)` agree for every adjacent pair `a`, `b`. -/
theorem wall_symmetry_invariant (w h : Nat)
    (ops : List (Coordinate × Coordinate × Bool))
    (hops : ∀ op ∈ ops, Adjacent op.1 op.2.1) :
    ∀ a b : Coordinate, Adjacent a b →
      (applyWallOps (Maze.init w h) ops).has_wall_between a b =
        (applyWallOps (Maze.init w h) ops).has_wall_between b a :=
  wallSym_applyWallOps (wallSym_init w h) ops hops

/-! ## Dimension preservation and embedding stage -/

lemma dims_foldl {β : Type} (f : Maze → β → Maze)
    (hf : ∀ m b, (f m b).width = m.width ∧ (f m b).height = m.height)
    (l : List β) : ∀ m : Maze,
      (l.foldl f m).width = m.width ∧ (l.foldl f m).height = m.height := by
  induction l with
  | nil => exact fun m => ⟨rfl, rfl⟩
  | cons b rest ih =>
      intro m
      obtain ⟨h1, h2⟩ := ih (f m b)
      obtain ⟨h3, h4⟩ := hf m b
      exact ⟨h1.trans h3, h2.trans h4⟩

lemma copy_from_dims (m source : Maze) (ox oy : Int) :
    (m.copy_from source ox oy).width = m.width ∧
    (m.copy_from source ox oy).height = m.height := by
  unfold Maze.copy_from
  refine dims_foldl _ ?_ _ m
  intro acc x
  refine dims_foldl _ ?_ _ acc
  intro acc2 y
  exact ⟨rfl, rfl⟩

lemma draw_42_dims (w h : Nat) :
    (draw_42 (Maze.init w h)).width = w ∧ (draw_42 (Maze.init w h)).height = h := by
  unfold draw_42
  split_ifs
  · exact ⟨rfl, rfl⟩
  · exact copy_from_dims _ _ _ _

/-- C6: `create_maze` fails with the `EntryExitInPattern` error exactly when
the entry or exit lies in the blocked-cell list computed right after
pattern embedding; the error payload is that full list; membership in it
means exactly being a `BLOCKED` cell of the embedded grid; and at that
stage every wall of the grid is still present. -/
theorem create_maze_error_characterization (o : Oracle) (cfg : Config) :
    (∀ bs, create_maze o cfg = Except.error bs ↔
      (bs = (draw_42 (Maze.init cfg.width cfg.height)).get_blocked_cells ∧
       (cfg.entry ∈ bs ∨ cfg.exit ∈ bs))) ∧
    (∀ c : Coordinate,
      c ∈ (draw_42 (Maze.init cfg.width cfg.height)).get_blocked_cells ↔
        inGrid cfg.width cfg.height c ∧
        ((draw_42 (Maze.init cfg.width cfg.height)).get_cell c.1 c.2).type =
          CellType.BLOCKED) ∧
    AllWalls (draw_42 (Maze.init cfg.width cfg.height)) := by
  refine ⟨?_, ?_, allWalls_draw_42 cfg.width cfg.height⟩
  · intro bs
    unfold create_maze
    by_cases hc : cfg.entry ∈ (draw_42 (Maze.init cfg.width cfg.height)).get_blocked_cells ∨
        cfg.exit ∈ (draw_42 (Maze.init cfg.width cfg.height)).get_blocked_cells
    · rw [if_pos hc]
      constructor
      · intro h
        injection h with h
        exact ⟨h.symm, h ▸ hc⟩
      · rintro ⟨rfl, _⟩; rfl
    · rw [if_neg hc]
      constructor
      · intro h; exact absurd h (by simp)
      · rintro ⟨rfl, hor⟩; exact absurd hor hc
  · intro c
    rw [mem_get_blocked_cells, (draw_42_dims cfg.width cfg.height).1,
      (draw_42_dims cfg.width cfg.height).2]

/-- C6 witness: the characterization applied at the 9x7 configuration with
the entry inside the embedded pattern, yielding the error with its blocked
list, and at the 5x5 configuration, whose entry is in no blocked cell. -/
theorem create_maze_error_characterization_witness :
    create_maze oTriv cfgC9b =
      Except.error ((draw_42 (Maze.init cfgC9b.width cfgC9b.height)).get_blocked_cells) :=
  ((create_maze_error_characterization oTriv cfgC9b).1 _).mpr ⟨rfl, by decide⟩

/-- C9 counterexample: on the 5x5 grid with entry `(1,2)` and exit `(4,4)`
no error is raised at all: the grid is too small for the `42` pattern, so
the blocked list after embedding is empty and generation succeeds. -/
theorem create_maze_5x5_no_error :
    (create_maze oTriv cfgC9).isOk = true ∧
    (draw_42 (Maze.init 5 5)).get_blocked_cells = [] := by
  constructor
  · unfold create_maze
    rw [if_neg (by decide)]
    rfl
  · decide


/-- C9 (amended): on a 9x7 grid (the smallest at which the pattern is
embedded) with entry `(1,2)` and exit `(4,4)`, `create_maze` raises the
entry-in-pattern error, `(1,2)` being one of the pattern's blocked
coordinates, and every wall of the grid is still present at that point. -/
theorem create_maze_9x7_entry_in_pattern :
    create_maze oTriv cfgC9b =
      Except.error ((draw_42 (Maze.init 9 7)).get_blocked_cells) ∧
    (((1 : Int), (2 : Int)) : Coordinate) ∈ (draw_42 (Maze.init 9 7)).get_blocked_cells ∧
    AllWalls (draw_42 (Maze.init 9 7)) := by
  refine ⟨?_, by decide, allWalls_draw_42 9 7⟩
  unfold create_maze
  rw [if_pos (by decide)]
  rfl

/-- C4 witness: the invariant instantiated on a 2x2 grid after one adjacent
wall removal, checked on the pair `(0,0)`, `(1,0)`. -/
theorem wall_symmetry_invariant_witness :
    (∀ op ∈ ([(((0, 0) : Coordinate), ((0, 1) : Coordinate), false)] :
        List (Coordinate × Coordinate × Bool)), Adjacent op.1 op.2.1) ∧
    (applyWallOps (Maze.init 2 2) [((0, 0), (0, 1), false)]).has_wall_between
        ((0 : Int), (0 : Int)) ((1 : Int), (0 : Int)) =
      (applyWallOps (Maze.init 2 2) [((0, 0), (0, 1), false)]).has_wall_between
        ((1 : Int), (0 : Int)) ((0 : Int), (0 : Int)) :=
  ⟨by decide, wall_symmetry_invariant 2 2 [((0, 0), (0, 1), false)] (by decide)
    ((0 : Int), (0 : Int)) ((1 : Int), (0 : Int)) (by decide)⟩

/-! ## Braider windows -/

lemma mem_intRange {a b z : Int} : z ∈ intRange a b ↔ a ≤ z ∧ z ≤ b := by
  unfold intRange
  rw [List.mem_map]
  constructor
  · rintro ⟨i, hi, rfl⟩
    rw [List.mem_range] at hi
    omega
  · rintro ⟨h1, h2⟩
    refine ⟨(z - a).toNat, ?_, by omega⟩
    rw [List.mem_range]
    omega

lemma intRange_two (a : Int) : intRange a (a + 1) = [a, a + 1] := by
  unfold intRange
  rw [show a + 1 + 1 - a = 2 by ring, show Int.toNat 2 = 2 from rfl,
    show List.range 2 = [0, 1] from rfl]
  simp

lemma intRange_three (a : Int) : intRange a (a + 2) = [a, a + 1, a + 2] := by
  unfold intRange
  rw [show a + 2 + 1 - a = 3 by ring, show Int.toNat 3 = 3 from rfl,
    show List.range 3 = [0, 1, 2] from rfl]
  simp

lemma windowCoords_explicit (s : Coordinate) :
    windowCoords s =
      [(s.1, s.2), (s.1, s.2 + 1), (s.1, s.2 + 2),
       (s.1 + 1, s.2), (s.1 + 1, s.2 + 1), (s.1 + 1, s.2 + 2),
       (s.1 + 2, s.2), (s.1 + 2, s.2 + 1), (s.1 + 2, s.2 + 2)] := by
  unfold windowCoords
  rw [intRange_three, intRange_three]
  rfl

lemma windowEdges_explicit (s : Coordinate) :
    windowEdges s =
      [((s.1, s.2), (s.1 + 1, s.2)), ((s.1, s.2 + 1), (s.1 + 1, s.2 + 1)),
       ((s.1, s.2 + 2), (s.1 + 1, s.2 + 2)),
       ((s.1 + 1, s.2), (s.1 + 2, s.2)), ((s.1 + 1, s.2 + 1), (s.1 + 2, s.2 + 1)),
       ((s.1 + 1, s.2 + 2), (s.1 + 2, s.2 + 2)),
       ((s.1, s.2), (s.1, s.2 + 1)), ((s.1, s.2 + 1), (s.1, s.2 + 2)),
       ((s.1 + 1, s.2), (s.1 + 1, s.2 + 1)), ((s.1 + 1, s.2 + 1), (s.1 + 1, s.2 + 2)),
       ((s.1 + 2, s.2), (s.1 + 2, s.2 + 1)), ((s.1 + 2, s.2 + 1), (s.1 + 2, s.2 + 2))] := by
  unfold windowEdges
  rw [intRange_two, intRange_three, intRange_three, intRange_two]
  norm_num
  constructor <;> ring

lemma mem_windowCoords {s q : Coordinate} :
    q ∈ windowCoords s ↔
      s.1 ≤ q.1 ∧ q.1 ≤ s.1 + 2 ∧ s.2 ≤ q.2 ∧ q.2 ≤ s.2 + 2 := by
  unfold windowCoords
  rw [List.mem_flatMap]
  constructor
  · rintro ⟨x, hx, hq⟩
    rw [List.mem_map] at hq
    obtain ⟨y, hy, rfl⟩ := hq
    rw [mem_intRange] at hx hy
    exact ⟨hx.1, by omega, hy.1, by omega⟩
  · rintro ⟨h1, h2, h3, h4⟩
    refine ⟨q.1, mem_intRange.mpr ⟨h1, h2⟩, ?_⟩
    rw [List.mem_map]
    exact ⟨q.2, mem_intRange.mpr ⟨h3, h4⟩, rfl⟩

/-- Membership in the candidate-square enumeration. -/
lemma mem_get_invalid_size_squares {cfg : Config} {p c : Coordinate}
    {sq : List Coordinate} :
    sq ∈ get_invalid_size_squares cfg (p, c) ↔
      ∃ row col : Int,
        max (max 0 (p.1 - 3 - 1)) (max 0 (c.1 - 3 - 1)) ≤ row ∧
        row ≤ min (min ((cfg.width : Int) - 3) p.1) (min ((cfg.width : Int) - 3) c.1) ∧
        max (max 0 (p.2 - 3 - 1)) (max 0 (c.2 - 3 - 1)) ≤ col ∧
        col ≤ min (min ((cfg.height : Int) - 3) p.2) (min ((cfg.height : Int) - 3) c.2) ∧
        sq = windowCoords (row, col) := by
  unfold get_invalid_size_squares
  rw [List.mem_flatMap]
  constructor
  · rintro ⟨row, hrow, hsq⟩
    rw [List.mem_map] at hsq
    obtain ⟨col, hcol, rfl⟩ := hsq
    rw [mem_intRange] at hrow hcol
    exact ⟨row, col, hrow.1, hrow.2, hcol.1, hcol.2, rfl⟩
  · rintro ⟨row, col, h1, h2, h3, h4, rfl⟩
    refine ⟨row, mem_intRange.mpr ⟨h1, h2⟩, ?_⟩
    rw [List.mem_map]
    exact ⟨col, mem_intRange.mpr ⟨h3, h4⟩, rfl⟩

/-- Every in-grid 3x3 window containing both endpoints of an adjacent pair
is among the enumerated candidate squares (the enumeration is in fact a
strict superset in general). -/
lemma window_mem_squares {cfg : Config} {p c s : Coordinate} (hadj : Adjacent p c)
    (hw : windowInGrid cfg.width cfg.height s) (hp : p ∈ windowCoords s)
    (hc : c ∈ windowCoords s) :
    windowCoords s ∈ get_invalid_size_squares cfg (p, c) := by
  rw [mem_get_invalid_size_squares]
  rw [mem_windowCoords] at hp hc
  obtain ⟨hw1, hw2, hw3, hw4⟩ := hw
  exact ⟨s.1, s.2, by omega, by omega, by omega, by omega, rfl⟩

lemma ite_add_one {b : Prop} [Decidable b] (a : Nat) :
    (if b then a + 1 else a) = a + (if b then 1 else 0) := by
  split_ifs <;> omega

lemma ite_one_eq_zero_iff {b : Prop} [Decidable b] :
    ((if b then (1 : Nat) else 0) = 0) ↔ ¬b := by
  split_ifs with h <;> simp [h]

set_option maxHeartbeats 1000000 in
set_option maxRecDepth 4000 in
/-- The inner-wall count of a window is zero exactly when the nine edges it
actually inspects (the six vertical-pair edges inside each cell column and
the three horizontal-pair edges between its two leftmost columns, the
latter read twice) are all open. -/
lemma inner_walls_eq_zero_iff (m : Maze) (s : Coordinate) :
    inner_walls m (windowCoords s) = 0 ↔
      (m.wallD (s.1, s.2) (s.1, s.2 + 1) = false ∧
       m.wallD (s.1, s.2 + 1) (s.1, s.2 + 2) = false ∧
       m.wallD (s.1 + 1, s.2) (s.1 + 1, s.2 + 1) = false ∧
       m.wallD (s.1 + 1, s.2 + 1) (s.1 + 1, s.2 + 2) = false ∧
       m.wallD (s.1 + 2, s.2) (s.1 + 2, s.2 + 1) = false ∧
       m.wallD (s.1 + 2, s.2 + 1) (s.1 + 2, s.2 + 2) = false ∧
       m.wallD (s.1, s.2) (s.1 + 1, s.2) = false ∧
       m.wallD (s.1, s.2 + 1) (s.1 + 1, s.2 + 1) = false ∧
       m.wallD (s.1, s.2 + 2) (s.1 + 1, s.2 + 2) = false) := by
  obtain ⟨sx, sy⟩ := s
  rw [windowCoords_explicit]
  unfold inner_walls
  dsimp only [List.foldl_cons, List.foldl_nil]
  norm_num
  generalize m.wallD (sx, sy) (sx, sy + 1) = b1
  generalize m.wallD (sx, sy + 1) (sx, sy + 2) = b2
  generalize m.wallD (sx + 1, sy) (sx + 1, sy + 1) = b3
  generalize m.wallD (sx + 1, sy + 1) (sx + 1, sy + 2) = b4
  generalize m.wallD (sx + 2, sy) (sx + 2, sy + 1) = b5
  generalize m.wallD (sx + 2, sy + 1) (sx + 2, sy + 2) = b6
  generalize m.wallD (sx, sy) (sx + 1, sy) = b7
  generalize m.wallD (sx, sy + 1) (sx + 1, sy + 1) = b8
  generalize m.wallD (sx, sy + 2) (sx + 1, sy + 2) = b9
  cases b1 <;> cases b2 <;> cases b3 <;> cases b4 <;> cases b5 <;> cases b6 <;>
    cases b7 <;> cases b8 <;> cases b9 <;> decide

/-- C5 counterexample: for the adjacent pair `(3,0)`, `(4,0)` in a 6x3 grid
the candidate enumeration contains a square holding neither endpoint; and
the inner-wall count of a window can be zero while one of the window's
internal adjacency edges (between its middle and right columns) still
carries a wall. -/
theorem remove_wall_check_counterexample :
    (∃ sq ∈ get_invalid_size_squares cfgC5
        ((((3 : Int), (0 : Int)) : Coordinate), (((4 : Int), (0 : Int)) : Coordinate)),
      (((3 : Int), (0 : Int)) : Coordinate) ∉ sq ∧
      (((4 : Int), (0 : Int)) : Coordinate) ∉ sq) ∧
    inner_walls mC5 (windowCoords ((0 : Int), (0 : Int))) = 0 ∧
    mC5.wallD ((1 : Int), (0 : Int)) ((2 : Int), (0 : Int)) = true ∧
    ((((1 : Int), (0 : Int)) : Coordinate), (((2 : Int), (0 : Int)) : Coordinate)) ∈
      windowEdges ((0 : Int), (0 : Int)) := by
  decide

lemma remove_wall_cases (cfg : Config) (m : Maze) (p c : Coordinate)
    (hadj : Adjacent p c) :
    (∀ s : Coordinate, windowInGrid cfg.width cfg.height s → p ∈ windowCoords s →
      c ∈ windowCoords s → windowCoords s ∈ get_invalid_size_squares cfg (p, c)) ∧
    (remove_wall_if_valid cfg m p c = (m.set_wall_at p c false).set_wall_at p c true ∨
     (remove_wall_if_valid cfg m p c = m.set_wall_at p c false ∧
      ∀ s : Coordinate, windowInGrid cfg.width cfg.height s → p ∈ windowCoords s →
        c ∈ windowCoords s →
        ∃ e ∈ windowEdges s, (m.set_wall_at p c false).wallD e.1 e.2 = true)) := by
  refine ⟨fun s hw hp hc => window_mem_squares hadj hw hp hc, ?_⟩
  unfold remove_wall_if_valid
  by_cases hany : (get_invalid_size_squares cfg (p, c)).any
      (fun sq => inner_walls (m.set_wall_at p c false) sq = 0) = true
  · rw [if_pos hany]
    exact Or.inl rfl
  · rw [if_neg hany]
    refine Or.inr ⟨rfl, ?_⟩
    intro s hw hp hc
    have hmem := window_mem_squares hadj hw hp hc
    have hnz : ¬ inner_walls (m.set_wall_at p c false) (windowCoords s) = 0 := by
      intro h0
      exact hany (List.any_eq_true.mpr ⟨_, hmem, by simp [h0]⟩)
    rw [inner_walls_eq_zero_iff] at hnz
    by_contra hno
    push_neg at hno
    have hfalse : ∀ e ∈ windowEdges s, (m.set_wall_at p c false).wallD e.1 e.2 = false := by
      intro e he
      have h := hno e he
      simpa using h
    exact hnz ⟨hfalse ((s.1, s.2), (s.1, s.2 + 1)) (by rw [windowEdges_explicit]; simp),
      hfalse ((s.1, s.2 + 1), (s.1, s.2 + 2)) (by rw [windowEdges_explicit]; simp),
      hfalse ((s.1 + 1, s.2), (s.1 + 1, s.2 + 1)) (by rw [windowEdges_explicit]; simp),
      hfalse ((s.1 + 1, s.2 + 1), (s.1 + 1, s.2 + 2)) (by rw [windowEdges_explicit]; simp),
      hfalse ((s.1 + 2, s.2), (s.1 + 2, s.2 + 1)) (by rw [windowEdges_explicit]; simp),
      hfalse ((s.1 + 2, s.2 + 1), (s.1 + 2, s.2 + 2)) (by rw [windowEdges_explicit]; simp),
      hfalse ((s.1, s.2), (s.1 + 1, s.2)) (by rw [windowEdges_explicit]; simp),
      hfalse ((s.1, s.2 + 1), (s.1 + 1, s.2 + 1)) (by rw [windowEdges_explicit]; simp),
      hfalse ((s.1, s.2 + 2), (s.1 + 1, s.2 + 2)) (by rw [windowEdges_explicit]; simp)⟩

/-- C5 (amended): `remove_wall_if_valid` tentatively removes the wall and
checks candidate squares that form a superset of the 3x3 windows containing
both endpoints (every such in-grid window is enumerated); a square's
inner-wall count inspects only nine of its twelve internal adjacency edges
(the six within-column pairs and the three pairs between its two leftmost
columns, the latter twice; the middle-to-right pairs are never read).  The
result is either the reverted maze (wall put back) or the maze with the
wall removed, and in the latter case every in-grid window containing both
endpoints retains a wall on at least one internal adjacency edge. -/
theorem remove_wall_if_valid_sound (cfg : Config) (m : Maze) (p c : Coordinate)
    (hadj : Adjacent p c) :
    (∀ s : Coordinate, windowInGrid cfg.width cfg.height s → p ∈ windowCoords s →
      c ∈ windowCoords s → windowCoords s ∈ get_invalid_size_squares cfg (p, c)) ∧
    (remove_wall_if_valid cfg m p c = (m.set_wall_at p c false).set_wall_at p c true ∨
     (remove_wall_if_valid cfg m p c = m.set_wall_at p c false ∧
      ∀ s : Coordinate, windowInGrid cfg.width cfg.height s → p ∈ windowCoords s →
        c ∈ windowCoords s →
        ∃ e ∈ windowEdges s, (m.set_wall_at p c false).wallD e.1 e.2 = true)) :=
  remove_wall_cases cfg m p c hadj

/-- C5 amended-claim witness: the soundness statement instantiated at the
fresh 6x3 grid and the adjacent pair `(0,0)`, `(1,0)`. -/
theorem remove_wall_if_valid_sound_witness :
    Adjacent (((0 : Int), (0 : Int)) : Coordinate) (((1 : Int), (0 : Int)) : Coordinate) ∧
    ((∀ s : Coordinate, windowInGrid cfgC5.width cfgC5.height s →
        (((0 : Int), (0 : Int)) : Coordinate) ∈ windowCoords s →
        (((1 : Int), (0 : Int)) : Coordinate) ∈ windowCoords s →
        windowCoords s ∈ get_invalid_size_squares cfgC5 ((0, 0), (1, 0))) ∧
     (remove_wall_if_valid cfgC5 (Maze.init 6 3) (0, 0) (1, 0) =
        ((Maze.init 6 3).set_wall_at (0, 0) (1, 0) false).set_wall_at (0, 0) (1, 0) true ∨
      (remove_wall_if_valid cfgC5 (Maze.init 6 3) (0, 0) (1, 0) =
        (Maze.init 6 3).set_wall_at (0, 0) (1, 0) false ∧
       ∀ s : Coordinate, windowInGrid cfgC5.width cfgC5.height s →
         (((0 : Int), (0 : Int)) : Coordinate) ∈ windowCoords s →
         (((1 : Int), (0 : Int)) : Coordinate) ∈ windowCoords s →
         ∃ e ∈ windowEdges s,
           ((Maze.init 6 3).set_wall_at (0, 0) (1, 0) false).wallD e.1 e.2 = true))) :=
  ⟨by decide, remove_wall_if_valid_sound cfgC5 (Maze.init 6 3) (0, 0) (1, 0) (by decide)⟩

/-! ## Render expander layout -/

lemma grid_rset (g : RenderMaze) (r c : Nat) (cell : RCell) (i j : Nat) :
    (g.rset r c cell).grid (i, j) = if (i, j) = (r, c) then cell else g.grid (i, j) :=
  rfl

lemma grid_rmodify (g : RenderMaze) (r c : Nat) (f : RCell → RCell) (i j : Nat) :
    (g.rmodify r c f).grid (i, j) =
      if (i, j) = (r, c) then f (g.grid (i, j)) else g.grid (i, j) := by
  unfold RenderMaze.rmodify
  by_cases h : ((i, j) : Nat × Nat) = (r, c) <;> simp [h]

lemma grid_rm_block (maze : Maze) (g : RenderMaze) (r c i j : Nat) :
    (rm_block maze g r c).grid (i, j) =
      if (i, j) = (r * 2 + 1, c * 2 + 1) then
        set_center (maze.get_cell (c : Int) (r : Int))
      else if (i, j) = (r * 2 + 1, c * 2) then
        set_ver_wall (maze.get_cell (c : Int) (r : Int)) (get_prev_cell r c maze)
      else if (i, j) = (r * 2, c * 2 + 1) then
        set_hor_wall (maze.get_cell (c : Int) (r : Int)) (get_top_cell r c maze)
      else if (i, j) = (r * 2, c * 2) then
        set_corner (maze.get_cell (c : Int) (r : Int)) (get_top_cell r c maze)
          (get_prev_cell r c maze)
      else g.grid (i, j) :=
  rfl

lemma blocks_fold_untouched (maze : Maze) (g : RenderMaze) (r n i j : Nat)
    (h : (i ≠ r * 2 ∧ i ≠ r * 2 + 1) ∨ 2 * n ≤ j) :
    ((List.range n).foldl (fun g (c : Nat) => rm_block maze g r c) g).grid (i, j) =
      g.grid (i, j) := by
  induction n with
  | zero => rfl
  | succ n ih =>
      rw [List.range_succ, List.foldl_append, List.foldl_cons, List.foldl_nil,
        grid_rm_block,
        if_neg (by rcases h with ⟨h1, h2⟩ | h1 <;> simp only [Prod.mk.injEq] <;> omega),
        if_neg (by rcases h with ⟨h1, h2⟩ | h1 <;> simp only [Prod.mk.injEq] <;> omega),
        if_neg (by rcases h with ⟨h1, h2⟩ | h1 <;> simp only [Prod.mk.injEq] <;> omega),
        if_neg (by rcases h with ⟨h1, h2⟩ | h1 <;> simp only [Prod.mk.injEq] <;> omega)]
      rcases h with h1 | h1
      · exact ih (Or.inl h1)
      · exact ih (Or.inr (by omega))

lemma blocks_fold_at (maze : Maze) (g : RenderMaze) (r n c0 : Nat) (hc0 : c0 < n) :
    (((List.range n).foldl (fun g (c : Nat) => rm_block maze g r c) g).grid
        (r * 2, c0 * 2) =
      set_corner (maze.get_cell (c0 : Int) (r : Int)) (get_top_cell r c0 maze)
        (get_prev_cell r c0 maze)) ∧
    (((List.range n).foldl (fun g (c : Nat) => rm_block maze g r c) g).grid
        (r * 2, c0 * 2 + 1) =
      set_hor_wall (maze.get_cell (c0 : Int) (r : Int)) (get_top_cell r c0 maze)) ∧
    (((List.range n).foldl (fun g (c : Nat) => rm_block maze g r c) g).grid
        (r * 2 + 1, c0 * 2) =
      set_ver_wall (maze.get_cell (c0 : Int) (r : Int)) (get_prev_cell r c0 maze)) ∧
    (((List.range n).foldl (fun g (c : Nat) => rm_block maze g r c) g).grid
        (r * 2 + 1, c0 * 2 + 1) =
      set_center (maze.get_cell (c0 : Int) (r : Int))) := by
  induction n with
  | zero => omega
  | succ n ih =>
      rw [List.range_succ, List.foldl_append, List.foldl_cons, List.foldl_nil]
      by_cases he : c0 = n
      · subst he
        refine ⟨?_, ?_, ?_, ?_⟩ <;> rw [grid_rm_block] <;>
          simp only [Prod.mk.injEq] <;> split_ifs <;> first | rfl | omega
      · have hlt : c0 < n := by omega
        obtain ⟨ih1, ih2, ih3, ih4⟩ := ih hlt
        refine ⟨?_, ?_, ?_, ?_⟩ <;> rw [grid_rm_block] <;>
          rw [if_neg (by simp only [Prod.mk.injEq]; omega),
            if_neg (by simp only [Prod.mk.injEq]; omega),
            if_neg (by simp only [Prod.mk.injEq]; omega),
            if_neg (by simp only [Prod.mk.injEq]; omega)]
        · exact ih1
        · exact ih2
        · exact ih3
        · exact ih4

lemma grid_rm_row_block (maze : Maze) (L : Nat) (g : RenderMaze) (r c0 : Nat)
    (hc0 : c0 < maze.width) (hL : 2 * maze.width ≤ L) :
    ((rm_row maze L g r).grid (r * 2, c0 * 2) =
      set_corner (maze.get_cell (c0 : Int) (r : Int)) (get_top_cell r c0 maze)
        (get_prev_cell r c0 maze)) ∧
    ((rm_row maze L g r).grid (r * 2, c0 * 2 + 1) =
      set_hor_wall (maze.get_cell (c0 : Int) (r : Int)) (get_top_cell r c0 maze)) ∧
    ((rm_row maze L g r).grid (r * 2 + 1, c0 * 2) =
      set_ver_wall (maze.get_cell (c0 : Int) (r : Int)) (get_prev_cell r c0 maze)) ∧
    ((rm_row maze L g r).grid (r * 2 + 1, c0 * 2 + 1) =
      set_center (maze.get_cell (c0 : Int) (r : Int))) := by
  obtain ⟨h1, h2, h3, h4⟩ := blocks_fold_at maze g r maze.width c0 hc0
  unfold rm_row
  split_ifs with hr <;>
    refine ⟨?_, ?_, ?_, ?_⟩ <;>
    rw [grid_rmodify, if_neg (by simp only [Prod.mk.injEq]; omega)] <;>
    first
    | (rw [grid_rmodify, if_neg (by simp only [Prod.mk.injEq]; omega)]; assumption)
    | (rw [grid_rset, if_neg (by simp only [Prod.mk.injEq]; omega)]; assumption)

lemma grid_rm_row_lastcol (maze : Maze) (L : Nat) (g : RenderMaze) (r : Nat)
    (hL : 2 * maze.width ≤ L) :
    ((rm_row maze L g r).grid (r * 2, L) =
      if r = 0 then
        { g.grid (r * 2, L) with
          type := RCellType.CORNER
          corner_type := CornerType.TR }
      else set_last_col_corner (maze.get_cell ((maze.width - 1 : Nat) : Int) (r : Int))) ∧
    ((rm_row maze L g r).grid (r * 2 + 1, L) =
      { g.grid (r * 2 + 1, L) with type := RCellType.VERTICAL }) := by
  unfold rm_row
  have hunt := blocks_fold_untouched maze g r maze.width
  split_ifs with hr
  · constructor
    · rw [grid_rmodify, if_neg (by simp only [Prod.mk.injEq]; omega),
        grid_rmodify, if_pos rfl, hunt _ _ (Or.inr hL)]
    · rw [grid_rmodify, if_pos rfl, grid_rmodify,
        if_neg (by simp only [Prod.mk.injEq]; omega), hunt _ _ (Or.inr hL)]
  · constructor
    · rw [grid_rmodify, if_neg (by simp only [Prod.mk.injEq]; omega),
        grid_rset, if_pos rfl]
    · rw [grid_rmodify, if_pos rfl, grid_rset,
        if_neg (by simp only [Prod.mk.injEq]; omega), hunt _ _ (Or.inr hL)]

lemma grid_rm_row_other (maze : Maze) (L : Nat) (g : RenderMaze) (r i j : Nat)
    (hi : i ≠ r * 2 ∧ i ≠ r * 2 + 1) :
    (rm_row maze L g r).grid (i, j) = g.grid (i, j) := by
  unfold rm_row
  split_ifs with hr <;>
    rw [grid_rmodify, if_neg (by simp only [Prod.mk.injEq]; omega)]
  · rw [grid_rmodify, if_neg (by simp only [Prod.mk.injEq]; omega)]
    exact blocks_fold_untouched maze g r maze.width i j (Or.inl hi)
  · rw [grid_rset, if_neg (by simp only [Prod.mk.injEq]; omega)]
    exact blocks_fold_untouched maze g r maze.width i j (Or.inl hi)

lemma rows_fold_untouched (maze : Maze) (L : Nat) (g : RenderMaze) (n i j : Nat)
    (h : 2 * n ≤ i) :
    (((List.range n).foldl (rm_row maze L) g).grid (i, j)) = g.grid (i, j) := by
  induction n with
  | zero => rfl
  | succ n ih =>
      rw [List.range_succ, List.foldl_append, List.foldl_cons, List.foldl_nil,
        grid_rm_row_other maze L _ n i j (by omega)]
      exact ih (by omega)

lemma rows_fold_at (maze : Maze) (L : Nat) (g : RenderMaze) (n r0 : Nat)
    (hr0 : r0 < n) (hL : 2 * maze.width ≤ L) :
    (∀ c0 : Nat, c0 < maze.width →
      ((((List.range n).foldl (rm_row maze L) g).grid (r0 * 2, c0 * 2) =
        set_corner (maze.get_cell (c0 : Int) (r0 : Int)) (get_top_cell r0 c0 maze)
          (get_prev_cell r0 c0 maze)) ∧
       (((List.range n).foldl (rm_row maze L) g).grid (r0 * 2, c0 * 2 + 1) =
        set_hor_wall (maze.get_cell (c0 : Int) (r0 : Int)) (get_top_cell r0 c0 maze)) ∧
       (((List.range n).foldl (rm_row maze L) g).grid (r0 * 2 + 1, c0 * 2) =
        set_ver_wall (maze.get_cell (c0 : Int) (r0 : Int)) (get_prev_cell r0 c0 maze)) ∧
       (((List.range n).foldl (rm_row maze L) g).grid (r0 * 2 + 1, c0 * 2 + 1) =
        set_center (maze.get_cell (c0 : Int) (r0 : Int))))) ∧
    (((List.range n).foldl (rm_row maze L) g).grid (r0 * 2, L) =
      if r0 = 0 then
        { g.grid (r0 * 2, L) with
          type := RCellType.CORNER
          corner_type := CornerType.TR }
      else set_last_col_corner (maze.get_cell ((maze.width - 1 : Nat) : Int) (r0 : Int))) ∧
    (((List.range n).foldl (rm_row maze L) g).grid (r0 * 2 + 1, L) =
      { g.grid (r0 * 2 + 1, L) with type := RCellType.VERTICAL }) := by
  induction n with
  | zero => omega
  | succ n ih =>
      rw [List.range_succ, List.foldl_append, List.foldl_cons, List.foldl_nil]
      by_cases he : r0 = n
      · subst he
        refine ⟨?_, ?_, ?_⟩
        · intro c0 hc0
          exact grid_rm_row_block maze L _ r0 c0 hc0 hL
        · rw [(grid_rm_row_lastcol maze L _ r0 hL).1,
            rows_fold_untouched maze L g r0 _ _ (by omega)]
        · rw [(grid_rm_row_lastcol maze L _ r0 hL).2,
            rows_fold_untouched maze L g r0 _ _ (by omega)]
      · have hlt : r0 < n := by omega
        obtain ⟨ih1, ih2, ih3⟩ := ih hlt
        refine ⟨?_, ?_, ?_⟩
        · intro c0 hc0
          obtain ⟨j1, j2, j3, j4⟩ := ih1 c0 hc0
          rw [grid_rm_row_other maze L _ n _ _ (by omega),
            grid_rm_row_other maze L _ n _ _ (by omega),
            grid_rm_row_other maze L _ n _ _ (by omega),
            grid_rm_row_other maze L _ n _ _ (by omega)]
          exact ⟨j1, j2, j3, j4⟩
        · rw [grid_rm_row_other maze L _ n _ _ (by omega)]
          exact ih2
        · rw [grid_rm_row_other maze L _ n _ _ (by omega)]
          exact ih3

lemma lastrow_fold (maze : Maze) (g : RenderMaze) (lr n i j : Nat) :
    (((List.range n).foldl
        (fun g (c : Nat) => g.rset lr c (set_last_row maze c)) g).grid (i, j)) =
      if i = lr ∧ j < n then set_last_row maze j else g.grid (i, j) := by
  induction n with
  | zero => simp
  | succ n ih =>
      rw [List.range_succ, List.foldl_append, List.foldl_cons, List.foldl_nil,
        grid_rset]
      by_cases hij : ((i, j) : Nat × Nat) = (lr, n)
      · rw [if_pos hij]
        injection hij with hi hj
        rw [if_pos ⟨hi, by omega⟩, hj]
      · rw [if_neg hij, ih]
        by_cases h2 : i = lr ∧ j < n
        · rw [if_pos h2, if_pos ⟨h2.1, by omega⟩]
        · rw [if_neg h2, if_neg (by
            rintro ⟨ha, hb⟩
            exact h2 ⟨ha, by
              rcases Nat.lt_succ_iff_lt_or_eq.mp hb with h | h
              · exact h
              · exact absurd (by rw [ha, h]) hij⟩)]

lemma rrender_dims_foldl {β : Type} (f : RenderMaze → β → RenderMaze)
    (hf : ∀ g b, (f g b).width = g.width ∧ (f g b).height = g.height)
    (l : List β) : ∀ g : RenderMaze,
      (l.foldl f g).width = g.width ∧ (l.foldl f g).height = g.height := by
  induction l with
  | nil => exact fun g => ⟨rfl, rfl⟩
  | cons b rest ih =>
      intro g
      obtain ⟨h1, h2⟩ := ih (f g b)
      obtain ⟨h3, h4⟩ := hf g b
      exact ⟨h1.trans h3, h2.trans h4⟩

lemma rm_row_dims (maze : Maze) (L : Nat) (g : RenderMaze) (r : Nat) :
    (rm_row maze L g r).width = g.width ∧ (rm_row maze L g r).height = g.height := by
  unfold rm_row
  have hinner := rrender_dims_foldl (fun g (c : Nat) => rm_block maze g r c)
    (fun g c => ⟨rfl, rfl⟩) (List.range maze.width) g
  split_ifs <;> exact hinner

lemma rm_create_dims (maze : Maze) :
    (rm_create maze).width = maze.width * 2 + 1 ∧
    (rm_create maze).height = maze.height * 2 + 1 := by
  unfold rm_create
  have h1 := rrender_dims_foldl (rm_row maze ((RenderMaze.ofMaze maze).width - 1))
    (rm_row_dims maze _) (List.range maze.height) (RenderMaze.ofMaze maze)
  have h2 := rrender_dims_foldl
    (fun g (c : Nat) => g.rset ((RenderMaze.ofMaze maze).height - 1) c (set_last_row maze c))
    (fun g c => ⟨rfl, rfl⟩) (List.range (RenderMaze.ofMaze maze).width)
    ((List.range maze.height).foldl (rm_row maze ((RenderMaze.ofMaze maze).width - 1))
      (RenderMaze.ofMaze maze))
  exact ⟨h2.1.trans h1.1, h2.2.trans h1.2⟩

lemma set_corner_type (col : Cell) (top prev : Option Cell) :
    (set_corner col top prev).type = RCellType.CORNER := by
  unfold set_corner
  cases top <;> cases prev <;> dsimp only <;> split_ifs <;> rfl

lemma set_hor_wall_type (col : Cell) (top : Option Cell) :
    (set_hor_wall col top).type = RCellType.HORIZONTAL := by
  unfold set_hor_wall
  cases top <;> dsimp only <;> split_ifs <;> rfl

lemma set_ver_wall_type (col : Cell) (prev : Option Cell) :
    (set_ver_wall col prev).type = RCellType.VERTICAL := by
  unfold set_ver_wall
  cases prev <;> dsimp only <;> split_ifs <;> rfl

lemma set_center_type (col : Cell) : (set_center col).type = RCellType.CENTER := by
  unfold set_center
  split_ifs <;> rfl

lemma set_last_col_corner_type (col : Cell) :
    (set_last_col_corner col).type = RCellType.CORNER := by
  unfold set_last_col_corner
  split_ifs <;> rfl

lemma set_last_row_type_even (maze : Maze) (c : Nat) (h : c % 2 = 0) :
    (set_last_row maze c).type = RCellType.CORNER := by
  unfold set_last_row
  rw [if_pos h]
  dsimp only
  split_ifs <;> rfl

lemma set_last_row_type_odd (maze : Maze) (c : Nat) (h : c % 2 ≠ 0)
    (h2 : c / 2 ≠ maze.width) :
    (set_last_row maze c).type = RCellType.HORIZONTAL := by
  unfold set_last_row
  dsimp only
  rw [if_neg h, if_neg (by omega), if_neg h2]
  split_ifs <;> rfl

/-- C8: the render expander yields a `(2*height+1) x (2*width+1)` grid in
which each logical cell `(x, y)` contributes the 2x2 block corner /
horizontal segment / vertical segment / center at rows `2y`, `2y+1` and
columns `2x`, `2x+1`; the trailing column holds corners in even rows and
vertical segments in odd rows, and the trailing row holds corners in even
columns and horizontal segments in odd columns. -/
theorem render_grid_layout (maze : Maze) (hw : 2 ≤ maze.width) (hh : 2 ≤ maze.height) :
    (rm_create maze).height = 2 * maze.height + 1 ∧
    (rm_create maze).width = 2 * maze.width + 1 ∧
    (∀ x y : Nat, x < maze.width → y < maze.height →
      ((rm_create maze).grid (2 * y, 2 * x)).type = RCellType.CORNER ∧
      ((rm_create maze).grid (2 * y, 2 * x + 1)).type = RCellType.HORIZONTAL ∧
      ((rm_create maze).grid (2 * y + 1, 2 * x)).type = RCellType.VERTICAL ∧
      ((rm_create maze).grid (2 * y + 1, 2 * x + 1)).type = RCellType.CENTER) ∧
    (∀ y : Nat, y ≤ maze.height →
      ((rm_create maze).grid (2 * y, 2 * maze.width)).type = RCellType.CORNER) ∧
    (∀ y : Nat, y < maze.height →
      ((rm_create maze).grid (2 * y + 1, 2 * maze.width)).type = RCellType.VERTICAL) ∧
    (∀ x : Nat, x ≤ maze.width →
      ((rm_create maze).grid (2 * maze.height, 2 * x)).type = RCellType.CORNER) ∧
    (∀ x : Nat, x < maze.width →
      ((rm_create maze).grid (2 * maze.height, 2 * x + 1)).type = RCellType.HORIZONTAL) := by
  have how : (RenderMaze.ofMaze maze).width = maze.width * 2 + 1 := rfl
  have hoh : (RenderMaze.ofMaze maze).height = maze.height * 2 + 1 := rfl
  have hL : 2 * maze.width ≤ (RenderMaze.ofMaze maze).width - 1 := by
    rw [how]; omega
  have hmain : ∀ i j : Nat, (rm_create maze).grid (i, j) =
      if i = (RenderMaze.ofMaze maze).height - 1 ∧ j < (RenderMaze.ofMaze maze).width then
        set_last_row maze j
      else
        (((List.range maze.height).foldl
          (rm_row maze ((RenderMaze.ofMaze maze).width - 1))
          (RenderMaze.ofMaze maze)).grid (i, j)) := by
    intro i j
    unfold rm_create
    exact lastrow_fold maze _ _ _ i j
  have hrows := fun (r0 : Nat) (hr0 : r0 < maze.height) =>
    rows_fold_at maze ((RenderMaze.ofMaze maze).width - 1) (RenderMaze.ofMaze maze)
      maze.height r0 hr0 hL
  obtain ⟨hdw, hdh⟩ := rm_create_dims maze
  refine ⟨by rw [hdh]; ring, by rw [hdw]; ring, ?_, ?_, ?_, ?_, ?_⟩
  · intro x y hx hy
    obtain ⟨hb1, hb2, hb3, hb4⟩ := (hrows y hy).1 x hx
    rw [show 2 * y = y * 2 by ring, show 2 * x = x * 2 by ring]
    refine ⟨?_, ?_, ?_, ?_⟩ <;> rw [hmain, if_neg (by rw [hoh]; omega)]
    · rw [hb1]; exact set_corner_type _ _ _
    · rw [hb2]; exact set_hor_wall_type _ _
    · rw [hb3]; exact set_ver_wall_type _ _
    · rw [hb4]; exact set_center_type _
  · intro y hy
    rcases Nat.lt_or_ge y maze.height with hlt | hge
    · obtain ⟨_, hc2, _⟩ := hrows y hlt
      rw [show 2 * y = y * 2 by ring,
        show 2 * maze.width = (RenderMaze.ofMaze maze).width - 1 by rw [how]; omega,
        hmain, if_neg (by rw [hoh]; omega), hc2]
      split_ifs
      · rfl
      · exact set_last_col_corner_type _
    · have hy' : y = maze.height := by omega
      subst hy'
      rw [hmain, if_pos (by rw [hoh, how]; omega)]
      exact set_last_row_type_even maze _ (by omega)
  · intro y hy
    obtain ⟨_, _, hc3⟩ := hrows y hy
    rw [show 2 * y + 1 = y * 2 + 1 by ring,
      show 2 * maze.width = (RenderMaze.ofMaze maze).width - 1 by rw [how]; omega,
      hmain, if_neg (by rw [hoh]; omega), hc3]
  · intro x hx
    rw [hmain, if_pos (by rw [hoh, how]; omega)]
    exact set_last_row_type_even maze _ (by omega)
  · intro x hx
    rw [hmain, if_pos (by rw [hoh, how]; omega)]
    exact set_last_row_type_odd maze _ (by omega) (by omega)

/-- C8 witness: the layout theorem applied to a fresh 2x2 maze. -/
theorem render_grid_layout_witness :
    (2 ≤ (Maze.init 2 2).width ∧ 2 ≤ (Maze.init 2 2).height) ∧
    (rm_create (Maze.init 2 2)).height = 2 * (Maze.init 2 2).height + 1 :=
  ⟨⟨by decide, by decide⟩,
    (render_grid_layout (Maze.init 2 2) (by decide) (by decide)).1⟩

/-! ## Neighbor-batch lemmas -/

lemma mem_ite_list {α : Type} {c : Prop} [Decidable c] {x : α} {l : List α} :
    (x ∈ if c then l else []) ↔ c ∧ x ∈ l := by
  split_ifs with h <;> simp [h]

lemma gn_mem {o : Oracle} {cfg : Config} {visited : List Coordinate} {rng : Nat}
    {c : Coordinate} {bro : Bool} (hperm : o.Permutes)
    {pr : Coordinate × Coordinate} :
    pr ∈ (get_unvisited_neighbors o cfg visited rng c bro).1 ↔
      ((bro = false ∧ 0 < c.2 ∧ (c.1, c.2 - 1) ∉ visited ∧ pr = (c, (c.1, c.2 - 1))) ∨
       (bro = false ∧ 0 < c.1 ∧ (c.1 - 1, c.2) ∉ visited ∧ pr = (c, (c.1 - 1, c.2))) ∨
       (c.2 < (cfg.height : Int) - 1 ∧ (c.1, c.2 + 1) ∉ visited ∧
         pr = (c, (c.1, c.2 + 1))) ∨
       (c.1 < (cfg.width : Int) - 1 ∧ (c.1 + 1, c.2) ∉ visited ∧
         pr = (c, (c.1 + 1, c.2)))) := by
  unfold get_unvisited_neighbors
  rw [List.Perm.mem_iff (hperm _ _)]
  simp only [List.mem_append, mem_ite_list, List.mem_singleton, and_assoc,
    Prod.mk.eta, or_assoc]

lemma gn_forms {o : Oracle} {cfg : Config} {visited : List Coordinate} {rng : Nat}
    {c : Coordinate} {bro : Bool} (hperm : o.Permutes)
    {pr : Coordinate × Coordinate}
    (hpr : pr ∈ (get_unvisited_neighbors o cfg visited rng c bro).1) :
    pr.1 = c ∧ Adjacent c pr.2 ∧ pr.2 ∉ visited := by
  rw [gn_mem hperm] at hpr
  rcases hpr with ⟨_, h2, h3, rfl⟩ | ⟨_, h2, h3, rfl⟩ | ⟨h2, h3, rfl⟩ | ⟨h2, h3, rfl⟩ <;>
    refine ⟨rfl, ?_, h3⟩ <;> unfold Adjacent <;> dsimp only
  · exact Or.inl ⟨rfl, Or.inl (by omega)⟩
  · exact Or.inr ⟨rfl, Or.inl (by omega)⟩
  · exact Or.inl ⟨rfl, Or.inr (by omega)⟩
  · exact Or.inr ⟨rfl, Or.inr (by omega)⟩

lemma gn_bounds {o : Oracle} {cfg : Config} {visited : List Coordinate} {rng : Nat}
    {c : Coordinate} {bro : Bool} (hperm : o.Permutes) (hc : InB cfg c)
    {pr : Coordinate × Coordinate}
    (hpr : pr ∈ (get_unvisited_neighbors o cfg visited rng c bro).1) :
    InB cfg pr.2 := by
  rw [gn_mem hperm] at hpr
  obtain ⟨hc1, hc2, hc3, hc4⟩ := hc
  rcases hpr with ⟨_, h2, h3, rfl⟩ | ⟨_, h2, h3, rfl⟩ | ⟨h2, h3, rfl⟩ | ⟨h2, h3, rfl⟩ <;>
    exact ⟨by dsimp only; omega, by dsimp only; omega, by dsimp only; omega,
      by dsimp only; omega⟩

lemma gn_complete {o : Oracle} {cfg : Config} {visited : List Coordinate} {rng : Nat}
    {c d : Coordinate} (hperm : o.Permutes) (hadj : Adjacent c d) (hd : InB cfg d)
    (hdv : d ∉ visited) :
    (c, d) ∈ (get_unvisited_neighbors o cfg visited rng c false).1 := by
  rw [gn_mem hperm]
  obtain ⟨hd1, hd2, hd3, hd4⟩ := hd
  rcases hadj with ⟨h1, h2 | h2⟩ | ⟨h1, h2 | h2⟩
  · have he : d = (c.1, c.2 - 1) := Prod.ext (by omega) (by omega)
    subst he
    exact Or.inl ⟨rfl, by dsimp only at hd3 ⊢; omega, hdv, rfl⟩
  · have he : d = (c.1, c.2 + 1) := Prod.ext (by omega) (by omega)
    subst he
    exact Or.inr (Or.inr (Or.inl ⟨by dsimp only at hd4 ⊢; omega, hdv, rfl⟩))
  · have he : d = (c.1 - 1, c.2) := Prod.ext (by omega) (by omega)
    subst he
    exact Or.inr (Or.inl ⟨rfl, by dsimp only at hd1 ⊢; omega, hdv, rfl⟩)
  · have he : d = (c.1 + 1, c.2) := Prod.ext (by omega) (by omega)
    subst he
    exact Or.inr (Or.inr (Or.inr ⟨by dsimp only at hd2 ⊢; omega, hdv, rfl⟩))

lemma gn_length {o : Oracle} {cfg : Config} {visited : List Coordinate} {rng : Nat}
    {c : Coordinate} {bro : Bool} (hperm : o.Permutes) :
    (get_unvisited_neighbors o cfg visited rng c bro).1.length ≤ 4 := by
  unfold get_unvisited_neighbors
  rw [List.Perm.length_eq (hperm _ _)]
  simp only [List.length_append]
  split_ifs <;> simp

lemma gn_rng (o : Oracle) (cfg : Config) (visited : List Coordinate) (rng : Nat)
    (c : Coordinate) (bro : Bool) :
    (get_unvisited_neighbors o cfg visited rng c bro).2 = rng + 1 :=
  rfl

/-! ## Growth-structure lemmas -/

lemma growth_root_mem {e : Coordinate} {V : List Coordinate}
    {R : List (Coordinate × Coordinate)} (h : GrowthR e V R) : e ∈ V := by
  induction h with
  | base => simp
  | grow p c hp hadj _ ih => exact List.mem_append_left _ ih

lemma growth_endpoints {e : Coordinate} {V : List Coordinate}
    {R : List (Coordinate × Coordinate)} (h : GrowthR e V R) :
    ∀ pr ∈ R, pr.1 ∈ V ∧ pr.2 ∈ V := by
  induction h with
  | base => simp
  | grow p c hp hadj _ ih =>
      intro pr hpr
      rcases List.mem_append.mp hpr with h1 | h1
      · exact ⟨List.mem_append_left _ (ih pr h1).1, List.mem_append_left _ (ih pr h1).2⟩
      · rw [List.mem_singleton.mp h1]
        exact ⟨List.mem_append_left _ hp, List.mem_append_right _ (by simp)⟩

lemma growth_adj {e : Coordinate} {V : List Coordinate}
    {R : List (Coordinate × Coordinate)} (h : GrowthR e V R) :
    ∀ pr ∈ R, Adjacent pr.1 pr.2 := by
  induction h with
  | base => simp
  | grow p c hp hadj _ ih =>
      intro pr hpr
      rcases List.mem_append.mp hpr with h1 | h1
      · exact ih pr h1
      · rw [List.mem_singleton.mp h1]
        exact hadj

lemma growth_length {e : Coordinate} {V : List Coordinate}
    {R : List (Coordinate × Coordinate)} (h : GrowthR e V R) :
    V.length = R.length + 1 := by
  induction h with
  | base => rfl
  | grow p c hp hadj _ ih => simp [ih]

lemma growth_not_pairIn {e : Coordinate} {V : List Coordinate}
    {R : List (Coordinate × Coordinate)} (h : GrowthR e V R) {c : Coordinate}
    (hc : c ∉ V) (x : Coordinate) : ¬ pairIn R x c := by
  rintro (hx | hx)
  · exact hc (growth_endpoints h _ hx).2
  · exact hc (growth_endpoints h _ hx).1

lemma pairIn_symm {R : List (Coordinate × Coordinate)} {a b : Coordinate}
    (h : pairIn R a b) : pairIn R b a := by
  unfold pairIn at *; tauto

lemma pairIn_append {R : List (Coordinate × Coordinate)}
    {pr : Coordinate × Coordinate} {a b : Coordinate} :
    pairIn (R ++ [pr]) a b ↔
      pairIn R a b ∨ (a = pr.1 ∧ b = pr.2) ∨ (a = pr.2 ∧ b = pr.1) := by
  unfold pairIn
  simp only [List.mem_append, List.mem_singleton]
  constructor
  · rintro ((h | h) | (h | h))
    · exact Or.inl (Or.inl h)
    · obtain rfl := h.symm
      exact Or.inr (Or.inl ⟨rfl, rfl⟩)
    · exact Or.inl (Or.inr h)
    · obtain rfl := h.symm
      exact Or.inr (Or.inr ⟨rfl, rfl⟩)
  · rintro ((h | h) | ⟨h1, h2⟩ | ⟨h1, h2⟩)
    · exact Or.inl (Or.inl h)
    · exact Or.inr (Or.inl h)
    · subst h1; subst h2
      exact Or.inl (Or.inr rfl)
    · subst h1; subst h2
      exact Or.inr (Or.inr rfl)

/-! ## Unique simple paths in the grown tree -/

lemma head?_append_left {α : Type} {l l' : List α} (h : l ≠ []) :
    (l ++ l').head? = l.head? := by
  cases l
  · exact absurd rfl h
  · rfl

lemma epath_mono {E F : Coordinate → Coordinate → Prop}
    (hEF : ∀ x y, E x y → F x y) {a b : Coordinate} {p : List Coordinate}
    (h : EPath E a b p) : EPath F a b p :=
  ⟨h.1, h.2.1, h.2.2.1, h.2.2.2.imp hEF⟩

lemma epath_reverse {E : Coordinate → Coordinate → Prop}
    (hsym : ∀ x y, E x y → E y x) {a b : Coordinate} {p : List Coordinate}
    (h : EPath E a b p) : EPath E b a p.reverse := by
  obtain ⟨hne, hh, hl, hc⟩ := h
  refine ⟨by simpa using hne, ?_, ?_, ?_⟩
  · rw [List.head?_reverse]; exact hl
  · rw [List.getLast?_reverse]; exact hh
  · exact List.chain'_reverse.mpr (hc.imp fun x y hxy => hsym x y hxy)

lemma epath_subset {V : List Coordinate} {R : List (Coordinate × Coordinate)}
    (hend : ∀ pr ∈ R, pr.1 ∈ V ∧ pr.2 ∈ V) {a b : Coordinate} {p : List Coordinate}
    (hp : EPath (pairIn R) a b p) (ha : a ∈ V) : ∀ x ∈ p, x ∈ V := by
  obtain ⟨hne, hhead, hlast, hchain⟩ := hp
  clear hne
  induction p generalizing a with
  | nil => simp
  | cons x rest ih =>
      rw [List.head?_cons] at hhead
      injection hhead with hx
      subst hx
      intro z hz
      rcases List.mem_cons.mp hz with rfl | hz2
      · exact ha
      · cases rest with
        | nil => simp at hz2
        | cons y rest2 =>
            rw [List.chain'_cons] at hchain
            have hy : y ∈ V := by
              rcases hchain.1 with h1 | h1
              · exact (hend _ h1).2
              · exact (hend _ h1).1
            exact ih hy rfl (by rwa [List.getLast?_cons_cons] at hlast) hchain.2 z hz2

/-- In the incrementally-grown tree there is exactly one duplicate-free
path between any two vertices. -/
theorem growth_unique_epath {e : Coordinate} {V : List Coordinate}
    {R : List (Coordinate × Coordinate)} (hg : GrowthR e V R) (hnd : V.Nodup) :
    ∀ a b : Coordinate, a ∈ V → b ∈ V →
      ∃! p : List Coordinate, p.Nodup ∧ EPath (pairIn R) a b p := by
  induction hg with
  | base =>
      intro a b ha hb
      rw [List.mem_singleton] at ha hb
      refine ⟨[e], ⟨by simp, by simp, by simp [ha], by simp [hb], by simp⟩, ?_⟩
      rintro q ⟨hqnd, hne, hh, hl, hch⟩
      cases q with
      | nil => exact absurd rfl hne
      | cons x rest =>
          cases rest with
          | nil =>
              rw [List.head?_cons] at hh
              injection hh with hx
              rw [hx, ha]
          | cons y rest2 =>
              rw [List.chain'_cons] at hch
              rcases hch.1 with h1 | h1 <;> simp at h1
  | grow p c hp hadj hg ih =>
      rename_i V R
      intro a b ha hb
      have hndV : V.Nodup := (List.nodup_append.mp hnd).1
      have hcV : c ∉ V := by
        intro hc
        exact (List.nodup_append.mp hnd).2.2 hc (by simp)
      have IH := ih hndV
      have hendR : ∀ pr ∈ R, pr.1 ∈ V ∧ pr.2 ∈ V := growth_endpoints hg
      have hnbr : ∀ x, pairIn (R ++ [(p, c)]) x c → x = p := by
        intro x hx
        rcases pairIn_append.mp hx with hx | ⟨h1, h2⟩ | ⟨h1, h2⟩
        · exact absurd hx (growth_not_pairIn hg hcV x)
        · dsimp only at h1
          exact h1
        · dsimp only at h1 h2
          exact h1.trans h2
      have hnbr' : ∀ x, pairIn (R ++ [(p, c)]) c x → x = p :=
        fun x hx => hnbr x (pairIn_symm hx)
      have hsym : ∀ x y, pairIn (R ++ [(p, c)]) x y → pairIn (R ++ [(p, c)]) y x :=
        fun x y h => pairIn_symm h
      have hmono : ∀ x y, pairIn R x y → pairIn (R ++ [(p, c)]) x y := by
        rintro x y (h | h)
        · exact Or.inl (List.mem_append_left _ h)
        · exact Or.inr (List.mem_append_left _ h)
      -- a duplicate-free path between vertices other than c avoids c and uses
      -- no new edge
      have havoid : ∀ a' b' q, a' ≠ c → b' ≠ c → q.Nodup →
          EPath (pairIn (R ++ [(p, c)])) a' b' q → EPath (pairIn R) a' b' q := by
        intro a' b' q hac hbc hqnd hq
        have hcq : c ∉ q := by
          intro hcq
          obtain ⟨u, v, rfl⟩ := List.append_of_mem hcq
          obtain ⟨hne, hh, hl, hch⟩ := hq
          cases u with
          | nil =>
              rw [List.nil_append, List.head?_cons] at hh
              injection hh with hh
              exact hac hh.symm
          | cons u0 u' =>
              cases v with
              | nil =>
                  rw [List.getLast?_concat] at hl
                  injection hl with hl
                  exact hbc hl.symm
              | cons v0 v' =>
                  rw [List.chain'_append] at hch
                  obtain ⟨hcu, hcv, hjun⟩ := hch
                  have hL : (u0 :: u').getLast? =
                      some ((u0 :: u').getLast (by simp)) :=
                    List.getLast?_eq_getLast _ _
                  have hedge1 : pairIn (R ++ [(p, c)]) ((u0 :: u').getLast (by simp)) c :=
                    hjun _ (by rw [hL]; rfl) c (by rfl)
                  rw [List.chain'_cons] at hcv
                  have hv0p : v0 = p := hnbr' v0 hcv.1
                  have hLp : (u0 :: u').getLast (by simp) = p := hnbr _ hedge1
                  have hpu : p ∈ u0 :: u' := hLp ▸ List.getLast_mem (by simp)
                  have hpv : p ∈ c :: v0 :: v' := by
                    rw [← hv0p]; simp
                  exact (List.nodup_append.mp hqnd).2.2 hpu hpv
        obtain ⟨hne, hh, hl, hch⟩ := hq
        refine ⟨hne, hh, hl, ?_⟩
        clear hne hh hl hqnd
        induction q with
        | nil => simp
        | cons x rest ihq =>
            cases rest with
            | nil => simp
            | cons y rest2 =>
                rw [List.chain'_cons] at hch ⊢
                have hcy : c ∉ y :: rest2 := fun hcr => hcq (List.mem_cons_of_mem _ hcr)
                refine ⟨?_, ihq hcy hch.2⟩
                rcases pairIn_append.mp hch.1 with h1 | ⟨h1, h2⟩ | ⟨h1, h2⟩
                · exact h1
                · dsimp only at h2
                  exact absurd (h2 ▸ (by simp : y ∈ x :: y :: rest2)) hcq
                · dsimp only at h1
                  exact absurd (h1 ▸ (by simp : x ∈ x :: y :: rest2)) hcq
      -- paths ending at the new leaf
      have hcase2 : ∀ a', a' ∈ V →
          ∃! q : List Coordinate, q.Nodup ∧ EPath (pairIn (R ++ [(p, c)])) a' c q := by
        intro a' haV
        have hac : a' ≠ c := fun h => hcV (h ▸ haV)
        obtain ⟨q, ⟨hqnd, hqp⟩, huniq⟩ := IH a' p haV hp
        have hqV : ∀ x ∈ q, x ∈ V := epath_subset hendR hqp haV
        have hqne : q ≠ [] := hqp.1
        refine ⟨q ++ [c], ⟨?_, ?_, ?_, ?_, ?_⟩, ?_⟩
        · rw [List.nodup_append]
          exact ⟨hqnd, by simp, fun x hx hxc =>
            hcV ((List.mem_singleton.mp hxc) ▸ hqV x hx)⟩
        · simp
        · rw [head?_append_left hqne]; exact hqp.2.1
        · rw [List.getLast?_concat]
        · rw [List.chain'_append]
          refine ⟨hqp.2.2.2.imp hmono, by simp, ?_⟩
          intro x hx y hy
          rw [hqp.2.2.1] at hx
          injection hx with hx
          rw [List.head?_cons] at hy
          injection hy with hy
          rw [← hx, ← hy]
          exact Or.inl (List.mem_append_right _ (by simp))
        · rintro q' ⟨hq'nd, hq'p⟩
          obtain ⟨hne', hh', hl', hch'⟩ := hq'p
          have hlast : q'.getLast hne' = c := by
            rw [List.getLast?_eq_getLast _ hne'] at hl'
            injection hl'
          obtain ⟨u, rfl⟩ : ∃ u, q' = u ++ [c] :=
            ⟨q'.dropLast, by rw [← hlast]; exact (List.dropLast_append_getLast hne').symm⟩
          cases u with
          | nil =>
              rw [List.nil_append, List.head?_cons] at hh'
              injection hh' with hh'
              exact absurd hh'.symm hac
          | cons u0 u' =>
              have huC : c ∉ u0 :: u' := by
                intro hcu
                exact (List.nodup_append.mp hq'nd).2.2 hcu (by simp)
              rw [List.chain'_append] at hch'
              obtain ⟨hcu, _, hjun⟩ := hch'
              have hL : (u0 :: u').getLast? = some ((u0 :: u').getLast (by simp)) :=
                List.getLast?_eq_getLast _ _
              have hedge1 : pairIn (R ++ [(p, c)]) ((u0 :: u').getLast (by simp)) c :=
                hjun _ (by rw [hL]; rfl) c (by rfl)
              have hLp : (u0 :: u').getLast (by simp) = p := hnbr _ hedge1
              have hupath : EPath (pairIn (R ++ [(p, c)])) a' p (u0 :: u') := by
                refine ⟨by simp, ?_, ?_, hcu⟩
                · rw [head?_append_left (by simp : (u0 :: u') ≠ [])] at hh'
                  exact hh'
                · rw [hL, hLp]
              have hu'nd : (u0 :: u').Nodup := (List.nodup_append.mp hq'nd).1
              have hpc : p ≠ c := fun h => hcV (h ▸ hp)
              have huE : EPath (pairIn R) a' p (u0 :: u') :=
                havoid a' p _ hac hpc hu'nd hupath
              have := huniq (u0 :: u') ⟨hu'nd, huE⟩
              rw [this]
      rcases List.mem_append.mp ha with haV | haC
      · rcases List.mem_append.mp hb with hbV | hbC
        · have hac : a ≠ c := fun h => hcV (h ▸ haV)
          have hbc : b ≠ c := fun h => hcV (h ▸ hbV)
          obtain ⟨q, ⟨hqnd, hqp⟩, huniq⟩ := IH a b haV hbV
          refine ⟨q, ⟨hqnd, epath_mono hmono hqp⟩, ?_⟩
          rintro q' ⟨hq'nd, hq'p⟩
          exact huniq q' ⟨hq'nd, havoid a b q' hac hbc hq'nd hq'p⟩
        · obtain rfl : b = c := List.mem_singleton.mp hbC
          exact hcase2 a haV
      · obtain rfl : c = a := (List.mem_singleton.mp haC).symm
        rcases List.mem_append.mp hb with hbV | hbC
        · obtain ⟨q, ⟨hqnd, hqp⟩, huniq⟩ := hcase2 b hbV
          refine ⟨q.reverse, ⟨List.nodup_reverse.mpr hqnd, epath_reverse hsym hqp⟩, ?_⟩
          rintro q' ⟨hq'nd, hq'p⟩
          have := huniq q'.reverse
            ⟨List.nodup_reverse.mpr hq'nd, by
              have := epath_reverse hsym hq'p
              exact this⟩
          rw [← List.reverse_reverse q', this]
        · obtain rfl : c = b := (List.mem_singleton.mp hbC).symm
          refine ⟨[c], ⟨by simp, by simp, by simp, by simp, by simp⟩, ?_⟩
          rintro q' ⟨hq'nd, hne', hh', hl', hch'⟩
          cases q' with
          | nil => exact absurd rfl hne'
          | cons x rest =>
              rw [List.head?_cons] at hh'
              injection hh' with hh'
              subst hh'
              cases rest with
              | nil => rfl
              | cons y rest2 =>
                  have hlmem : (y :: rest2).getLast (by simp) ∈ y :: rest2 :=
                    List.getLast_mem _
                  have hl2 : (x :: y :: rest2).getLast? = (y :: rest2).getLast? := rfl
                  rw [hl2, List.getLast?_eq_getLast _ (by simp)] at hl'
                  injection hl' with hl'
                  rw [List.nodup_cons] at hq'nd
                  exact absurd (hl' ▸ hlmem) hq'nd.1

/-! ## Carve-loop invariant preservation (claim C1) -/

lemma allWalls_wallD {m : Maze} (hm : AllWalls m) (a b : Coordinate) :
    m.wallD a b = true := by
  unfold Maze.wallD Maze.has_wall_between
  obtain ⟨h1, h2, h3, h4⟩ := hm a.1 a.2
  split_ifs <;> simp [h1, h2, h3, h4]

lemma applyRemovals_append (m : Maze) (R : List (Coordinate × Coordinate))
    (pr : Coordinate × Coordinate) :
    applyRemovals m (R ++ [pr]) = (applyRemovals m R).set_wall_at pr.1 pr.2 false := by
  unfold applyRemovals
  rw [List.foldl_append]
  rfl

lemma coordList_mem {w h : Nat} {c : Coordinate} :
    c ∈ coordList w h ↔ inGrid w h c :=
  mem_coordList

lemma coordList_nodup (w h : Nat) : (coordList w h).Nodup := by
  have he : coordList w h =
      ((List.range h).product (List.range w)).map
        (fun p => (((p.2 : Nat) : Int), ((p.1 : Nat) : Int))) := by
    unfold coordList
    simp only [List.product, List.map_flatMap, List.map_map]
    rfl
  rw [he]
  refine List.Nodup.map ?_ (List.Nodup.product (List.nodup_range h) (List.nodup_range w))
  intro p q hpq
  rw [Prod.ext_iff] at hpq
  dsimp only at hpq
  have h2 : p.2 = q.2 := by exact_mod_cast hpq.1
  have h1 : p.1 = q.1 := by exact_mod_cast hpq.2
  exact Prod.ext h1 h2

lemma coordList_length (w h : Nat) : (coordList w h).length = w * h := by
  unfold coordList
  induction h with
  | zero => rfl
  | succ n ihn =>
      rw [List.range_succ, List.flatMap_append, List.length_append, ihn]
      simp [Nat.mul_succ]

lemma unvisitedCount_le (cfg : Config) (vis : List Coordinate) :
    unvisitedCount cfg vis ≤ cfg.width * cfg.height := by
  unfold unvisitedCount
  calc ((coordList cfg.width cfg.height).filter (fun c => decide (c ∉ vis))).length
      ≤ (coordList cfg.width cfg.height).length := List.length_filter_le _ _
    _ = cfg.width * cfg.height := coordList_length _ _

lemma unvisitedCount_append {cfg : Config} {vis : List Coordinate} {c : Coordinate}
    (hin : InB cfg c) (hcv : c ∉ vis) :
    unvisitedCount cfg (vis ++ [c]) < unvisitedCount cfg vis := by
  unfold unvisitedCount
  have hco : c ∈ (coordList cfg.width cfg.height).filter (fun x => decide (x ∉ vis)) := by
    rw [List.mem_filter, decide_eq_true_eq]
    exact ⟨coordList_mem.mpr hin, hcv⟩
  have hsub : (coordList cfg.width cfg.height).filter (fun x => decide (x ∉ vis ++ [c])) =
      ((coordList cfg.width cfg.height).filter (fun x => decide (x ∉ vis))).filter
        (fun x => decide (x ≠ c)) := by
    rw [List.filter_filter]
    refine List.filter_congr ?_
    intro x _
    rw [← Bool.decide_and, decide_eq_decide, List.mem_append, List.mem_singleton]
    tauto
  rw [hsub]
  obtain ⟨u, v, huv⟩ := List.append_of_mem hco
  rw [huv]
  have h1 := List.length_filter_le (fun x => decide (x ≠ c)) u
  have h2 := List.length_filter_le (fun x => decide (x ≠ c)) v
  rw [List.filter_append, List.filter_cons_of_neg (by simp), List.length_append,
    List.length_append, List.length_cons]
  omega

lemma carveInv_init (cfg : Config) (m1 : Maze) (B : List Coordinate) (r : Nat)
    (hB : B.Nodup) :
    CarveInv cfg B m1 [(cfg.entry, cfg.entry)]
      ⟨B, m1, r⟩ [] [] := by
  refine ⟨by simp, by simpa using hB, Or.inl ⟨rfl, rfl, rfl⟩, by simp, rfl, ?_, by simp⟩
  intro pr hpr
  rw [List.mem_singleton] at hpr
  exact Or.inl hpr

lemma carveInv_skip {cfg : Config} {B : List Coordinate} {m1 : Maze}
    {p c : Coordinate} {rest : List (Coordinate × Coordinate)} {s : GenState}
    {V : List Coordinate} {R : List (Coordinate × Coordinate)}
    (heB : cfg.entry ∉ B)
    (hinv : CarveInv cfg B m1 ((p, c) :: rest) s V R) (hc : c ∈ s.visited) :
    CarveInv cfg B m1 rest s V R := by
  obtain ⟨h1, h2, h3, h4, h5, h6, h7⟩ := hinv
  have hg : GrowthR cfg.entry V R := by
    rcases h3 with ⟨hV, hR, hstk⟩ | hg
    · exfalso
      obtain ⟨hpc, hrest⟩ := List.cons_eq_cons.mp hstk
      have hcE : c = cfg.entry := congrArg Prod.snd hpc
      rw [hcE, h1, hV, List.append_nil] at hc
      exact heB hc
    · exact hg
  refine ⟨h1, h2, Or.inr hg, h4, h5,
    fun pr hpr => h6 pr (List.mem_cons_of_mem _ hpr), ?_⟩
  intro v hv d hadj hin hnB
  rcases h7 v hv d hadj hin hnB with h | ⟨q, hq⟩
  · exact Or.inl h
  · rcases List.mem_cons.mp hq with heq | hrest
    · have hdc : d = c := congrArg Prod.snd heq
      subst hdc
      rw [h1] at hc
      rcases List.mem_append.mp hc with hB1 | hV1
      · exact absurd hB1 hnB
      · exact Or.inl hV1
    · exact Or.inr ⟨q, hrest⟩

lemma carveInv_visit {o : Oracle} (hperm : o.Permutes) {cfg : Config}
    {B : List Coordinate} {m1 : Maze} {p c : Coordinate}
    {rest : List (Coordinate × Coordinate)} {s : GenState}
    {V : List Coordinate} {R : List (Coordinate × Coordinate)}
    (heB : cfg.entry ∉ B) (hInB : InB cfg cfg.entry)
    (hinv : CarveInv cfg B m1 ((p, c) :: rest) s V R) (hc : c ∉ s.visited) :
    InB cfg c ∧
    ∃ V' R', CarveInv cfg B m1
      ((get_unvisited_neighbors o cfg (s.visited ++ [c]) s.rng c false).1 ++ rest)
      ⟨s.visited ++ [c], s.maze.set_wall_at p c false,
        (get_unvisited_neighbors o cfg (s.visited ++ [c]) s.rng c false).2⟩ V' R' := by
  obtain ⟨h1, h2, h3, h4, h5, h6, h7⟩ := hinv
  rcases h3 with ⟨hV, hR, hstk⟩ | hg
  · -- first iteration: the popped pair is the entry self-pair
    subst hV; subst hR
    obtain ⟨hpc, hrest⟩ := List.cons_eq_cons.mp hstk
    have hpE : p = cfg.entry := congrArg Prod.fst hpc
    have hcE : c = cfg.entry := congrArg Prod.snd hpc
    subst hpE; subst hcE; subst hrest
    rw [List.append_nil] at h1 h2
    have hvisB : s.visited = B := h1
    refine ⟨hInB, [cfg.entry], [], ?_, ?_, Or.inr GrowthR.base, ?_, ?_, ?_, ?_⟩
    · show s.visited ++ [cfg.entry] = B ++ [cfg.entry]
      rw [hvisB]
    · refine List.Nodup.append h2 (by simp) ?_
      intro a ha hae
      rw [List.mem_singleton.mp hae] at ha
      exact heB ha
    · intro v hv
      rw [List.mem_singleton.mp hv]
      exact ⟨hInB, heB, Relation.ReflTransGen.refl⟩
    · show s.maze.set_wall_at cfg.entry cfg.entry false = applyRemovals m1 []
      rw [set_wall_at_self]
      exact h5
    · intro pr hpr
      rw [List.append_nil] at hpr
      obtain ⟨hf1, hf2, hf3⟩ := gn_forms hperm hpr
      refine Or.inr ⟨by rw [hf1]; simp, hf1 ▸ hf2, gn_bounds hperm hInB hpr, ?_⟩
      intro hprB
      exact hf3 (List.mem_append_left _ (hvisB ▸ hprB))
    · intro v hv d hadj hin hnB
      rw [List.mem_singleton.mp hv] at hadj
      have hdnv : d ∉ s.visited ++ [cfg.entry] := by
        intro hd
        rcases List.mem_append.mp hd with hd1 | hd1
        · exact hnB (hvisB ▸ hd1)
        · exact adjacent_ne hadj (List.mem_singleton.mp hd1).symm
      refine Or.inr ⟨cfg.entry, List.mem_append_left _ ?_⟩
      exact gn_complete hperm hadj hin hdnv
  · -- later iteration: the popped pair is a proper frontier entry
    have hprop : p ∈ V ∧ Adjacent p c ∧ InB cfg c ∧ c ∉ B := by
      rcases h6 (p, c) (by simp) with heq | hp6
      · exfalso
        have hcE : c = cfg.entry := congrArg Prod.snd heq
        exact hc (h1 ▸ List.mem_append_right _ (hcE ▸ growth_root_mem hg))
      · exact hp6
    obtain ⟨hpV, hadj, hcIn, hcB⟩ := hprop
    have hcV : c ∉ V := fun hcv => hc (by rw [h1]; exact List.mem_append_right _ hcv)
    refine ⟨hcIn, V ++ [c], R ++ [(p, c)], ?_, ?_,
      Or.inr (GrowthR.grow p c hpV hadj hg), ?_, ?_, ?_, ?_⟩
    · show s.visited ++ [c] = B ++ (V ++ [c])
      rw [h1, List.append_assoc]
    · rw [← List.append_assoc]
      refine List.Nodup.append h2 (by simp) ?_
      intro a ha hae
      rw [List.mem_singleton.mp hae] at ha
      exact hc (by rw [h1]; exact ha)
    · intro v hv
      rcases List.mem_append.mp hv with hv1 | hv1
      · exact h4 v hv1
      · rw [List.mem_singleton.mp hv1]
        exact ⟨hcIn, hcB, Relation.ReflTransGen.tail (h4 p hpV).2.2 ⟨hadj, hcIn, hcB⟩⟩
    · show s.maze.set_wall_at p c false = applyRemovals m1 (R ++ [(p, c)])
      rw [h5, applyRemovals_append]
    · intro pr hpr
      rcases List.mem_append.mp hpr with hpr1 | hpr1
      · obtain ⟨hf1, hf2, hf3⟩ := gn_forms hperm hpr1
        refine Or.inr ⟨by rw [hf1]; exact List.mem_append_right _ (by simp),
          hf1 ▸ hf2, gn_bounds hperm hcIn hpr1, ?_⟩
        intro hprB
        exact hf3 (List.mem_append_left _ (by rw [h1]; exact List.mem_append_left _ hprB))
      · rcases h6 pr (List.mem_cons_of_mem _ hpr1) with heq | hp6
        · exact Or.inl heq
        · exact Or.inr ⟨List.mem_append_left _ hp6.1, hp6.2⟩
    · intro v hv d hadj2 hin hnB
      rcases List.mem_append.mp hv with hv1 | hv1
      · rcases h7 v hv1 d hadj2 hin hnB with hd | ⟨q, hq⟩
        · exact Or.inl (List.mem_append_left _ hd)
        · rcases List.mem_cons.mp hq with heq | hrest2
          · have hdc : d = c := congrArg Prod.snd heq
            exact Or.inl (List.mem_append_right _ (by rw [hdc]; simp))
          · exact Or.inr ⟨q, List.mem_append_right _ hrest2⟩
      · rw [List.mem_singleton.mp hv1] at hadj2
        by_cases hdv : d ∈ s.visited ++ [c]
        · rcases List.mem_append.mp hdv with hd1 | hd1
          · rw [h1] at hd1
            rcases List.mem_append.mp hd1 with hd2 | hd2
            · exact absurd hd2 hnB
            · exact Or.inl (List.mem_append_left _ hd2)
          · exact absurd (List.mem_singleton.mp hd1).symm (adjacent_ne hadj2)
        · exact Or.inr ⟨c, List.mem_append_left _ (gn_complete hperm hadj2 hin hdv)⟩

lemma carve_loop_spec {o : Oracle} (hperm : o.Permutes) {cfg : Config}
    {B : List Coordinate} {m1 : Maze} (heB : cfg.entry ∉ B) (hInB : InB cfg cfg.entry) :
    ∀ (fuel : Nat) (stack : List (Coordinate × Coordinate)) (s : GenState)
      (V : List Coordinate) (R : List (Coordinate × Coordinate)),
      CarveInv cfg B m1 stack s V R →
      4 * unvisitedCount cfg s.visited + stack.length ≤ fuel →
      ∃ V' R', CarveInv cfg B m1 [] (carve_loop o cfg fuel stack s) V' R' := by
  intro fuel
  induction fuel with
  | zero =>
      intro stack s V R hinv hfuel
      have hstack : stack = [] := by
        cases stack with
        | nil => rfl
        | cons a l => exfalso; rw [List.length_cons] at hfuel; omega
      subst hstack
      exact ⟨V, R, hinv⟩
  | succ fuel ih =>
      intro stack s V R hinv hfuel
      cases stack with
      | nil => exact ⟨V, R, hinv⟩
      | cons pr rest =>
          obtain ⟨p, c⟩ := pr
          by_cases hc : c ∈ s.visited
          · have hskip : carve_loop o cfg (fuel + 1) ((p, c) :: rest) s =
                carve_loop o cfg fuel rest s := by
              simp only [carve_loop]
              rw [if_pos hc]
            rw [hskip]
            refine ih rest s V R (carveInv_skip heB hinv hc) ?_
            rw [List.length_cons] at hfuel
            omega
          · obtain ⟨hcIn, V', R', hinv'⟩ := carveInv_visit hperm heB hInB hinv hc
            have hvisit : carve_loop o cfg (fuel + 1) ((p, c) :: rest) s =
                carve_loop o cfg fuel
                  ((get_unvisited_neighbors o cfg (s.visited ++ [c]) s.rng c false).1 ++ rest)
                  ⟨s.visited ++ [c], s.maze.set_wall_at p c false,
                    (get_unvisited_neighbors o cfg (s.visited ++ [c]) s.rng c false).2⟩ := by
              simp only [carve_loop]
              rw [if_neg hc]
            rw [hvisit]
            refine ih _ _ V' R' hinv' ?_
            dsimp only
            have hlen := @gn_length o cfg (s.visited ++ [c]) s.rng c false hperm
            have hdec := unvisitedCount_append hcIn hc
            rw [List.length_cons] at hfuel
            rw [List.length_append]
            omega

/-! ## Final-state facts and wall counting (claim C1) -/

lemma pairIn_union {R S : List (Coordinate × Coordinate)} {a b : Coordinate} :
    pairIn (R ++ S) a b ↔ pairIn R a b ∨ pairIn S a b := by
  unfold pairIn
  simp only [List.mem_append]
  tauto

lemma carveInv_closed {cfg : Config} {B : List Coordinate} {m1 : Maze}
    {s : GenState} {V : List Coordinate} {R : List (Coordinate × Coordinate)}
    (hinv : CarveInv cfg B m1 [] s V R) :
    GrowthR cfg.entry V R ∧ (∀ c, c ∈ V ↔ Reach cfg B cfg.entry c) := by
  obtain ⟨h1, h2, h3, h4, h5, h6, h7⟩ := hinv
  have hg : GrowthR cfg.entry V R := by
    rcases h3 with ⟨hV, hR, hst⟩ | hg
    · exact absurd hst.symm (by simp)
    · exact hg
  refine ⟨hg, fun c => ⟨fun hc => (h4 c hc).2.2, fun hr => ?_⟩⟩
  induction hr with
  | refl => exact growth_root_mem hg
  | tail hab hstep ih =>
      rcases h7 _ ih _ hstep.1 hstep.2.1 hstep.2.2 with h | ⟨q, hq⟩
      · exact h
      · exact absurd hq (by simp)

lemma carve_maze_inv {o : Oracle} (hperm : o.Permutes) {cfg : Config}
    {B : List Coordinate} {m1 : Maze} (heB : cfg.entry ∉ B) (hInB : InB cfg cfg.entry)
    (hBnd : B.Nodup) :
    ∃ V' R', CarveInv cfg B m1 [] (carve_maze o cfg ⟨B, m1, 0⟩) V' R' := by
  unfold carve_maze
  refine carve_loop_spec hperm heB hInB (carve_fuel cfg) _ _ [] []
    (carveInv_init cfg m1 B 0 hBnd) ?_
  have h1 := unvisitedCount_le cfg B
  unfold carve_fuel
  dsimp only
  rw [List.length_singleton, Nat.mul_assoc]
  omega

lemma countP_or_disjoint {α : Type} (p q : α → Bool) :
    ∀ l : List α, (∀ x ∈ l, ¬(p x = true ∧ q x = true)) →
      l.countP (fun x => p x || q x) = l.countP p + l.countP q := by
  intro l
  induction l with
  | nil => intro h; rfl
  | cons a l ih =>
      intro h
      have hl := ih (fun x hx => h x (List.mem_cons_of_mem _ hx))
      have ha := h a (by simp)
      rw [List.countP_cons, List.countP_cons, List.countP_cons, hl]
      cases hp : p a <;> cases hq : q a <;> simp_all <;> omega

lemma countP_eq_one_of_nodup_mem {α : Type} [DecidableEq α] {A : α} :
    ∀ {l : List α}, l.Nodup → A ∈ l → l.countP (fun x => decide (x = A)) = 1 := by
  intro l
  induction l with
  | nil => intro _ h; simp at h
  | cons a l ih =>
      intro hnd hA
      rw [List.countP_cons]
      rcases List.mem_cons.mp hA with rfl | hA2
      · rw [List.countP_eq_zero.mpr ?_, if_pos (by simp)]
        intro x hx hdec
        exact (List.nodup_cons.mp hnd).1 ((of_decide_eq_true hdec) ▸ hx)
      · rw [ih (List.nodup_cons.mp hnd).2 hA2, if_neg ?_]
        simp only [decide_eq_true_eq]
        intro h
        exact (List.nodup_cons.mp hnd).1 (h ▸ hA2)

lemma countP_eq_zero_of_not_mem {α : Type} [DecidableEq α] {A : α} {l : List α}
    (h : A ∉ l) : l.countP (fun x => decide (x = A)) = 0 :=
  List.countP_eq_zero.mpr (fun x hx hdec => h ((of_decide_eq_true hdec) ▸ hx))

lemma countP_pair_eq {α : Type} [DecidableEq α] {A B : α} (hAB : A ≠ B) :
    ∀ l : List α, l.countP (fun x => decide (x = A ∨ x = B)) =
      l.countP (fun x => decide (x = A)) + l.countP (fun x => decide (x = B)) := by
  intro l
  have h1 : l.countP (fun x => decide (x = A ∨ x = B)) =
      l.countP (fun x => decide (x = A) || decide (x = B)) :=
    List.countP_congr (fun x _ => by simp)
  rw [h1]
  refine countP_or_disjoint _ _ l ?_
  rintro x hx ⟨hA, hB⟩
  rw [decide_eq_true_eq] at hA hB
  exact hAB (hA ▸ hB)

lemma mem_allEdges {m1 : Maze} {ed : Coordinate × Coordinate} :
    ed ∈ allEdges m1 ↔ inGrid m1.width m1.height ed.1 ∧
      ((ed.1.1 + 1 < (m1.width : Int) ∧ ed.2 = (ed.1.1 + 1, ed.1.2)) ∨
       (ed.1.2 + 1 < (m1.height : Int) ∧ ed.2 = (ed.1.1, ed.1.2 + 1))) := by
  unfold allEdges
  rw [List.mem_flatMap]
  constructor
  · rintro ⟨c, hc, hed⟩
    rw [mem_get_all_coordinates] at hc
    rcases List.mem_append.mp hed with h | h <;> rw [mem_ite_list, List.mem_singleton] at h
    · obtain ⟨hcond, rfl⟩ := h
      exact ⟨hc, Or.inl ⟨hcond, rfl⟩⟩
    · obtain ⟨hcond, rfl⟩ := h
      exact ⟨hc, Or.inr ⟨hcond, rfl⟩⟩
  · rintro ⟨hc, h | h⟩
    · refine ⟨ed.1, mem_get_all_coordinates.mpr hc, List.mem_append_left _ ?_⟩
      rw [mem_ite_list, List.mem_singleton]
      exact ⟨h.1, Prod.ext rfl h.2⟩
    · refine ⟨ed.1, mem_get_all_coordinates.mpr hc, List.mem_append_right _ ?_⟩
      rw [mem_ite_list, List.mem_singleton]
      exact ⟨h.1, Prod.ext rfl h.2⟩

lemma allEdges_nodup (m1 : Maze) : (allEdges m1).Nodup := by
  unfold allEdges
  rw [List.nodup_flatMap]
  constructor
  · intro c hc
    split_ifs <;> simp [Prod.ext_iff] <;> omega
  · have hnd : (m1.get_all_coordinates).Nodup := coordList_nodup m1.width m1.height
    refine hnd.imp ?_
    intro a b hab ed hea heb
    have h1 : ed.1 = a := by
      rcases List.mem_append.mp hea with h | h <;>
        rw [mem_ite_list, List.mem_singleton] at h <;>
        exact congrArg Prod.fst h.2
    have h2 : ed.1 = b := by
      rcases List.mem_append.mp heb with h | h <;>
        rw [mem_ite_list, List.mem_singleton] at h <;>
        exact congrArg Prod.fst h.2
    exact hab (h1 ▸ h2)

lemma count_allEdges (m1 : Maze) {u v : Coordinate} (hadj : Adjacent u v)
    (h1 : inGrid m1.width m1.height u) (h2 : inGrid m1.width m1.height v) :
    (allEdges m1).countP (fun ed => decide (ed = ((u, v) : Coordinate × Coordinate))) +
    (allEdges m1).countP (fun ed => decide (ed = ((v, u) : Coordinate × Coordinate))) = 1 := by
  have hnd := allEdges_nodup m1
  obtain ⟨ux, uy⟩ := u
  obtain ⟨vx, vy⟩ := v
  obtain ⟨hu1, hu2, hu3, hu4⟩ := h1
  obtain ⟨hv1, hv2, hv3, hv4⟩ := h2
  dsimp only at hu1 hu2 hu3 hu4 hv1 hv2 hv3 hv4
  rcases hadj with ⟨ha1, ha2 | ha2⟩ | ⟨ha1, ha2 | ha2⟩ <;> dsimp only at ha1 ha2
  · -- u lies south of v: the canonical edge is (v, u)
    have hmem : (((vx, vy), (ux, uy)) : Coordinate × Coordinate) ∈ allEdges m1 := by
      rw [mem_allEdges]
      exact ⟨⟨hv1, hv2, hv3, hv4⟩, Or.inr ⟨by dsimp only; omega,
        Prod.ext (by dsimp only; omega) (by dsimp only; omega)⟩⟩
    have hnot : (((ux, uy), (vx, vy)) : Coordinate × Coordinate) ∉ allEdges m1 := by
      rw [mem_allEdges]
      rintro ⟨_, ⟨hcnd, he⟩ | ⟨hcnd, he⟩⟩ <;> rw [Prod.ext_iff] at he <;>
        simp only at he hcnd <;> omega
    rw [countP_eq_zero_of_not_mem hnot, countP_eq_one_of_nodup_mem hnd hmem]
  · -- v lies south of u: the canonical edge is (u, v)
    have hmem : (((ux, uy), (vx, vy)) : Coordinate × Coordinate) ∈ allEdges m1 := by
      rw [mem_allEdges]
      exact ⟨⟨hu1, hu2, hu3, hu4⟩, Or.inr ⟨by dsimp only; omega,
        Prod.ext (by dsimp only; omega) (by dsimp only; omega)⟩⟩
    have hnot : (((vx, vy), (ux, uy)) : Coordinate × Coordinate) ∉ allEdges m1 := by
      rw [mem_allEdges]
      rintro ⟨_, ⟨hcnd, he⟩ | ⟨hcnd, he⟩⟩ <;> rw [Prod.ext_iff] at he <;>
        simp only at he hcnd <;> omega
    rw [countP_eq_one_of_nodup_mem hnd hmem, countP_eq_zero_of_not_mem hnot]
  · -- u lies east of v: the canonical edge is (v, u)
    have hmem : (((vx, vy), (ux, uy)) : Coordinate × Coordinate) ∈ allEdges m1 := by
      rw [mem_allEdges]
      exact ⟨⟨hv1, hv2, hv3, hv4⟩, Or.inl ⟨by dsimp only; omega,
        Prod.ext (by dsimp only; omega) (by dsimp only; omega)⟩⟩
    have hnot : (((ux, uy), (vx, vy)) : Coordinate × Coordinate) ∉ allEdges m1 := by
      rw [mem_allEdges]
      rintro ⟨_, ⟨hcnd, he⟩ | ⟨hcnd, he⟩⟩ <;> rw [Prod.ext_iff] at he <;>
        simp only at he hcnd <;> omega
    rw [countP_eq_zero_of_not_mem hnot, countP_eq_one_of_nodup_mem hnd hmem]
  · -- v lies east of u: the canonical edge is (u, v)
    have hmem : (((ux, uy), (vx, vy)) : Coordinate × Coordinate) ∈ allEdges m1 := by
      rw [mem_allEdges]
      exact ⟨⟨hu1, hu2, hu3, hu4⟩, Or.inl ⟨by dsimp only; omega,
        Prod.ext (by dsimp only; omega) (by dsimp only; omega)⟩⟩
    have hnot : (((vx, vy), (ux, uy)) : Coordinate × Coordinate) ∉ allEdges m1 := by
      rw [mem_allEdges]
      rintro ⟨_, ⟨hcnd, he⟩ | ⟨hcnd, he⟩⟩ <;> rw [Prod.ext_iff] at he <;>
        simp only at he hcnd <;> omega
    rw [countP_eq_one_of_nodup_mem hnd hmem, countP_eq_zero_of_not_mem hnot]

lemma countP_pairIn_single (m1 : Maze) {u v : Coordinate} (hadj : Adjacent u v)
    (h1 : inGrid m1.width m1.height u) (h2 : inGrid m1.width m1.height v) :
    (allEdges m1).countP (fun ed => decide (pairIn [(u, v)] ed.1 ed.2)) = 1 := by
  have hne : ((u, v) : Coordinate × Coordinate) ≠ (v, u) := by
    intro h
    exact adjacent_ne hadj (congrArg Prod.fst h)
  have hcongr : (allEdges m1).countP (fun ed => decide (pairIn [(u, v)] ed.1 ed.2)) =
      (allEdges m1).countP (fun ed => decide (ed = (u, v) ∨ ed = (v, u))) := by
    refine List.countP_congr ?_
    intro ed _
    simp only [decide_eq_true_eq]
    unfold pairIn
    simp only [List.mem_singleton, Prod.ext_iff]
    constructor
    · rintro (⟨hx, hy⟩ | ⟨hx, hy⟩)
      · exact Or.inl ⟨hx, hy⟩
      · exact Or.inr ⟨hy, hx⟩
    · rintro (⟨hx, hy⟩ | ⟨hx, hy⟩)
      · exact Or.inl ⟨hx, hy⟩
      · exact Or.inr ⟨hy, hx⟩
  rw [hcongr, countP_pair_eq hne (allEdges m1)]
  exact count_allEdges m1 hadj h1 h2


lemma countP_pairIn_growth {m1 : Maze} :
    ∀ {e : Coordinate} {V : List Coordinate} {R : List (Coordinate × Coordinate)},
      GrowthR e V R → V.Nodup → (∀ v ∈ V, inGrid m1.width m1.height v) →
      (allEdges m1).countP (fun ed => decide (pairIn R ed.1 ed.2)) = R.length := by
  intro e V R hg
  induction hg with
  | base =>
      intro hnd hV
      refine List.countP_eq_zero.mpr ?_
      intro ed hed
      simp [pairIn]
  | grow p c hp hadj hg2 ih =>
      rename_i V2 R2
      intro hnd hV
      have hndV : V2.Nodup := (List.nodup_append.mp hnd).1
      have hcV : c ∉ V2 := fun hcv => (List.nodup_append.mp hnd).2.2 hcv (by simp)
      have hVin : ∀ v ∈ V2, inGrid m1.width m1.height v :=
        fun v hv => hV v (List.mem_append_left _ hv)
      have hcin : inGrid m1.width m1.height c := hV c (List.mem_append_right _ (by simp))
      have hpin : inGrid m1.width m1.height p := hVin p hp
      have hstep1 : (allEdges m1).countP
            (fun ed => decide (pairIn (R2 ++ [(p, c)]) ed.1 ed.2)) =
          (allEdges m1).countP (fun ed =>
            decide (pairIn R2 ed.1 ed.2) || decide (pairIn [(p, c)] ed.1 ed.2)) := by
        refine List.countP_congr ?_
        intro ed _
        simp only [decide_eq_true_eq, Bool.or_eq_true]
        exact pairIn_union
      have hdisj : ∀ ed ∈ allEdges m1,
          ¬((fun ed => decide (pairIn R2 ed.1 ed.2)) ed = true ∧
            (fun ed => decide (pairIn [(p, c)] ed.1 ed.2)) ed = true) := by
        rintro ed _ ⟨hq, hr⟩
        dsimp only at hq hr
        rw [decide_eq_true_eq] at hq hr
        rcases hr with hr | hr <;> rw [List.mem_singleton, Prod.mk.injEq] at hr
        · exact growth_not_pairIn hg2 hcV ed.1 (hr.2 ▸ hq)
        · exact growth_not_pairIn hg2 hcV ed.2 (hr.2 ▸ pairIn_symm hq)
      rw [hstep1, countP_or_disjoint _ _ _ hdisj, ih hndV hVin,
        countP_pairIn_single m1 hadj hpin hcin, List.length_append,
        List.length_singleton]

/-! ## Claim C1: the carved grid is a spanning tree of the reachable cells -/

lemma applyRemovals_dims (m : Maze) (R : List (Coordinate × Coordinate)) :
    (applyRemovals m R).width = m.width ∧ (applyRemovals m R).height = m.height := by
  unfold applyRemovals
  exact dims_foldl _ (fun m' pr => set_wall_at_dims m' pr.1 pr.2 false) R m

lemma allEdges_eq_of_dims {m m' : Maze} (hw : m'.width = m.width)
    (hh : m'.height = m.height) : allEdges m' = allEdges m := by
  unfold allEdges Maze.get_all_coordinates
  rw [hw, hh]

lemma allEdges_adjacent {m1 : Maze} {ed : Coordinate × Coordinate}
    (h : ed ∈ allEdges m1) : Adjacent ed.1 ed.2 := by
  rw [mem_allEdges] at h
  rcases h.2 with ⟨_, he⟩ | ⟨_, he⟩
  · exact Or.inr ⟨by rw [he], Or.inr (by rw [he])⟩
  · exact Or.inl ⟨by rw [he], Or.inr (by rw [he])⟩

lemma wallD_applyRemovals {a b : Coordinate} (hab : Adjacent a b) :
    ∀ (R : List (Coordinate × Coordinate)) (m : Maze),
      (∀ pr ∈ R, Adjacent pr.1 pr.2) →
      (applyRemovals m R).wallD a b = if pairIn R a b then false else m.wallD a b := by
  intro R
  induction R with
  | nil =>
      intro m h
      rw [if_neg (by simp [pairIn])]
      rfl
  | cons pr R' ih =>
      intro m h
      have hpr : Adjacent pr.1 pr.2 := h pr (by simp)
      have hR' : ∀ q ∈ R', Adjacent q.1 q.2 := fun q hq => h q (by simp [hq])
      show (applyRemovals (m.set_wall_at pr.1 pr.2 false) R').wallD a b = _
      rw [ih _ hR', wallD_set_wall_at m hpr hab]
      by_cases h1 : pairIn R' a b
      · have hin : pairIn (pr :: R') a b := by
          rcases h1 with h1 | h1
          · exact Or.inl (List.mem_cons_of_mem _ h1)
          · exact Or.inr (List.mem_cons_of_mem _ h1)
        rw [if_pos h1, if_pos hin]
      · by_cases h2 : (a = pr.1 ∧ b = pr.2) ∨ (a = pr.2 ∧ b = pr.1)
        · have hin : pairIn (pr :: R') a b := by
            rcases h2 with ⟨hx, hy⟩ | ⟨hx, hy⟩
            · exact Or.inl (by rw [hx, hy, Prod.mk.eta]; exact List.mem_cons_self _ _)
            · exact Or.inr (by rw [hy, hx, Prod.mk.eta]; exact List.mem_cons_self _ _)
          rw [if_neg h1, if_pos h2, if_pos hin]
        · have hnotin : ¬ pairIn (pr :: R') a b := by
            rintro (hin | hin)
            · rcases List.mem_cons.mp hin with he | hin2
              · exact h2 (Or.inl ⟨congrArg Prod.fst he, congrArg Prod.snd he⟩)
              · exact h1 (Or.inl hin2)
            · rcases List.mem_cons.mp hin with he | hin2
              · exact h2 (Or.inr ⟨congrArg Prod.snd he, congrArg Prod.fst he⟩)
              · exact h1 (Or.inr hin2)
          rw [if_neg h1, if_neg h2, if_neg hnotin]

lemma wallFree_iff_pairIn {m1 : Maze} {R : List (Coordinate × Coordinate)}
    (hAW : AllWalls m1) (hadjR : ∀ pr ∈ R, Adjacent pr.1 pr.2) (u v : Coordinate) :
    (Adjacent u v ∧ (applyRemovals m1 R).wallD u v = false) ↔ pairIn R u v := by
  constructor
  · rintro ⟨hadj, hw⟩
    rw [wallD_applyRemovals hadj R m1 hadjR] at hw
    by_cases hp : pairIn R u v
    · exact hp
    · rw [if_neg hp, allWalls_wallD hAW] at hw
      exact absurd hw (by simp)
  · intro hp
    have hadj : Adjacent u v := by
      rcases hp with h | h
      · exact hadjR _ h
      · exact adjacent_symm (hadjR _ h)
    refine ⟨hadj, ?_⟩
    rw [wallD_applyRemovals hadj R m1 hadjR, if_pos hp]

lemma epath_congr {E F : Coordinate → Coordinate → Prop}
    (h : ∀ u v, E u v ↔ F u v) {a b : Coordinate} {p : List Coordinate} :
    EPath E a b p ↔ EPath F a b p := by
  constructor
  · rintro ⟨h1, h2, h3, h4⟩
    exact ⟨h1, h2, h3, h4.imp fun x y hxy => (h x y).mp hxy⟩
  · rintro ⟨h1, h2, h3, h4⟩
    exact ⟨h1, h2, h3, h4.imp fun x y hxy => (h x y).mpr hxy⟩

lemma count_coord_eq_one {l : List Coordinate} {c : Coordinate}
    (hnd : l.Nodup) (hc : c ∈ l) : l.count c = 1 := by
  have h : l.count c = l.countP (fun x => decide (x = c)) := by
    unfold List.count
    refine List.countP_congr ?_
    intro x _
    simp
  rw [h]
  exact countP_eq_one_of_nodup_mem hnd hc

/-- C1: for a valid configuration whose entry and exit avoid the blocked
cells of the embedded grid, `carve_maze` (started, as `create_maze` starts
it, with the blocked cells pre-visited) visits every cell reachable from
the entry exactly once and visits nothing but those cells and the blocked
list; it removes exactly (reachable-cell count - 1) walls; and the carved
grid admits exactly one duplicate-free wall-free path between any two
reachable cells -- in particular between entry and exit whenever the exit
is reachable. -/
theorem carve_maze_spanning_tree (o : Oracle) (cfg : Config)
    (hperm : o.Permutes) (hval : cfg.Valid) (B : List Coordinate) (m1 : Maze)
    (hm1 : m1 = draw_42 (Maze.init cfg.width cfg.height))
    (hB : B = m1.get_blocked_cells)
    (heB : cfg.entry ∉ B) (hexB : cfg.exit ∉ B) :
    (∀ c, Reach cfg B cfg.entry c →
      (carve_maze o cfg ⟨B, m1, 0⟩).visited.count c = 1) ∧
    (∀ c, c ∈ (carve_maze o cfg ⟨B, m1, 0⟩).visited ↔
      c ∈ B ∨ Reach cfg B cfg.entry c) ∧
    removed_wall_count (carve_maze o cfg ⟨B, m1, 0⟩).maze + 1 =
      {c | Reach cfg B cfg.entry c}.ncard ∧
    (∀ a b, Reach cfg B cfg.entry a → Reach cfg B cfg.entry b →
      ∃! q, q.Nodup ∧ WallFreePath (carve_maze o cfg ⟨B, m1, 0⟩).maze a b q) ∧
    (Reach cfg B cfg.entry cfg.exit →
      ∃! q, q.Nodup ∧ WallFreePath (carve_maze o cfg ⟨B, m1, 0⟩).maze
        cfg.entry cfg.exit q) := by
  obtain ⟨hw2, hh2, hInBe, hInBx, hnexe⟩ := hval
  have hBnd : B.Nodup := by
    rw [hB]
    exact List.Nodup.filter _ (coordList_nodup m1.width m1.height)
  obtain ⟨V', R', hinv⟩ := carve_maze_inv hperm heB hInBe hBnd
  obtain ⟨hg, hiff⟩ := carveInv_closed hinv
  obtain ⟨h1, h2, h3, h4, h5, h6, h7⟩ := hinv
  have hV'nd : V'.Nodup := (List.nodup_append.mp h2).2.1
  have hAW : AllWalls m1 := by rw [hm1]; exact allWalls_draw_42 _ _
  have hwd : m1.width = cfg.width := by rw [hm1]; exact (draw_42_dims _ _).1
  have hhd : m1.height = cfg.height := by rw [hm1]; exact (draw_42_dims _ _).2
  have hadjR' : ∀ pr ∈ R', Adjacent pr.1 pr.2 := growth_adj hg
  have hVin : ∀ v ∈ V', inGrid m1.width m1.height v := by
    intro v hv
    have hI := (h4 v hv).1
    unfold InB at hI
    rw [hwd, hhd]
    exact hI
  have hcount : (allEdges m1).countP (fun ed => decide (pairIn R' ed.1 ed.2)) =
      R'.length := countP_pairIn_growth hg hV'nd hVin
  have hlen : V'.length = R'.length + 1 := growth_length hg
  have huniq : ∀ a b, Reach cfg B cfg.entry a → Reach cfg B cfg.entry b →
      ∃! q, q.Nodup ∧ WallFreePath (carve_maze o cfg ⟨B, m1, 0⟩).maze a b q := by
    intro a b ha hb
    have h := growth_unique_epath hg hV'nd a b ((hiff a).mpr ha) ((hiff b).mpr hb)
    refine (existsUnique_congr ?_).mpr h
    intro q
    refine and_congr_right fun _ => ?_
    unfold WallFreePath
    rw [h5]
    exact epath_congr (wallFree_iff_pairIn hAW hadjR')
  refine ⟨?_, ?_, ?_, huniq, fun hex => huniq _ _ Relation.ReflTransGen.refl hex⟩
  · intro c hc
    rw [h1]
    exact count_coord_eq_one h2 (List.mem_append_right _ ((hiff c).mpr hc))
  · intro c
    rw [h1, List.mem_append]
    exact or_congr_right (hiff c)
  · rw [h5]
    unfold removed_wall_count
    rw [allEdges_eq_of_dims (applyRemovals_dims m1 R').1 (applyRemovals_dims m1 R').2]
    have hcongr2 : (allEdges m1).countP
          (fun e => !((applyRemovals m1 R').wallD e.1 e.2)) =
        (allEdges m1).countP (fun ed => decide (pairIn R' ed.1 ed.2)) := by
      refine List.countP_congr ?_
      intro ed hed
      have hadj := allEdges_adjacent hed
      rw [Bool.not_eq_true', decide_eq_true_eq]
      constructor
      · intro hfalse
        exact (wallFree_iff_pairIn hAW hadjR' ed.1 ed.2).mp ⟨hadj, hfalse⟩
      · intro hpin
        exact ((wallFree_iff_pairIn hAW hadjR' ed.1 ed.2).mpr hpin).2
    rw [hcongr2, hcount]
    have hset : {c | Reach cfg B cfg.entry c} = (↑V'.toFinset : Set Coordinate) := by
      ext c
      rw [Set.mem_setOf_eq, Finset.mem_coe, List.mem_toFinset]
      exact (hiff c).symm
    rw [hset, Set.ncard_coe_Finset, List.toFinset_card_of_nodup hV'nd, hlen]

/-- C1 witness: the spanning-tree theorem instantiated with the trivial
oracle on the 2x2 configuration with entry (0,0) and exit (1,1), whose
embedded blocked list is empty. -/
theorem carve_maze_spanning_tree_witness :
    (∀ c, Reach cfgC1 BC1 cfgC1.entry c →
      (carve_maze oTriv cfgC1 ⟨BC1, mC1, 0⟩).visited.count c = 1) ∧
    (∀ c, c ∈ (carve_maze oTriv cfgC1 ⟨BC1, mC1, 0⟩).visited ↔
      c ∈ BC1 ∨ Reach cfgC1 BC1 cfgC1.entry c) ∧
    removed_wall_count (carve_maze oTriv cfgC1 ⟨BC1, mC1, 0⟩).maze + 1 =
      {c | Reach cfgC1 BC1 cfgC1.entry c}.ncard ∧
    (∀ a b, Reach cfgC1 BC1 cfgC1.entry a → Reach cfgC1 BC1 cfgC1.entry b →
      ∃! q, q.Nodup ∧ WallFreePath (carve_maze oTriv cfgC1 ⟨BC1, mC1, 0⟩).maze a b q) ∧
    (Reach cfgC1 BC1 cfgC1.entry cfgC1.exit →
      ∃! q, q.Nodup ∧ WallFreePath (carve_maze oTriv cfgC1 ⟨BC1, mC1, 0⟩).maze
        cfgC1.entry cfgC1.exit q) :=
  carve_maze_spanning_tree oTriv cfgC1 (fun n l => List.Perm.refl l) (by decide)
    BC1 mC1 rfl rfl (by decide) (by decide)

/-! ## Claim C3: no fully open 3x3 window survives braiding -/

lemma windowEdges_adjacent {s : Coordinate} {e : Coordinate × Coordinate}
    (he : e ∈ windowEdges s) : Adjacent e.1 e.2 := by
  rw [windowEdges_explicit] at he
  simp only [List.mem_cons, List.not_mem_nil, or_false] at he
  rcases he with rfl|rfl|rfl|rfl|rfl|rfl|rfl|rfl|rfl|rfl|rfl|rfl <;>
    (unfold Adjacent; dsimp only; omega)

lemma windowEdges_endpoints {s : Coordinate} {e : Coordinate × Coordinate}
    (he : e ∈ windowEdges s) : e.1 ∈ windowCoords s ∧ e.2 ∈ windowCoords s := by
  rw [windowEdges_explicit] at he
  simp only [List.mem_cons, List.not_mem_nil, or_false] at he
  rcases he with rfl|rfl|rfl|rfl|rfl|rfl|rfl|rfl|rfl|rfl|rfl|rfl <;>
    refine ⟨?_, ?_⟩ <;> rw [mem_windowCoords] <;> dsimp only <;> omega

lemma wallD_remove_revert {m : Maze} {p c a b : Coordinate} (hpc : Adjacent p c)
    (hab : Adjacent a b) :
    ((m.set_wall_at p c false).set_wall_at p c true).wallD a b =
      if (a = p ∧ b = c) ∨ (a = c ∧ b = p) then true else m.wallD a b := by
  rw [wallD_set_wall_at _ hpc hab, wallD_set_wall_at _ hpc hab]
  split_ifs <;> rfl

lemma remove_wall_if_valid_dims (cfg : Config) (m : Maze) (p c : Coordinate) :
    (remove_wall_if_valid cfg m p c).width = m.width ∧
    (remove_wall_if_valid cfg m p c).height = m.height := by
  unfold remove_wall_if_valid
  by_cases hany : (get_invalid_size_squares cfg (p, c)).any
      (fun sq => inner_walls (m.set_wall_at p c false) sq = 0) = true
  · rw [if_pos hany]
    exact ⟨((set_wall_at_dims _ _ _ _).1).trans (set_wall_at_dims _ _ _ _).1,
      ((set_wall_at_dims _ _ _ _).2).trans (set_wall_at_dims _ _ _ _).2⟩
  · rw [if_neg hany]
    exact set_wall_at_dims _ _ _ _

lemma remove_wall_no_open {cfg : Config} {m : Maze} {p c : Coordinate}
    (hdw : m.width = cfg.width) (hdh : m.height = cfg.height)
    (hadj : Adjacent p c) (hno : NoOpen3x3 m) :
    NoOpen3x3 (remove_wall_if_valid cfg m p c) := by
  intro s hwin
  rw [(remove_wall_if_valid_dims cfg m p c).1,
    (remove_wall_if_valid_dims cfg m p c).2] at hwin
  rcases (remove_wall_cases cfg m p c hadj).2 with hrev | ⟨hkeep, hwalls⟩
  · obtain ⟨e, he, hwall⟩ := hno s hwin
    refine ⟨e, he, ?_⟩
    rw [hrev, wallD_remove_revert hadj (windowEdges_adjacent he)]
    split_ifs with h
    · rfl
    · exact hwall
  · rw [hkeep]
    by_cases hcont : p ∈ windowCoords s ∧ c ∈ windowCoords s
    · have hwin2 : windowInGrid cfg.width cfg.height s := by
        rw [← hdw, ← hdh]
        exact hwin
      exact hwalls s hwin2 hcont.1 hcont.2
    · obtain ⟨e, he, hwall⟩ := hno s hwin
      refine ⟨e, he, ?_⟩
      have hnotc : ¬((e.1 = p ∧ e.2 = c) ∨ (e.1 = c ∧ e.2 = p)) := by
        rintro (⟨h1, h2⟩ | ⟨h1, h2⟩)
        · exact hcont ⟨h1 ▸ (windowEdges_endpoints he).1,
            h2 ▸ (windowEdges_endpoints he).2⟩
        · exact hcont ⟨h2 ▸ (windowEdges_endpoints he).2,
            h1 ▸ (windowEdges_endpoints he).1⟩
      rw [wallD_set_wall_at m hadj (windowEdges_adjacent he), if_neg hnotc]
      exact hwall

lemma foldl_preserve {σ α : Type} {P : σ → Prop} {f : σ → α → σ} :
    ∀ (l : List α), (∀ st a, a ∈ l → P st → P (f st a)) →
      ∀ st, P st → P (l.foldl f st) := by
  intro l
  induction l with
  | nil => exact fun h st hst => hst
  | cons a l ih =>
      intro h st hst
      exact ih (fun st2 b hb => h st2 b (List.mem_cons_of_mem _ hb)) _
        (h st a (by simp) hst)

lemma make_imperfect_preserves {o : Oracle} {cfg : Config} (hperm : o.Permutes)
    {s : GenState} (hdw : s.maze.width = cfg.width) (hdh : s.maze.height = cfg.height)
    (hno : NoOpen3x3 s.maze) :
    (make_imperfect o cfg s).maze.width = cfg.width ∧
    (make_imperfect o cfg s).maze.height = cfg.height ∧
    NoOpen3x3 (make_imperfect o cfg s).maze := by
  unfold make_imperfect
  refine @foldl_preserve GenState Coordinate
    (fun st => st.maze.width = cfg.width ∧ st.maze.height = cfg.height ∧
      NoOpen3x3 st.maze) _ _ ?_ _ ⟨hdw, hdh, hno⟩
  rintro st xy hxy ⟨hw1, hh1, hn1⟩
  by_cases hblk : (st.maze.get_cell xy.1 xy.2).blocked = true
  · rw [if_pos hblk]
    exact ⟨hw1, hh1, hn1⟩
  · rw [if_neg hblk]
    refine @foldl_preserve GenState (Coordinate × Coordinate)
      (fun st => st.maze.width = cfg.width ∧ st.maze.height = cfg.height ∧
        NoOpen3x3 st.maze) _ _ ?_ _ ⟨hw1, hh1, hn1⟩
    rintro st2 pc hpc ⟨hw2, hh2, hn2⟩
    obtain ⟨hf1, hf2, hf3⟩ := gn_forms hperm hpc
    have hadj2 : Adjacent pc.1 pc.2 := by
      rw [hf1]
      exact hf2
    by_cases hwD : st2.maze.wallD pc.1 pc.2 = true
    · rw [if_pos hwD]
      by_cases hcoin : o.coin st2.rng = true
      · rw [if_pos hcoin]
        refine ⟨?_, ?_, ?_⟩
        · exact ((remove_wall_if_valid_dims cfg st2.maze pc.1 pc.2).1).trans hw2
        · exact ((remove_wall_if_valid_dims cfg st2.maze pc.1 pc.2).2).trans hh2
        · exact remove_wall_no_open hw2 hh2 hadj2 hn2
      · rw [if_neg hcoin]
        exact ⟨hw2, hh2, hn2⟩
    · rw [if_neg hwD]
      exact ⟨hw2, hh2, hn2⟩

lemma carve_no_open {o : Oracle} (hperm : o.Permutes) {cfg : Config}
    {B : List Coordinate} {m1 : Maze}
    (hAW : AllWalls m1) (heB : cfg.entry ∉ B) (hInB : InB cfg cfg.entry)
    (hBnd : B.Nodup) :
    NoOpen3x3 (carve_maze o cfg ⟨B, m1, 0⟩).maze := by
  obtain ⟨V', R', hinv⟩ := carve_maze_inv hperm heB hInB hBnd
  obtain ⟨hg, hiff⟩ := carveInv_closed hinv
  obtain ⟨h1, h2, h3, h4, h5, h6, h7⟩ := hinv
  have hV'nd : V'.Nodup := (List.nodup_append.mp h2).2.1
  have hadjR' : ∀ pr ∈ R', Adjacent pr.1 pr.2 := growth_adj hg
  intro s hwin
  rw [h5]
  by_contra hnone
  push_neg at hnone
  have hopen : ∀ e ∈ windowEdges s, pairIn R' e.1 e.2 := by
    intro e he
    refine (wallFree_iff_pairIn hAW hadjR' e.1 e.2).mp ⟨windowEdges_adjacent he, ?_⟩
    rcases Bool.eq_false_or_eq_true ((applyRemovals m1 R').wallD e.1 e.2) with hb | hb
    · exact absurd hb (hnone e he)
    · exact hb
  have hmemV : ∀ x y, pairIn R' x y → x ∈ V' ∧ y ∈ V' := by
    rintro x y (h | h)
    · exact growth_endpoints hg _ h
    · exact ⟨(growth_endpoints hg _ h).2, (growth_endpoints hg _ h).1⟩
  obtain ⟨sx, sy⟩ := s
  have he1 : pairIn R' (sx, sy) (sx + 1, sy) :=
    hopen ((sx, sy), (sx + 1, sy)) (by rw [windowEdges_explicit]; simp)
  have he2 : pairIn R' (sx, sy) (sx, sy + 1) :=
    hopen ((sx, sy), (sx, sy + 1)) (by rw [windowEdges_explicit]; simp)
  have he3 : pairIn R' (sx, sy + 1) (sx + 1, sy + 1) :=
    hopen ((sx, sy + 1), (sx + 1, sy + 1)) (by rw [windowEdges_explicit]; simp)
  have he4 : pairIn R' (sx + 1, sy) (sx + 1, sy + 1) :=
    hopen ((sx + 1, sy), (sx + 1, sy + 1)) (by rw [windowEdges_explicit]; simp)
  obtain ⟨q, hq, huq⟩ := growth_unique_epath hg hV'nd (sx, sy) (sx + 1, sy)
    (hmemV _ _ he1).1 (hmemV _ _ he1).2
  have hshort : ([(sx, sy), (sx + 1, sy)] : List Coordinate) = q := by
    refine huq _ ⟨?_, by simp, rfl, rfl, ?_⟩
    · simp only [List.nodup_cons, List.mem_singleton, List.not_mem_nil, not_false_iff,
        List.nodup_nil, and_true, Prod.mk.injEq, not_and]
      intro h
      omega
    · exact List.chain'_cons.mpr ⟨he1, List.chain'_singleton _⟩
  have hlong : ([(sx, sy), (sx, sy + 1), (sx + 1, sy + 1), (sx + 1, sy)] :
      List Coordinate) = q := by
    refine huq _ ⟨?_, by simp, rfl, rfl, ?_⟩
    · simp only [List.nodup_cons, List.mem_cons, List.mem_singleton, List.not_mem_nil,
        not_false_iff, List.nodup_nil, and_true, Prod.mk.injEq, not_or]
      omega
    · exact List.chain'_cons.mpr ⟨he2, List.chain'_cons.mpr ⟨he3,
        List.chain'_cons.mpr ⟨pairIn_symm he4, List.chain'_singleton _⟩⟩⟩
  have hcontra := hshort.trans hlong.symm
  simp at hcontra

/-- C3: starting from the carved spanning-tree grid (with the blocked cells
of the embedded pattern pre-visited), after `make_imperfect` completes no
fully open 3x3 region exists: every 3x3 window fully inside the grid keeps
a wall on at least one of its internal adjacency edges. -/
theorem make_imperfect_no_open_3x3 (o : Oracle) (cfg : Config)
    (hperm : o.Permutes) (hval : cfg.Valid) (B : List Coordinate) (m1 : Maze)
    (hm1 : m1 = draw_42 (Maze.init cfg.width cfg.height))
    (hB : B = m1.get_blocked_cells) (heB : cfg.entry ∉ B) (hexB : cfg.exit ∉ B) :
    NoOpen3x3 (make_imperfect o cfg (carve_maze o cfg ⟨B, m1, 0⟩)).maze := by
  have hAW : AllWalls m1 := by rw [hm1]; exact allWalls_draw_42 _ _
  have hBnd : B.Nodup := by
    rw [hB]
    exact List.Nodup.filter _ (coordList_nodup m1.width m1.height)
  have hno := carve_no_open hperm hAW heB hval.2.2.1 hBnd
  obtain ⟨V', R', hinv⟩ := carve_maze_inv hperm heB hval.2.2.1 hBnd
  have h5 := hinv.2.2.2.2.1
  have hwd : (carve_maze o cfg ⟨B, m1, 0⟩).maze.width = cfg.width := by
    rw [h5, (applyRemovals_dims m1 R').1, hm1]
    exact (draw_42_dims _ _).1
  have hhd : (carve_maze o cfg ⟨B, m1, 0⟩).maze.height = cfg.height := by
    rw [h5, (applyRemovals_dims m1 R').2, hm1]
    exact (draw_42_dims _ _).2
  exact (make_imperfect_preserves hperm hwd hhd hno).2.2

/-- C3 witness: the braided 2x2 grid of the concrete configuration keeps a
wall in every in-grid 3x3 window (vacuously, and by the theorem). -/
theorem make_imperfect_no_open_3x3_witness :
    NoOpen3x3 (make_imperfect oTriv cfgC1 (carve_maze oTriv cfgC1 ⟨BC1, mC1, 0⟩)).maze :=
  make_imperfect_no_open_3x3 oTriv cfgC1 (fun n l => List.Perm.refl l) (by decide)
    BC1 mC1 rfl rfl (by decide) (by decide)

/-! ## Solver history and distance toolkit (claims C2 and C10) -/

lemma mem_keysOf {h : List (Coordinate × Option Coordinate)} {c : Coordinate} :
    c ∈ keysOf h ↔ ∃ op, (c, op) ∈ h := by
  unfold keysOf
  rw [List.mem_map]
  constructor
  · rintro ⟨pr, hpr, rfl⟩
    exact ⟨pr.2, by rwa [Prod.mk.eta]⟩
  · rintro ⟨op, hop⟩
    exact ⟨(c, op), hop, rfl⟩

lemma keysOf_append (h1 h2 : List (Coordinate × Option Coordinate)) :
    keysOf (h1 ++ h2) = keysOf h1 ++ keysOf h2 := by
  unfold keysOf
  rw [List.map_append]

lemma historyHasKey_iff {h : List (Coordinate × Option Coordinate)} {c : Coordinate} :
    historyHasKey h c = true ↔ c ∈ keysOf h := by
  unfold historyHasKey
  rw [List.find?_isSome]
  constructor
  · rintro ⟨pr, hpr, hp⟩
    rw [decide_eq_true_eq] at hp
    exact hp ▸ mem_keysOf.mpr ⟨pr.2, by rwa [Prod.mk.eta]⟩
  · intro hc
    obtain ⟨op, hop⟩ := mem_keysOf.mp hc
    exact ⟨(c, op), hop, by simp⟩

lemma find?_key_eq {h : List (Coordinate × Option Coordinate)} :
    ∀ (hnd : (keysOf h).Nodup) {c : Coordinate} {op : Option Coordinate},
      (c, op) ∈ h → h.find? (fun pr => pr.1 = c) = some (c, op) := by
  induction h with
  | nil =>
      intro _ c op h1
      simp at h1
  | cons pr t ih =>
      intro hnd c op hmem
      unfold keysOf at hnd
      rw [List.map_cons, List.nodup_cons] at hnd
      by_cases hp : pr.1 = c
      · rcases List.mem_cons.mp hmem with rfl | htail
        · rw [List.find?_cons_of_pos _ (by simp)]
        · exact absurd (by rw [hp]; exact mem_keysOf.mpr ⟨op, htail⟩) hnd.1
      · rcases List.mem_cons.mp hmem with rfl | htail
        · exact absurd rfl hp
        · rw [List.find?_cons_of_neg _ (by simp [hp])]
          exact ih hnd.2 htail

lemma historyGet_eq {h : List (Coordinate × Option Coordinate)}
    (hnd : (keysOf h).Nodup) {c : Coordinate} {op : Option Coordinate}
    (hm : (c, op) ∈ h) : historyGet h c = op := by
  unfold historyGet
  rw [find?_key_eq hnd hm]

lemma historyGet_none {h : List (Coordinate × Option Coordinate)} {c : Coordinate}
    (hc : c ∉ keysOf h) : historyGet h c = none := by
  unfold historyGet
  rw [List.find?_eq_none.mpr ?_]
  intro pr hpr
  simp only [decide_eq_true_eq]
  intro he
  exact hc (he ▸ mem_keysOf.mpr ⟨pr.2, by rwa [Prod.mk.eta]⟩)

lemma walkN_zero {W : Coordinate → Coordinate → Prop} {a b : Coordinate}
    (h : WalkN W 0 a b) : a = b := by
  cases h
  rfl

lemma walkN_succ_inv {W : Coordinate → Coordinate → Prop} {k : Nat} {a c : Coordinate}
    (h : WalkN W (k + 1) a c) : ∃ b, WalkN W k a b ∧ W b c := by
  cases h with
  | succ hw hs => exact ⟨_, hw, hs⟩

lemma isDist_unique {W : Coordinate → Coordinate → Prop} {e : Coordinate}
    {k k' : Nat} {c : Coordinate} (h1 : IsDist W e k c) (h2 : IsDist W e k' c) :
    k = k' :=
  Nat.le_antisymm (h1.2 k' h2.1) (h2.2 k h1.1)

lemma exists_isDist_of_walk {W : Coordinate → Coordinate → Prop} {e : Coordinate} :
    ∀ (k : Nat) (c : Coordinate), WalkN W k e c → ∃ k' ≤ k, IsDist W e k' c := by
  intro k
  induction k using Nat.strong_induction_on with
  | _ k ih =>
      intro c hw
      by_cases hmin : ∀ j, WalkN W j e c → k ≤ j
      · exact ⟨k, Nat.le_refl _, hw, hmin⟩
      · push_neg at hmin
        obtain ⟨j, hwj, hj⟩ := hmin
        obtain ⟨k', hk', hd⟩ := ih j hj c hwj
        exact ⟨k', Nat.le_trans hk' (Nat.le_of_lt hj), hd⟩

lemma isDist_zero {W : Coordinate → Coordinate → Prop} {e : Coordinate} :
    IsDist W e 0 e :=
  ⟨WalkN.zero e, fun k _ => Nat.zero_le k⟩

lemma isDist_zero_eq {W : Coordinate → Coordinate → Prop} {e c : Coordinate}
    (h : IsDist W e 0 c) : c = e :=
  (walkN_zero h.1).symm

lemma isDist_pred {W : Coordinate → Coordinate → Prop} {e : Coordinate} {k : Nat}
    {c : Coordinate} (h : IsDist W e (k + 1) c) :
    ∃ u, W u c ∧ IsDist W e k u := by
  obtain ⟨b, hwb, hstep⟩ := walkN_succ_inv h.1
  obtain ⟨k', hk', hd⟩ := exists_isDist_of_walk k b hwb
  refine ⟨b, hstep, ?_⟩
  rcases Nat.lt_or_ge k' k with hlt | hge
  · exact absurd (h.2 (k' + 1) (WalkN.succ hd.1 hstep)) (by omega)
  · have : k' = k := Nat.le_antisymm hk' hge
    exact this ▸ hd

lemma walkN_endpoint {cfg : Config} {B : List Coordinate} {m : Maze}
    {k : Nat} {a c : Coordinate} (h : WalkN (WStep cfg B m) k a c) :
    c = a ∨ (InB cfg c ∧ c ∉ B) := by
  cases h with
  | zero => exact Or.inl rfl
  | succ hw hs => exact Or.inr ⟨hs.2.1, hs.2.2.1⟩

lemma epath_to_walkN {W : Coordinate → Coordinate → Prop} :
    ∀ (p : List Coordinate) {a b : Coordinate}, EPath W a b p →
      WalkN W (p.length - 1) a b := by
  intro p
  induction p using List.reverseRecOn with
  | nil =>
      intro a b h
      exact absurd rfl h.1
  | append_singleton q x ih =>
      intro a b h
      obtain ⟨hne, hh, hl, hch⟩ := h
      rw [List.getLast?_concat] at hl
      injection hl with hl
      subst hl
      cases q with
      | nil =>
          rw [List.nil_append, List.head?_cons] at hh
          injection hh with hh
          subst hh
          exact WalkN.zero _
      | cons y rest =>
          rw [head?_append_left (by simp)] at hh
          rw [List.chain'_append] at hch
          obtain ⟨hc1, _, hjun⟩ := hch
          have hLeq : (y :: rest).getLast? = some ((y :: rest).getLast (by simp)) :=
            List.getLast?_eq_getLast _ _
          have hstep : W ((y :: rest).getLast (by simp)) x :=
            hjun _ (by rw [hLeq]; rfl) x rfl
          have hprev : WalkN W ((y :: rest).length - 1) a ((y :: rest).getLast (by simp)) :=
            ih ⟨by simp, hh, hLeq, hc1⟩
          have hlen : (y :: rest ++ [x]).length - 1 = ((y :: rest).length - 1) + 1 := by
            simp
          rw [hlen]
          exact WalkN.succ hprev hstep

lemma wallfree_to_W {cfg : Config} {B : List Coordinate} {m : Maze}
    (hbound : ∀ u v, Adjacent u v → InB cfg u → ¬ InB cfg v → m.wallD u v = true)
    (hblk : ∀ u v, Adjacent u v → v ∈ B → m.wallD u v = true)
    {a b : Coordinate} {p : List Coordinate}
    (ha : InB cfg a) (haB : a ∉ B) (h : WallFreePath m a b p) :
    EPath (WStep cfg B m) a b p := by
  obtain ⟨hne, hh, hl, hch⟩ := h
  refine ⟨hne, hh, hl, ?_⟩
  clear hne hl
  induction p generalizing a with
  | nil => simp
  | cons x rest ih =>
      rw [List.head?_cons] at hh
      injection hh with hx
      subst hx
      cases rest with
      | nil => simp
      | cons y rest2 =>
          rw [List.chain'_cons] at hch ⊢
          obtain ⟨⟨hadj, hwf⟩, hch2⟩ := hch
          have hyIn : InB cfg y := by
            by_contra hyn
            rw [hbound _ _ hadj ha hyn] at hwf
            exact absurd hwf (by simp)
          have hyB : y ∉ B := by
            intro hyb
            rw [hblk _ _ hadj hyb] at hwf
            exact absurd hwf (by simp)
          exact ⟨⟨hadj, hyIn, hyB, hwf⟩, ih hyIn hyB rfl hch2⟩

lemma solve_fold_spec (maze : Maze) (p : Coordinate) :
    ∀ (l : List (Coordinate × Coordinate))
      (acc : List (Coordinate × Option Coordinate) × List Coordinate),
      (∀ pc ∈ l, pc.1 = p) →
      ∃ Δ : List (Coordinate × Option Coordinate),
        l.foldl (fun (acc : List (Coordinate × Option Coordinate) × List Coordinate) pc =>
          if maze.wallD pc.1 pc.2 = false ∧ historyHasKey acc.1 pc.2 = false then
            (acc.1 ++ [(pc.2, some pc.1)], acc.2 ++ [pc.2])
          else acc) acc =
          (acc.1 ++ Δ, acc.2 ++ keysOf Δ) ∧
        (∀ pr ∈ Δ, pr.2 = some p ∧ maze.wallD p pr.1 = false ∧ (p, pr.1) ∈ l ∧
          pr.1 ∉ keysOf acc.1) ∧
        ((keysOf acc.1).Nodup → (keysOf (acc.1 ++ Δ)).Nodup) ∧
        (∀ pc ∈ l, maze.wallD p pc.2 = false → pc.2 ∈ keysOf (acc.1 ++ Δ)) := by
  intro l
  induction l with
  | nil =>
      intro acc hl
      exact ⟨[], by simp [keysOf], by simp, fun hnd => by simpa [keysOf] using hnd,
        by simp⟩
  | cons pc l ih =>
      intro acc hl
      have hpc1 : pc.1 = p := hl pc (by simp)
      have hl2 : ∀ q ∈ l, q.1 = p := fun q hq => hl q (List.mem_cons_of_mem _ hq)
      rw [List.foldl_cons]
      by_cases hcond : maze.wallD pc.1 pc.2 = false ∧ historyHasKey acc.1 pc.2 = false
      · rw [if_pos hcond]
        obtain ⟨Δ, heq, hprops, hnod, hcompl⟩ :=
          ih (acc.1 ++ [(pc.2, some pc.1)], acc.2 ++ [pc.2]) hl2
        have hassoc : acc.1 ++ (pc.2, some pc.1) :: Δ =
            (acc.1 ++ [(pc.2, some pc.1)]) ++ Δ := by
          rw [List.append_assoc]
          rfl
        refine ⟨(pc.2, some pc.1) :: Δ, ?_, ?_, ?_, ?_⟩
        · rw [heq]
          dsimp only
          rw [hassoc]
          have hkeys : acc.2 ++ keysOf ((pc.2, some pc.1) :: Δ) =
              (acc.2 ++ [pc.2]) ++ keysOf Δ := by
            unfold keysOf
            rw [List.map_cons, List.append_assoc]
            rfl
          rw [hkeys]
        · intro pr hpr
          rcases List.mem_cons.mp hpr with rfl | htail
          · refine ⟨by rw [hpc1], by rw [← hpc1]; exact hcond.1, ?_, ?_⟩
            · exact List.mem_cons.mpr (Or.inl (Prod.ext hpc1.symm rfl))
            · intro hk
              exact absurd (historyHasKey_iff.mpr hk) (by simp [hcond.2])
          · obtain ⟨hp2, hw, hmem, hnk⟩ := hprops pr htail
            refine ⟨hp2, hw, List.mem_cons_of_mem _ hmem, ?_⟩
            intro hk
            exact hnk (by rw [keysOf_append]; exact List.mem_append_left _ hk)
        · intro hnd0
          have hnew : (keysOf (acc.1 ++ [(pc.2, some pc.1)])).Nodup := by
            rw [keysOf_append]
            refine List.Nodup.append hnd0 (by simp [keysOf]) ?_
            intro x hx hx2
            have hx3 : x = pc.2 := by simpa [keysOf] using hx2
            subst hx3
            exact absurd (historyHasKey_iff.mpr hx) (by simp [hcond.2])
          rw [hassoc]
          exact hnod hnew
        · intro q hq hwq
          rcases List.mem_cons.mp hq with rfl | hqt
          · have hq2 : q.2 ∈ keysOf (acc.1 ++ [(q.2, some q.1)]) := by
              rw [keysOf_append]
              exact List.mem_append_right _ (by simp [keysOf])
            rw [hassoc, keysOf_append, keysOf_append]
            rw [keysOf_append] at hq2
            rcases List.mem_append.mp hq2 with hq3 | hq3
            · exact List.mem_append_left _ (List.mem_append_left _ hq3)
            · exact List.mem_append_left _ (List.mem_append_right _ hq3)
          · have := hcompl q hqt hwq
            rw [hassoc]
            exact this
      · rw [if_neg hcond]
        obtain ⟨Δ, heq, hprops, hnod, hcompl⟩ := ih acc hl2
        refine ⟨Δ, heq, fun pr hpr => ?_, hnod, ?_⟩
        · obtain ⟨hp2, hw, hmem, hnk⟩ := hprops pr hpr
          exact ⟨hp2, hw, List.mem_cons_of_mem _ hmem, hnk⟩
        intro q hq hwq
        rcases List.mem_cons.mp hq with rfl | hqt
        · have hkey : historyHasKey acc.1 q.2 = true := by
            rcases Bool.eq_false_or_eq_true (historyHasKey acc.1 q.2) with hb | hb
            · exact hb
            · exact absurd ⟨by rw [hpc1]; exact hwq, hb⟩ hcond
          rw [keysOf_append]
          exact List.mem_append_left _ (historyHasKey_iff.mp hkey)
        · exact hcompl q hqt hwq

lemma solveInv_init (cfg : Config) (B : List Coordinate) (m : Maze) :
    SolveInv cfg B m [cfg.entry] [(cfg.entry, none)] 0 [cfg.entry] [] := by
  refine ⟨by simp, by simp [keysOf], by simp, ?_, ?_, by simp, ?_, ?_, ?_, ?_, ?_⟩
  · intro c hc
    rw [List.mem_singleton.mp hc]
    simp [keysOf]
  · intro c hc
    rw [List.mem_singleton.mp hc]
    exact isDist_zero
  · intro pr hpr
    rw [List.mem_singleton.mp hpr]
    exact Or.inl ⟨rfl, rfl⟩
  · intro c hc
    have : c = cfg.entry := by simpa [keysOf] using hc
    exact ⟨0, Nat.zero_le _, this ▸ isDist_zero⟩
  · intro c k hk hd
    have hk0 : k = 0 := Nat.le_zero.mp hk
    subst hk0
    rw [isDist_zero_eq hd]
    simp [keysOf]
  · intro c hc
    have : c = cfg.entry := by simpa [keysOf] using hc
    rw [this]
  · intro c hc hcq
    have : c = cfg.entry := by simpa [keysOf] using hc
    exact absurd (by rw [this]; simp) hcq

lemma solveInv_shift {cfg : Config} {B : List Coordinate} {m : Maze}
    {q : List Coordinate} {h : List (Coordinate × Option Coordinate)} {d : Nat}
    {q2 : List Coordinate} (hinv : SolveInv cfg B m q h d [] q2) :
    SolveInv cfg B m q h (d + 1) q2 [] := by
  obtain ⟨h1, h2, h3, h4, h5, h6, h7, h8, h9, h10, h11⟩ := hinv
  rw [List.nil_append] at h1
  refine ⟨by rw [h1, List.append_nil], h2, h3, h4, h6, by simp, h7, ?_, ?_, h10, h11⟩
  · intro c hc
    obtain ⟨k, hk, hd2⟩ := h8 c hc
    exact ⟨k, by omega, hd2⟩
  · intro c k hk hd2
    rcases Nat.lt_or_ge k (d + 1) with hlt | hge
    · exact h9 c k (by omega) hd2
    · have hkeq : k = d + 1 := by omega
      subst hkeq
      obtain ⟨u, hu, hdu⟩ := isDist_pred hd2
      have hukey : u ∈ keysOf h := h9 u d (Nat.le_refl _) hdu
      have huq : u ∉ q := by
        intro huq
        rw [h1] at huq
        have : IsDist (WStep cfg B m) cfg.entry (d + 1) u := h6 u huq
        have := isDist_unique hdu this
        omega
      exact h11 u hukey huq c hu

lemma solveInv_step {o : Oracle} (hperm : o.Permutes) {cfg : Config}
    {B : List Coordinate} {m : Maze} (hInB : InB cfg cfg.entry)
    {p : Coordinate} {rest : List Coordinate}
    {h : List (Coordinate × Option Coordinate)} (rng : Nat)
    {d : Nat} {q1t q2 : List Coordinate}
    (hinv : SolveInv cfg B m (p :: rest) h d (p :: q1t) q2) :
    ∃ Δ : List (Coordinate × Option Coordinate),
      ((get_unvisited_neighbors o cfg B rng p false).1.foldl
        (fun (acc : List (Coordinate × Option Coordinate) × List Coordinate) pc =>
          if m.wallD pc.1 pc.2 = false ∧ historyHasKey acc.1 pc.2 = false then
            (acc.1 ++ [(pc.2, some pc.1)], acc.2 ++ [pc.2])
          else acc) (h, rest)) = (h ++ Δ, rest ++ keysOf Δ) ∧
      SolveInv cfg B m (rest ++ keysOf Δ) (h ++ Δ) d q1t (q2 ++ keysOf Δ) := by
  obtain ⟨h1, h2, h3, h4, h5, h6, h7, h8, h9, h10, h11⟩ := hinv
  have hrest : rest = q1t ++ q2 := by
    rw [List.cons_append] at h1
    exact (List.cons_eq_cons.mp h1).2
  have hpd : IsDist (WStep cfg B m) cfg.entry d p := h5 p (by simp)
  have hpInB : InB cfg p := by
    rcases walkN_endpoint hpd.1 with he | hin
    · rw [he]
      exact hInB
    · exact hin.1
  have hpkey : p ∈ keysOf h := h4 p (by simp)
  obtain ⟨Δ, heq, hprops, hnod, hcompl⟩ :=
    solve_fold_spec m p (get_unvisited_neighbors o cfg B rng p false).1 (h, rest)
      (fun pc hpc => (gn_forms hperm hpc).1)
  have hΔfacts : ∀ pr ∈ Δ, WStep cfg B m p pr.1 ∧ pr.1 ∉ keysOf h ∧ pr.2 = some p := by
    intro pr hpr
    obtain ⟨hp2, hw, hmem, hnk⟩ := hprops pr hpr
    obtain ⟨_, hadj, hnB⟩ := gn_forms hperm hmem
    have hbnd := gn_bounds hperm hpInB hmem
    exact ⟨⟨hadj, hbnd, hnB, hw⟩, hnk, hp2⟩
  have hΔdist : ∀ pr ∈ Δ, IsDist (WStep cfg B m) cfg.entry (d + 1) pr.1 := by
    intro pr hpr
    obtain ⟨hWs, hnk, _⟩ := hΔfacts pr hpr
    refine ⟨WalkN.succ hpd.1 hWs, ?_⟩
    intro k hwk
    by_contra hlt
    push_neg at hlt
    obtain ⟨k', hk', hdk⟩ := exists_isDist_of_walk k _ hwk
    exact hnk (h9 _ k' (by omega) hdk)
  have hkeysΔ : ∀ x ∈ keysOf Δ, ∃ pr ∈ Δ, pr.1 = x := by
    intro x hx
    unfold keysOf at hx
    rw [List.mem_map] at hx
    obtain ⟨pr, hpr, rfl⟩ := hx
    exact ⟨pr, hpr, rfl⟩
  have hkeysmono : ∀ x ∈ keysOf h, x ∈ keysOf (h ++ Δ) := by
    intro x hx
    rw [keysOf_append]
    exact List.mem_append_left _ hx
  have hkeysΔmono : ∀ x ∈ keysOf Δ, x ∈ keysOf (h ++ Δ) := by
    intro x hx
    rw [keysOf_append]
    exact List.mem_append_right _ hx
  have hΔnew : ∀ x ∈ keysOf Δ, x ∉ keysOf h := by
    intro x hx
    obtain ⟨pr, hpr, rfl⟩ := hkeysΔ x hx
    exact (hΔfacts pr hpr).2.1
  have hΔdist' : ∀ x ∈ keysOf Δ, IsDist (WStep cfg B m) cfg.entry (d + 1) x := by
    intro x hx
    obtain ⟨pr, hpr, rfl⟩ := hkeysΔ x hx
    exact hΔdist pr hpr
  have hnodnew : (keysOf (h ++ Δ)).Nodup := hnod h2
  refine ⟨Δ, heq, ?_, hnodnew, ?_, ?_, ?_, ?_, ?_, ?_, ?_, ?_, ?_⟩
  · rw [hrest, List.append_assoc]
  · -- queue nodup
    have hrestnd : rest.Nodup := (List.nodup_cons.mp h3).2
    have hΔnd : (keysOf Δ).Nodup := by
      rw [keysOf_append] at hnodnew
      exact (List.nodup_append.mp hnodnew).2.1
    refine List.Nodup.append hrestnd hΔnd ?_
    intro x hxr hxΔ
    exact hΔnew x hxΔ (h4 x (List.mem_cons_of_mem _ hxr))
  · intro c hc
    rcases List.mem_append.mp hc with hc1 | hc1
    · exact hkeysmono c (h4 c (List.mem_cons_of_mem _ hc1))
    · exact hkeysΔmono c hc1
  · intro c hc
    exact h5 c (List.mem_cons_of_mem _ hc)
  · intro c hc
    rcases List.mem_append.mp hc with hc1 | hc1
    · exact h6 c hc1
    · exact hΔdist' c hc1
  · intro pr hpr
    rcases List.mem_append.mp hpr with hpr1 | hpr1
    · rcases h7 pr hpr1 with hent | ⟨u, k, hsome, hWs, hdu, hdp, hukey⟩
      · exact Or.inl hent
      · exact Or.inr ⟨u, k, hsome, hWs, hdu, hdp, hkeysmono u hukey⟩
    · obtain ⟨hWs, hnk, hp2⟩ := hΔfacts pr hpr1
      exact Or.inr ⟨p, d, hp2, hWs, hpd, hΔdist pr hpr1, hkeysmono p hpkey⟩
  · intro c hc
    rw [keysOf_append] at hc
    rcases List.mem_append.mp hc with hc1 | hc1
    · exact h8 c hc1
    · exact ⟨d + 1, Nat.le_refl _, hΔdist' c hc1⟩
  · intro c k hk hd2
    exact hkeysmono c (h9 c k hk hd2)
  · intro c hc
    rw [keysOf_append] at hc
    rcases List.mem_append.mp hc with hc1 | hc1
    · exact h10 c hc1
    · obtain ⟨pr, hpr, rfl⟩ := hkeysΔ c hc1
      exact Relation.ReflTransGen.tail (h10 p hpkey) (hΔfacts pr hpr).1
  · intro c hc hcq v hWv
    rw [keysOf_append] at hc
    rcases List.mem_append.mp hc with hc1 | hc1
    · by_cases hcp : c = p
      · subst hcp
        have hvmem : (c, v) ∈ (get_unvisited_neighbors o cfg B rng c false).1 :=
          gn_complete hperm hWv.1 hWv.2.1 hWv.2.2.1
        exact hcompl (c, v) hvmem hWv.2.2.2
      · have : c ∉ rest := fun hcr => hcq (List.mem_append_left _ hcr)
        have hcold : c ∉ p :: rest := by
          intro hcm
          rcases List.mem_cons.mp hcm with he | he
          · exact hcp he
          · exact this he
        exact hkeysmono v (h11 c hc1 hcold v hWv)
    · exact absurd (List.mem_append_right _ hc1) hcq

lemma nodup_subset_length {l l2 : List Coordinate} (hnd : l.Nodup)
    (hsub : ∀ c ∈ l, c ∈ l2) : l.length ≤ l2.length := by
  calc l.length = l.toFinset.card := (List.toFinset_card_of_nodup hnd).symm
    _ ≤ l2.toFinset.card := Finset.card_le_card
        (fun x hx => List.mem_toFinset.mpr (hsub x (List.mem_toFinset.mp hx)))
    _ ≤ l2.length := l2.toFinset_card_le

lemma solve_loop_spec {o : Oracle} (hperm : o.Permutes) {cfg : Config}
    {B : List Coordinate} {m : Maze} (hInB : InB cfg cfg.entry) :
    ∀ (fuel : Nat) (q : List Coordinate) (h : List (Coordinate × Option Coordinate))
      (rng : Nat) (d : Nat) (q1 q2 : List Coordinate),
      SolveInv cfg B m q h d q1 q2 →
      q.length + cfg.width * cfg.height + 1 ≤ fuel + h.length →
      (keysOf (solve_loop o cfg m B fuel q h rng).1).Nodup ∧
      (∀ pr ∈ (solve_loop o cfg m B fuel q h rng).1,
        (pr.2 = none ∧ pr.1 = cfg.entry) ∨
        ∃ u k, pr.2 = some u ∧ WStep cfg B m u pr.1 ∧
          IsDist (WStep cfg B m) cfg.entry k u ∧
          IsDist (WStep cfg B m) cfg.entry (k + 1) pr.1 ∧
          u ∈ keysOf (solve_loop o cfg m B fuel q h rng).1) ∧
      (Relation.ReflTransGen (WStep cfg B m) cfg.entry cfg.exit →
        cfg.exit ∈ keysOf (solve_loop o cfg m B fuel q h rng).1) ∧
      (∀ c ∈ keysOf (solve_loop o cfg m B fuel q h rng).1,
        Relation.ReflTransGen (WStep cfg B m) cfg.entry c) := by
  intro fuel
  induction fuel with
  | zero =>
      intro q h rng d q1 q2 hinv hfuel
      exfalso
      obtain ⟨h1, h2, h3, h4, h5, h6, h7, h8, h9, h10, h11⟩ := hinv
      have hkeysIn : ∀ c ∈ keysOf h, c ∈ coordList cfg.width cfg.height := by
        intro c hc
        obtain ⟨k, _, hd2⟩ := h8 c hc
        rw [coordList_mem]
        rcases walkN_endpoint hd2.1 with he | hin
        · rw [he]
          exact hInB
        · exact hin.1
      have hlen := nodup_subset_length h2 hkeysIn
      rw [coordList_length] at hlen
      unfold keysOf at hlen
      rw [List.length_map] at hlen
      omega
  | succ fuel ih =>
      intro q h rng d q1 q2 hinv hfuel
      cases q with
      | nil =>
          obtain ⟨h1, h2, h3, h4, h5, h6, h7, h8, h9, h10, h11⟩ := hinv
          have hclosed : ∀ c ∈ keysOf h, ∀ v, WStep cfg B m c v → v ∈ keysOf h :=
            fun c hc v hv => h11 c hc (by simp) v hv
          have hentrykey : cfg.entry ∈ keysOf h :=
            h9 cfg.entry 0 (Nat.zero_le _) isDist_zero
          refine ⟨h2, h7, ?_, h10⟩
          intro hreach
          have hgen : ∀ c, Relation.ReflTransGen (WStep cfg B m) cfg.entry c →
              c ∈ keysOf h := by
            intro c hr
            induction hr with
            | refl => exact hentrykey
            | tail hab hstep ihr => exact hclosed _ ihr _ hstep
          exact hgen _ hreach
      | cons p rest =>
          by_cases hexit : p = cfg.exit
          · have hres : solve_loop o cfg m B (fuel + 1) (p :: rest) h rng = (h, rng) := by
              simp only [solve_loop]
              rw [if_pos hexit]
            rw [hres]
            obtain ⟨h1, h2, h3, h4, h5, h6, h7, h8, h9, h10, h11⟩ := hinv
            refine ⟨h2, h7, fun _ => ?_, h10⟩
            rw [← hexit]
            exact h4 p (by simp)
          · have hstep : ∃ Δ : List (Coordinate × Option Coordinate),
                ((get_unvisited_neighbors o cfg B rng p false).1.foldl
                  (fun (acc : List (Coordinate × Option Coordinate) × List Coordinate) pc =>
                    if m.wallD pc.1 pc.2 = false ∧ historyHasKey acc.1 pc.2 = false then
                      (acc.1 ++ [(pc.2, some pc.1)], acc.2 ++ [pc.2])
                    else acc) (h, rest)) = (h ++ Δ, rest ++ keysOf Δ) ∧
                ∃ d' q1' q2',
                  SolveInv cfg B m (rest ++ keysOf Δ) (h ++ Δ) d' q1' q2' := by
              cases q1 with
              | nil =>
                  have hinv2 := solveInv_shift hinv
                  have hq1 : p :: rest = q2 ++ [] := hinv2.1
                  rw [List.append_nil] at hq1
                  cases q2 with
                  | nil => simp at hq1
                  | cons p2 q2t =>
                      obtain ⟨he, hrest2⟩ := List.cons_eq_cons.mp hq1
                      subst he
                      obtain ⟨Δ, heq, hinv3⟩ := solveInv_step hperm hInB rng hinv2
                      exact ⟨Δ, heq, _, _, _, hinv3⟩
              | cons p1 q1t =>
                  have hp1 : p1 = p := by
                    obtain ⟨he, _⟩ := List.cons_eq_cons.mp hinv.1
                    exact he.symm
                  subst hp1
                  obtain ⟨Δ, heq, hinv3⟩ := solveInv_step hperm hInB rng hinv
                  exact ⟨Δ, heq, _, _, _, hinv3⟩
            obtain ⟨Δ, heq, d', q1', q2', hinv3⟩ := hstep
            have hstep_eq : solve_loop o cfg m B (fuel + 1) (p :: rest) h rng =
                solve_loop o cfg m B fuel (rest ++ keysOf Δ) (h ++ Δ)
                  (get_unvisited_neighbors o cfg B rng p false).2 := by
              simp only [solve_loop]
              rw [if_neg hexit]
              rw [heq]
            rw [hstep_eq]
            refine ih _ _ _ _ _ _ hinv3 ?_
            have hkeysΔlen : (keysOf Δ).length = Δ.length := by
              unfold keysOf
              rw [List.length_map]
            rw [List.length_append, List.length_append, hkeysΔlen]
            rw [List.length_cons] at hfuel
            omega

lemma back_walk_none (hist : List (Coordinate × Option Coordinate)) (f : Nat)
    (m : Maze) (p : List Coordinate) : back_walk hist f m p none = (m, p) := by
  cases f <;> rfl

lemma epath_snoc {E : Coordinate → Coordinate → Prop} {a b c : Coordinate}
    {p : List Coordinate} (h : EPath E a b p) (hbc : E b c) :
    EPath E a c (p ++ [c]) := by
  obtain ⟨hne, hh, hl, hch⟩ := h
  refine ⟨by simp, by rw [head?_append_left hne]; exact hh,
    by rw [List.getLast?_concat], ?_⟩
  rw [List.chain'_append]
  refine ⟨hch, by simp, ?_⟩
  intro x hx y hy
  rw [hl] at hx
  injection hx with hx
  rw [List.head?_cons] at hy
  injection hy with hy
  rw [← hx, ← hy]
  exact hbc

lemma back_walk_spec {W : Coordinate → Coordinate → Prop} {e : Coordinate}
    {hist : List (Coordinate × Option Coordinate)}
    (hnd : (keysOf hist).Nodup)
    (hchain : ∀ pr ∈ hist, (pr.2 = none ∧ pr.1 = e) ∨
      ∃ u k, pr.2 = some u ∧ W u pr.1 ∧ IsDist W e k u ∧ IsDist W e (k + 1) pr.1 ∧
        u ∈ keysOf hist) :
    ∀ (k : Nat) (c : Coordinate), c ∈ keysOf hist → IsDist W e k c →
      ∀ (fuel : Nat), k + 1 ≤ fuel → ∀ (m0 : Maze) (path0 : List Coordinate),
      ∃ (tail : List Coordinate) (m' : Maze),
        back_walk hist fuel m0 path0 (some c) = (m', path0 ++ tail) ∧
        tail.head? = some c ∧ tail.getLast? = some e ∧ tail.length = k + 1 ∧
        tail.Nodup ∧ EPath W e c tail.reverse ∧
        (∀ t ∈ tail, ∃ j, IsDist W e j t ∧ j ≤ k) ∧
        (∀ x y : Int, (m'.get_cell x y).type =
          if ((x, y) : Coordinate) ∈ tail then CellType.PATH
          else (m0.get_cell x y).type) := by
  intro k
  induction k with
  | zero =>
      intro c hckey hcd fuel hfuel m0 path0
      obtain ⟨op, hop⟩ := mem_keysOf.mp hckey
      have hce : c = e := isDist_zero_eq hcd
      subst hce
      have hopnone : op = none := by
        rcases hchain (c, op) hop with ⟨hn, _⟩ | ⟨u, k2, hsome, _, _, hdc, _⟩
        · exact hn
        · exact absurd (isDist_unique hcd hdc) (by omega)
      subst hopnone
      obtain ⟨f, rfl⟩ : ∃ f, fuel = f + 1 := ⟨fuel - 1, by omega⟩
      refine ⟨[c], m0.modifyCell c.1 c.2 (fun cl => { cl with type := CellType.PATH }),
        ?_, rfl, rfl, rfl, by simp, ⟨by simp, rfl, rfl, by simp⟩, ?_, ?_⟩
      · show back_walk hist f
          (m0.modifyCell c.1 c.2 (fun cl => { cl with type := CellType.PATH }))
          (path0 ++ [c]) (historyGet hist c) = _
        rw [historyGet_eq hnd hop, back_walk_none]
      · intro t ht
        rw [List.mem_singleton.mp ht]
        exact ⟨0, hcd, Nat.le_refl 0⟩
      · intro x y
        rw [get_cell_modifyCell]
        by_cases hxy : ((x, y) : Coordinate) = c
        · rw [if_pos (hxy.trans Prod.mk.eta.symm), if_pos (by rw [hxy]; simp)]
        · rw [if_neg (fun hc2 => hxy (hc2.trans Prod.mk.eta)),
            if_neg (by simpa using hxy)]
  | succ k ih =>
      intro c hckey hcd fuel hfuel m0 path0
      obtain ⟨op, hop⟩ := mem_keysOf.mp hckey
      obtain ⟨u, hopu, hWuc, hdu, hukey⟩ : ∃ u, op = some u ∧ W u c ∧
          IsDist W e k u ∧ u ∈ keysOf hist := by
        rcases hchain (c, op) hop with ⟨hn, hce⟩ | ⟨u, k2, hsome, hW2, hdu2, hdc2, hukey2⟩
        · exfalso
          dsimp only at hce
          rw [hce] at hcd
          exact absurd (isDist_unique hcd isDist_zero) (by omega)
        · dsimp only at hsome hdc2
          have hk2 : k2 = k := by
            have h12 := isDist_unique hcd hdc2
            omega
          subst hk2
          exact ⟨u, hsome, hW2, hdu2, hukey2⟩
      subst hopu
      obtain ⟨f, rfl⟩ : ∃ f, fuel = f + 1 := ⟨fuel - 1, by omega⟩
      obtain ⟨tail2, m', heq, hh2, hl2, hlen2, hnd2, hep2, hdists2, htypes2⟩ :=
        ih u hukey hdu f (by omega)
          (m0.modifyCell c.1 c.2 (fun cl => { cl with type := CellType.PATH }))
          (path0 ++ [c])
      refine ⟨c :: tail2, m', ?_, rfl, ?_, ?_, ?_, ?_, ?_, ?_⟩
      · show back_walk hist f
          (m0.modifyCell c.1 c.2 (fun cl => { cl with type := CellType.PATH }))
          (path0 ++ [c]) (historyGet hist c) = _
        rw [historyGet_eq hnd hop, heq, List.append_assoc]
        rfl
      · cases tail2 with
        | nil => simp at hh2
        | cons t0 t2 =>
            rw [show ((c :: t0 :: t2).getLast? = (t0 :: t2).getLast?) from rfl]
            exact hl2
      · rw [List.length_cons, hlen2]
      · rw [List.nodup_cons]
        refine ⟨?_, hnd2⟩
        intro hc2
        obtain ⟨j, hdj, hjle⟩ := hdists2 c hc2
        have := isDist_unique hcd hdj
        omega
      · rw [List.reverse_cons]
        exact epath_snoc hep2 hWuc
      · intro t ht
        rcases List.mem_cons.mp ht with rfl | ht2
        · exact ⟨k + 1, hcd, Nat.le_refl _⟩
        · obtain ⟨j, hdj, hjle⟩ := hdists2 t ht2
          exact ⟨j, hdj, by omega⟩
      · intro x y
        rw [htypes2 x y, get_cell_modifyCell]
        by_cases h1 : ((x, y) : Coordinate) ∈ tail2
        · rw [if_pos h1, if_pos (List.mem_cons_of_mem _ h1)]
        · rw [if_neg h1]
          by_cases h2 : ((x, y) : Coordinate) = c
          · rw [if_pos (h2.trans Prod.mk.eta.symm), if_pos (by rw [h2]; simp)]
          · rw [if_neg (fun hc2 => h2 (hc2.trans Prod.mk.eta)), if_neg ?_]
            rw [List.mem_cons]
            push_neg
            exact ⟨h2, h1⟩

lemma walkN_reflTrans {W : Coordinate → Coordinate → Prop} {k : Nat}
    {a b : Coordinate} (h : WalkN W k a b) : Relation.ReflTransGen W a b := by
  induction h with
  | zero => exact Relation.ReflTransGen.refl
  | succ hw hs ih => exact Relation.ReflTransGen.tail ih hs

lemma dist_chain_list {W : Coordinate → Coordinate → Prop} {e : Coordinate}
    {hist : List (Coordinate × Option Coordinate)}
    (hchain : ∀ pr ∈ hist, (pr.2 = none ∧ pr.1 = e) ∨
      ∃ u k, pr.2 = some u ∧ W u pr.1 ∧ IsDist W e k u ∧ IsDist W e (k + 1) pr.1 ∧
        u ∈ keysOf hist) :
    ∀ (k : Nat) (c : Coordinate), c ∈ keysOf hist → IsDist W e k c →
      ∃ l : List Coordinate, l.Nodup ∧ l.length = k + 1 ∧
        (∀ t ∈ l, t ∈ keysOf hist) ∧ (∀ t ∈ l, ∃ j, IsDist W e j t ∧ j ≤ k) := by
  intro k
  induction k with
  | zero =>
      intro c hckey hcd
      refine ⟨[c], by simp, rfl, ?_, ?_⟩
      · intro t ht
        rw [List.mem_singleton.mp ht]
        exact hckey
      · intro t ht
        rw [List.mem_singleton.mp ht]
        exact ⟨0, hcd, Nat.le_refl 0⟩
  | succ k ih =>
      intro c hckey hcd
      obtain ⟨op, hop⟩ := mem_keysOf.mp hckey
      obtain ⟨u, hopu, hWuc, hdu, hukey⟩ : ∃ u, op = some u ∧ W u c ∧
          IsDist W e k u ∧ u ∈ keysOf hist := by
        rcases hchain (c, op) hop with ⟨hn, hce⟩ | ⟨u, k2, hsome, hW2, hdu2, hdc2, hukey2⟩
        · exfalso
          dsimp only at hce
          rw [hce] at hcd
          exact absurd (isDist_unique hcd isDist_zero) (by omega)
        · dsimp only at hsome hdc2
          have hk2 : k2 = k := by
            have h12 := isDist_unique hcd hdc2
            omega
          subst hk2
          exact ⟨u, hsome, hW2, hdu2, hukey2⟩
      obtain ⟨l, hlnd, hllen, hlkeys, hldist⟩ := ih u hukey hdu
      refine ⟨c :: l, ?_, by rw [List.length_cons, hllen], ?_, ?_⟩
      · rw [List.nodup_cons]
        refine ⟨?_, hlnd⟩
        intro hcl
        obtain ⟨j, hdj, hjle⟩ := hldist c hcl
        have := isDist_unique hcd hdj
        omega
      · intro t ht
        rcases List.mem_cons.mp ht with rfl | ht2
        · exact hckey
        · exact hlkeys t ht2
      · intro t ht
        rcases List.mem_cons.mp ht with rfl | ht2
        · exact ⟨k + 1, hcd, Nat.le_refl _⟩
        · obtain ⟨j, hdj, hjle⟩ := hldist t ht2
          exact ⟨j, hdj, by omega⟩

lemma get_cell_set_path (m : Maze) (p : List Coordinate) (a b : Int) :
    (m.set_path p).get_cell a b = m.get_cell a b :=
  rfl

/-- C2: on a maze whose outer border and blocked cells are sealed by walls,
with the entry and exit in bounds, distinct, non-blocked, and the exit
wall-free-reachable from the entry, `solve_maze` stores a wall-free
duplicate-free path from the entry to the exit of minimal length among all
wall-free entry-to-exit paths; afterwards every intermediate path cell has
type PATH and the endpoints have types ENTRY and EXIT. -/
theorem solve_maze_shortest_path (o : Oracle) (cfg : Config) (s : GenState)
    (hperm : o.Permutes) (hval : cfg.Valid) (B : List Coordinate)
    (hB : B = s.maze.get_blocked_cells)
    (heB : cfg.entry ∉ B) (hexB : cfg.exit ∉ B)
    (hbound : ∀ u v, Adjacent u v → InB cfg u → ¬ InB cfg v →
      s.maze.wallD u v = true)
    (hblk : ∀ u v, Adjacent u v → v ∈ B → s.maze.wallD u v = true)
    (hreach : ∃ q, WallFreePath s.maze cfg.entry cfg.exit q) :
    WallFreePath s.maze cfg.entry cfg.exit (solve_maze o cfg s).maze.path ∧
    (solve_maze o cfg s).maze.path.Nodup ∧
    (∀ q, WallFreePath s.maze cfg.entry cfg.exit q →
      (solve_maze o cfg s).maze.path.length ≤ q.length) ∧
    (∀ c ∈ (solve_maze o cfg s).maze.path, c ≠ cfg.entry → c ≠ cfg.exit →
      ((solve_maze o cfg s).maze.get_cell c.1 c.2).type = CellType.PATH) ∧
    ((solve_maze o cfg s).maze.get_cell cfg.entry.1 cfg.entry.2).type =
      CellType.ENTRY ∧
    ((solve_maze o cfg s).maze.get_cell cfg.exit.1 cfg.exit.2).type =
      CellType.EXIT := by
  obtain ⟨hw2, hh2, hInBe, hInBx, hnexe⟩ := hval
  subst hB
  obtain ⟨q0, hq0⟩ := hreach
  have hq0W := wallfree_to_W hbound hblk hInBe heB hq0
  have hwalk := epath_to_walkN _ hq0W
  obtain ⟨kx, hkxle, hkdist⟩ := exists_isDist_of_walk _ _ hwalk
  have hfuelbound : ([cfg.entry] : List Coordinate).length +
      cfg.width * cfg.height + 1 ≤
      solve_fuel cfg + ([((cfg.entry : Coordinate), (none : Option Coordinate))]).length := by
    unfold solve_fuel
    rw [List.length_singleton, List.length_singleton]
    omega
  obtain ⟨hnd, hchain, hexitkey, hkeysreach⟩ :=
    solve_loop_spec hperm hInBe (solve_fuel cfg) [cfg.entry] [(cfg.entry, none)] s.rng
      0 [cfg.entry] [] (solveInv_init cfg s.maze.get_blocked_cells s.maze) hfuelbound
  have hxkey : cfg.exit ∈ keysOf (solve_loop o cfg s.maze s.maze.get_blocked_cells
      (solve_fuel cfg) [cfg.entry] [(cfg.entry, none)] s.rng).1 :=
    hexitkey (walkN_reflTrans hkdist.1)
  obtain ⟨lchain, hlnd, hllen, hlkeys, _⟩ := dist_chain_list hchain kx cfg.exit hxkey hkdist
  have hkxlen : kx + 1 ≤ (solve_loop o cfg s.maze s.maze.get_blocked_cells
      (solve_fuel cfg) [cfg.entry] [(cfg.entry, none)] s.rng).1.length := by
    have hle := nodup_subset_length hlnd hlkeys
    unfold keysOf at hle
    rw [List.length_map] at hle
    omega
  obtain ⟨tail2, m', hbw, hth, htl, htlen, htnd, htep, htdists, httypes⟩ :=
    back_walk_spec hnd hchain kx cfg.exit hxkey hkdist
      ((solve_loop o cfg s.maze s.maze.get_blocked_cells (solve_fuel cfg)
        [cfg.entry] [(cfg.entry, none)] s.rng).1.length + 1) (by omega) s.maze []
  rw [List.nil_append] at hbw
  have hm2 : (solve_maze o cfg s).maze =
      ((m'.set_path tail2.reverse).modifyCell cfg.entry.1 cfg.entry.2
        (fun cl => { cl with type := CellType.ENTRY })).modifyCell
        cfg.exit.1 cfg.exit.2 (fun cl => { cl with type := CellType.EXIT }) := by
    unfold solve_maze
    dsimp only
    rw [hbw]
  have hpath_eq : (solve_maze o cfg s).maze.path = tail2.reverse := by
    rw [hm2]
    rfl
  have hnex' : ((cfg.entry.1, cfg.entry.2) : Coordinate) ≠ (cfg.exit.1, cfg.exit.2) := by
    intro hq
    exact hnexe (by rw [← @Prod.mk.eta _ _ cfg.entry, ← @Prod.mk.eta _ _ cfg.exit]; exact hq)
  refine ⟨?_, ?_, ?_, ?_, ?_, ?_⟩
  · rw [hpath_eq]
    exact epath_mono (fun x y h => ⟨h.1, h.2.2.2⟩) htep
  · rw [hpath_eq]
    exact List.nodup_reverse.mpr htnd
  · intro q hq
    have hqW := wallfree_to_W hbound hblk hInBe heB hq
    have hqwalk := epath_to_walkN _ hqW
    have hqne : q ≠ [] := hq.1
    have hqlen : 1 ≤ q.length := by
      cases q with
      | nil => exact absurd rfl hqne
      | cons a l => rw [List.length_cons]; omega
    have hmin := hkdist.2 (q.length - 1) hqwalk
    rw [hpath_eq, List.length_reverse, htlen]
    omega
  · intro c hc hce hcx
    rw [hpath_eq, List.mem_reverse] at hc
    have hcx' : ((c.1, c.2) : Coordinate) ≠ (cfg.exit.1, cfg.exit.2) := by
      intro hq
      exact hcx (by rw [← @Prod.mk.eta _ _ c, ← @Prod.mk.eta _ _ cfg.exit]; exact hq)
    have hce' : ((c.1, c.2) : Coordinate) ≠ (cfg.entry.1, cfg.entry.2) := by
      intro hq
      exact hce (by rw [← @Prod.mk.eta _ _ c, ← @Prod.mk.eta _ _ cfg.entry]; exact hq)
    rw [hm2, get_cell_modifyCell, if_neg hcx', get_cell_modifyCell, if_neg hce',
      get_cell_set_path, httypes]
    rw [if_pos (by rw [Prod.mk.eta]; exact hc)]
  · rw [hm2, get_cell_modifyCell, if_neg hnex', get_cell_modifyCell, if_pos rfl]
  · rw [hm2, get_cell_modifyCell, if_pos rfl]

lemma reflTrans_to_walkN {W : Coordinate → Coordinate → Prop} {a b : Coordinate}
    (h : Relation.ReflTransGen W a b) : ∃ k, WalkN W k a b := by
  induction h with
  | refl => exact ⟨0, WalkN.zero a⟩
  | tail hab hs ih =>
      obtain ⟨k, hk⟩ := ih
      exact ⟨k + 1, WalkN.succ hk hs⟩

lemma walkN_to_epath {W : Coordinate → Coordinate → Prop} {k : Nat} {a b : Coordinate}
    (h : WalkN W k a b) : ∃ p, EPath W a b p ∧ p.length = k + 1 := by
  induction h with
  | zero a => exact ⟨[a], ⟨by simp, rfl, rfl, by simp⟩, rfl⟩
  | succ hw hs ih =>
      obtain ⟨p, hp, hlen⟩ := ih
      refine ⟨p ++ [_], epath_snoc hp hs, ?_⟩
      rw [List.length_append, hlen]
      rfl

lemma no_wallfree_in_init (w h : Nat) {a b : Coordinate} (hne : a ≠ b) :
    ¬ ∃ q, WallFreePath (Maze.init w h) a b q := by
  rintro ⟨q, hqne, hh, hl, hch⟩
  cases q with
  | nil => exact hqne rfl
  | cons x rest =>
      cases rest with
      | nil =>
          rw [List.head?_cons] at hh
          injection hh with hh
          rw [show (([x] : List Coordinate).getLast? = some x) from rfl] at hl
          injection hl with hl
          exact hne (by rw [← hh, ← hl])
      | cons y rest2 =>
          rw [List.chain'_cons] at hch
          have hfalse := hch.1.2
          rw [wallD_init] at hfalse
          exact absurd hfalse (by simp)

/-- C10: when the exit is not wall-free-reachable from the entry,
`solve_maze` still terminates and stores exactly the one-element path
consisting of the exit; no cell of the result has type PATH (the exit's
temporary PATH mark is overwritten), and the entry and exit cells get the
types ENTRY and EXIT. -/
theorem solve_maze_unreachable (o : Oracle) (cfg : Config) (s : GenState)
    (hperm : o.Permutes) (hval : cfg.Valid) (B : List Coordinate)
    (hB : B = s.maze.get_blocked_cells)
    (hnp : ∀ a b : Int, (s.maze.get_cell a b).type ≠ CellType.PATH)
    (hunreach : ¬ ∃ q, WallFreePath s.maze cfg.entry cfg.exit q) :
    (solve_maze o cfg s).maze.path = [cfg.exit] ∧
    (∀ a b : Int, ((solve_maze o cfg s).maze.get_cell a b).type ≠ CellType.PATH) ∧
    ((solve_maze o cfg s).maze.get_cell cfg.entry.1 cfg.entry.2).type =
      CellType.ENTRY ∧
    ((solve_maze o cfg s).maze.get_cell cfg.exit.1 cfg.exit.2).type =
      CellType.EXIT := by
  obtain ⟨hw2, hh2, hInBe, hInBx, hnexe⟩ := hval
  subst hB
  have hfuelbound : ([cfg.entry] : List Coordinate).length +
      cfg.width * cfg.height + 1 ≤
      solve_fuel cfg + ([((cfg.entry : Coordinate), (none : Option Coordinate))]).length := by
    unfold solve_fuel
    rw [List.length_singleton, List.length_singleton]
    omega
  obtain ⟨hnd, hchain, hexitkey, hkeysreach⟩ :=
    solve_loop_spec hperm hInBe (solve_fuel cfg) [cfg.entry] [(cfg.entry, none)] s.rng
      0 [cfg.entry] [] (solveInv_init cfg s.maze.get_blocked_cells s.maze) hfuelbound
  have hxnokey : cfg.exit ∉ keysOf (solve_loop o cfg s.maze s.maze.get_blocked_cells
      (solve_fuel cfg) [cfg.entry] [(cfg.entry, none)] s.rng).1 := by
    intro hxk
    obtain ⟨k, hwk⟩ := reflTrans_to_walkN (hkeysreach cfg.exit hxk)
    obtain ⟨p, hp, _⟩ := walkN_to_epath hwk
    exact hunreach ⟨p, epath_mono (fun x y h => ⟨h.1, h.2.2.2⟩) hp⟩
  have hbw : back_walk (solve_loop o cfg s.maze s.maze.get_blocked_cells
        (solve_fuel cfg) [cfg.entry] [(cfg.entry, none)] s.rng).1
      ((solve_loop o cfg s.maze s.maze.get_blocked_cells (solve_fuel cfg)
        [cfg.entry] [(cfg.entry, none)] s.rng).1.length + 1) s.maze []
      (some cfg.exit) =
      (s.maze.modifyCell cfg.exit.1 cfg.exit.2
        (fun cl => { cl with type := CellType.PATH }), [cfg.exit]) := by
    show back_walk _ _ (s.maze.modifyCell cfg.exit.1 cfg.exit.2
        (fun cl => { cl with type := CellType.PATH })) ([] ++ [cfg.exit])
        (historyGet _ cfg.exit) = _
    rw [historyGet_none hxnokey, back_walk_none, List.nil_append]
  have hm2 : (solve_maze o cfg s).maze =
      (((s.maze.modifyCell cfg.exit.1 cfg.exit.2
        (fun cl => { cl with type := CellType.PATH })).set_path
        ([cfg.exit] : List Coordinate).reverse).modifyCell cfg.entry.1 cfg.entry.2
        (fun cl => { cl with type := CellType.ENTRY })).modifyCell
        cfg.exit.1 cfg.exit.2 (fun cl => { cl with type := CellType.EXIT }) := by
    unfold solve_maze
    dsimp only
    rw [hbw]
  have hnex2 : ((cfg.entry.1, cfg.entry.2) : Coordinate) ≠ (cfg.exit.1, cfg.exit.2) := by
    intro hq
    exact hnexe (by rw [← @Prod.mk.eta _ _ cfg.entry, ← @Prod.mk.eta _ _ cfg.exit]; exact hq)
  refine ⟨?_, ?_, ?_, ?_⟩
  · rw [hm2]
    rfl
  · intro a b
    rw [hm2, get_cell_modifyCell]
    by_cases hx : ((a, b) : Coordinate) = (cfg.exit.1, cfg.exit.2)
    · rw [if_pos hx]
      intro hc
      cases hc
    · rw [if_neg hx, get_cell_modifyCell]
      by_cases he : ((a, b) : Coordinate) = (cfg.entry.1, cfg.entry.2)
      · rw [if_pos he]
        intro hc
        cases hc
      · rw [if_neg he, get_cell_set_path, get_cell_modifyCell, if_neg hx]
        exact hnp a b
  · rw [hm2, get_cell_modifyCell, if_neg hnex2, get_cell_modifyCell, if_pos rfl]
  · rw [hm2, get_cell_modifyCell, if_pos rfl]

/-- C10 witness: on the fully walled 2x2 grid the exit (1,1) is not
reachable from the entry (0,0), and `solve_maze` stores the path
`[(1,1)]`, marks no PATH cell, and types the entry ENTRY and the
exit EXIT. -/
theorem solve_maze_unreachable_witness :
    (solve_maze oTriv cfgC1 ⟨[], Maze.init 2 2, 0⟩).maze.path = [cfgC1.exit] ∧
    (∀ a b : Int, ((solve_maze oTriv cfgC1 ⟨[], Maze.init 2 2, 0⟩).maze.get_cell
      a b).type ≠ CellType.PATH) ∧
    ((solve_maze oTriv cfgC1 ⟨[], Maze.init 2 2, 0⟩).maze.get_cell
      cfgC1.entry.1 cfgC1.entry.2).type = CellType.ENTRY ∧
    ((solve_maze oTriv cfgC1 ⟨[], Maze.init 2 2, 0⟩).maze.get_cell
      cfgC1.exit.1 cfgC1.exit.2).type = CellType.EXIT :=
  solve_maze_unreachable oTriv cfgC1 ⟨[], Maze.init 2 2, 0⟩
    (fun n l => List.Perm.refl l) (by decide) [] (by decide)
    (fun a b => by
      show (({} : Cell)).type ≠ CellType.PATH
      decide)
    (no_wallfree_in_init 2 2 (by decide))

lemma boundary_seal_of {cfg : Config} {m : Maze}
    (hchk : ∀ u ∈ coordList cfg.width cfg.height,
      (u.1 = 0 → m.wallD u (u.1 - 1, u.2) = true) ∧
      (u.1 = (cfg.width : Int) - 1 → m.wallD u (u.1 + 1, u.2) = true) ∧
      (u.2 = 0 → m.wallD u (u.1, u.2 - 1) = true) ∧
      (u.2 = (cfg.height : Int) - 1 → m.wallD u (u.1, u.2 + 1) = true)) :
    ∀ u v, Adjacent u v → InB cfg u → ¬ InB cfg v → m.wallD u v = true := by
  intro u v hadj hu hnv
  have hcu := hchk u (coordList_mem.mpr hu)
  obtain ⟨h1, h2, h3, h4⟩ := hu
  unfold InB inGrid at hnv
  push_neg at hnv
  rcases hadj with ⟨ha1, ha2 | ha2⟩ | ⟨ha1, ha2 | ha2⟩
  · -- v lies north of u
    have hv : v = (u.1, u.2 - 1) := Prod.ext (by dsimp only; omega) (by dsimp only; omega)
    rw [hv] at hnv ⊢
    dsimp only at hnv
    have hu2 : u.2 = 0 := by
      by_contra hne
      exact absurd (hnv (by omega) (by omega) (by omega)) (by omega)
    exact hcu.2.2.1 hu2
  · -- v lies south of u
    have hv : v = (u.1, u.2 + 1) := Prod.ext (by dsimp only; omega) (by dsimp only; omega)
    rw [hv] at hnv ⊢
    dsimp only at hnv
    have hu2 : u.2 = (cfg.height : Int) - 1 := by
      by_contra hne
      exact absurd (hnv (by omega) (by omega) (by omega)) (by omega)
    exact hcu.2.2.2 hu2
  · -- v lies west of u
    have hv : v = (u.1 - 1, u.2) := Prod.ext (by dsimp only; omega) (by dsimp only; omega)
    rw [hv] at hnv ⊢
    dsimp only at hnv
    have hu1 : u.1 = 0 := by
      by_contra hne
      exact absurd (hnv (by omega) (by omega) (by omega)) (by omega)
    exact hcu.1 hu1
  · -- v lies east of u
    have hv : v = (u.1 + 1, u.2) := Prod.ext (by dsimp only; omega) (by dsimp only; omega)
    rw [hv] at hnv ⊢
    dsimp only at hnv
    have hu1 : u.1 = (cfg.width : Int) - 1 := by
      by_contra hne
      exact absurd (hnv (by omega) (by omega) (by omega)) (by omega)
    exact hcu.2.1 hu1

/-- C2 witness: the shortest-path theorem instantiated on the concrete 2x2
carved maze `mC2` with entry (0,0) and exit (1,1); the explicit wall-free
path (0,0)-(0,1)-(1,1) discharges the reachability hypothesis. -/
theorem solve_maze_shortest_path_witness :
    WallFreePath mC2 cfgC1.entry cfgC1.exit
      (solve_maze oTriv cfgC1 ⟨[], mC2, 0⟩).maze.path ∧
    (solve_maze oTriv cfgC1 ⟨[], mC2, 0⟩).maze.path.Nodup ∧
    (∀ q, WallFreePath mC2 cfgC1.entry cfgC1.exit q →
      (solve_maze oTriv cfgC1 ⟨[], mC2, 0⟩).maze.path.length ≤ q.length) ∧
    (∀ c ∈ (solve_maze oTriv cfgC1 ⟨[], mC2, 0⟩).maze.path, c ≠ cfgC1.entry →
      c ≠ cfgC1.exit →
      ((solve_maze oTriv cfgC1 ⟨[], mC2, 0⟩).maze.get_cell c.1 c.2).type =
        CellType.PATH) ∧
    ((solve_maze oTriv cfgC1 ⟨[], mC2, 0⟩).maze.get_cell cfgC1.entry.1
      cfgC1.entry.2).type = CellType.ENTRY ∧
    ((solve_maze oTriv cfgC1 ⟨[], mC2, 0⟩).maze.get_cell cfgC1.exit.1
      cfgC1.exit.2).type = CellType.EXIT :=
  solve_maze_shortest_path oTriv cfgC1 ⟨[], mC2, 0⟩ (fun n l => List.Perm.refl l)
    (by decide) [] (by decide) (by decide) (by decide)
    (boundary_seal_of (by decide))
    (fun u v hadj hv => absurd hv (List.not_mem_nil v))
    ⟨[(0, 0), (0, 1), (1, 1)], by decide, rfl, rfl,
      List.chain'_cons.mpr ⟨⟨by decide, by decide⟩,
        List.chain'_cons.mpr ⟨⟨by decide, by decide⟩, List.chain'_singleton _⟩⟩⟩

end Mazegen
